import Mathlib

/-! A shallow embedding of `ts_compiler_code.c`.

The program is a three stage pipeline: `lex` turns the source string into the
global `tokens` array, `parse_var_decl` builds one `ASTNode` from it, and
`emit_bytecode` appends to the three global output buffers.

Conventions of the embedding.

* A C string is the list of the characters that come before its terminating
  NUL; the end of the list stands for the terminator.
* A pointer into the source (`&src[pos]`) is the suffix of the list that starts
  at `pos`; each fixed-size array that is filled from index `0` is the list of
  the entries written so far, its index variable being the length of the list.
* Every function returns an `Outcome`: a value, the call `exit(1)` of
  `parse_primary` with the lexeme it printed, or `undefined` where the C
  standard does not determine what the program does (a write or read outside a
  fixed-size array, a string read of a lexeme that was stored without
  terminator).
* `atoi` is a library function. It has no error return and `parse_number`
  checks no range, so parsing goes on whatever the number is; for a number that
  an `int` cannot hold the embedding takes the `int` that
  `(int) strtol(s, NULL, 10)` gives with a 64-bit `long`.
* `malloc` is taken to succeed and the call stack to be deep enough.
* The trace lines written with `printf` are not part of the embedding, except
  for the lexeme printed before `exit(1)` and the three lines `main` prints at
  the end.
-/

namespace TsCompiler

/-! ## Outcomes -/

/-- Result of running a piece of the program. -/
inductive Outcome (α : Type) where
  | ok (val : α)
  | exit (status : Int) (lexeme : List Char)
  | undefined
deriving DecidableEq, Repr

namespace Outcome

/-- Sequencing: the second step runs only when the first one returned. -/
def bind {α β : Type} (x : Outcome α) (f : α → Outcome β) : Outcome β :=
  match x with
  | ok a => f a
  | exit s l => exit s l
  | undefined => undefined

end Outcome

/-! ## Character classes of `<ctype.h>` in the "C" locale -/

/-- The six white-space characters: space, `\t`, `\n`, `\v`, `\f`, `\r`.
Characters outside ASCII belong to none of the classes. -/
def isspace (c : Char) : Bool :=
  c = ' ' || (9 ≤ c.toNat && c.toNat ≤ 13)

def isdigit (c : Char) : Bool :=
  48 ≤ c.toNat && c.toNat ≤ 57

def isalpha (c : Char) : Bool :=
  (65 ≤ c.toNat && c.toNat ≤ 90) || (97 ≤ c.toNat && c.toNat ≤ 122)

def isalnum (c : Char) : Bool :=
  isalpha c || isdigit c

/-! ## Lexer -/

inductive TokenType where
  | TOK_LET | TOK_FUNCTION | TOK_RETURN
  | TOK_IDENTIFIER | TOK_NUMBER
  | TOK_EQUAL | TOK_PLUS | TOK_MINUS | TOK_STAR | TOK_SLASH
  | TOK_LPAREN | TOK_RPAREN
  | TOK_LBRACE | TOK_RBRACE
  | TOK_COLON | TOK_SEMICOLON
  | TOK_EOF | TOK_UNKNOWN
deriving DecidableEq, Repr

open TokenType

/-- Contents of the array `char lexeme[64]` of a stored token. -/
inductive Lexeme where
  /-- The array holds the NUL-terminated string `s`. -/
  | text (s : List Char)
  /-- The first 63 bytes of the array are `bytes`, none of them NUL, and byte 63
  has never been written: the array holds no string. -/
  | unterminated (bytes : List Char)
deriving DecidableEq, Repr

/-- `typedef struct { TokenType type; char lexeme[64]; } Token;` -/
structure Token where
  type : TokenType
  lexeme : Lexeme
deriving DecidableEq, Repr

def MAX_TOKENS : Nat := 256

/-- `strncpy(tok.lexeme, lexeme, 63)` into the lexeme of the uninitialised local
`tok`: the first 63 bytes become the characters of `lexeme` followed by NULs when
`lexeme` has fewer than 63 characters, and its first 63 characters with no NUL
otherwise; byte 63 is not written. -/
def strncpy63 (lexeme : List Char) : Lexeme :=
  if lexeme.length < 63 then .text lexeme else .unterminated (lexeme.take 63)

/-- A read of a lexeme as a string (`%s`, `atoi`, `strcpy`). Without terminator
the read runs into the unwritten byte 63 and whatever follows the array. -/
def Lexeme.read : Lexeme → Outcome (List Char)
  | .text s => .ok s
  | .unterminated _ => .undefined

/-- The read `lexeme[0]`; the first byte of the empty string is its terminator. -/
def Lexeme.first : Lexeme → Char
  | .text s => s.headD (Char.ofNat 0)
  | .unterminated bytes => bytes.headD (Char.ofNat 0)

/-- `add_token(type, lexeme)`, on the list of the tokens stored so far
(`token_index` is its length): `tokens[token_index++] = tok` is inside the array
only while `token_index < MAX_TOKENS`. -/
def add_token (type : TokenType) (lexeme : List Char) (tokens : List Token) :
    Outcome (List Token) :=
  if tokens.length < MAX_TOKENS then .ok (tokens ++ [⟨type, strncpy63 lexeme⟩])
  else .undefined

/-- The `strcmp` chain of the letter branch of `lex`. -/
def word_type (lex : List Char) : TokenType :=
  if lex = "let".toList then TOK_LET
  else if lex = "function".toList then TOK_FUNCTION
  else if lex = "return".toList then TOK_RETURN
  else TOK_IDENTIFIER

/-- The `switch (c)` of the last branch of `lex`. -/
def single_type (c : Char) : TokenType :=
  if c = '=' then TOK_EQUAL
  else if c = '+' then TOK_PLUS
  else if c = '-' then TOK_MINUS
  else if c = '*' then TOK_STAR
  else if c = '/' then TOK_SLASH
  else if c = '(' then TOK_LPAREN
  else if c = ')' then TOK_RPAREN
  else if c = Char.ofNat 123 then TOK_LBRACE
  else if c = Char.ofNat 125 then TOK_RBRACE
  else if c = ':' then TOK_COLON
  else if c = ';' then TOK_SEMICOLON
  else TOK_UNKNOWN

/-- The `while (src[pos])` loop of `lex`; `rest` is `&src[pos]`. Every
iteration moves `pos` forward, so `fuel` above the length of `rest` is never
used up.

In the letter and digit branches the run `&src[start] .. &src[pos]` is copied
into `char lex[64]` and terminated with `lex[pos - start] = 0`, which stays
inside the array only for runs shorter than 64. -/
def lex_loop : Nat → List Char → List Token → Outcome (List Token)
  | 0, _, _ => .undefined
  | _ + 1, [], tokens => .ok tokens
  | fuel + 1, c :: cs, tokens =>
    if c = Char.ofNat 0 then .ok tokens
    else if isspace c then lex_loop fuel cs tokens
    else if isalpha c then
      let lex := (c :: cs).takeWhile isalnum
      if lex.length < 64 then
        (add_token (word_type lex) lex tokens).bind
          (lex_loop fuel ((c :: cs).dropWhile isalnum))
      else .undefined
    else if isdigit c then
      let lex := (c :: cs).takeWhile isdigit
      if lex.length < 64 then
        (add_token TOK_NUMBER lex tokens).bind
          (lex_loop fuel ((c :: cs).dropWhile isdigit))
      else .undefined
    else
      (add_token (single_type c) [c] tokens).bind (lex_loop fuel cs)

/-- `lex()` run on the source `src` with `pos = 0` and `token_index = 0`:
the scanning loop, then `add_token(TOK_EOF, "")`. -/
def lex (src : List Char) : Outcome (List Token) :=
  (lex_loop (src.length + 1) src []).bind (add_token TOK_EOF [])

/-! ## AST -/

/-- `struct ASTNode`: the tag `type` together with the member of the union
that the tag selects. -/
inductive ASTNode where
  | AST_NUMBER (value : Int)
  | AST_BINARY (left right : ASTNode) (op : Char)
  | AST_VAR_DECL (name : List Char) (value : ASTNode)
deriving DecidableEq, Repr

open ASTNode

/-! ## Parser -/

def INT_MIN : Int := -2147483648
def INT_MAX : Int := 2147483647
def LONG_MIN : Int := -9223372036854775808
def LONG_MAX : Int := 9223372036854775807

/-- Value of a run of decimal digits, most significant digit first. -/
def digits_value (ds : List Char) : Nat :=
  ds.foldl (fun acc c => 10 * acc + (c.toNat - 48)) 0

/-- The number that `atoi` reads: white space is skipped, an optional sign is
read, then the longest run of digits. -/
def atoi_value (s : List Char) : Int :=
  let s1 := s.dropWhile isspace
  let s2 := if s1.head? = some '-' ∨ s1.head? = some '+' then s1.tail else s1
  let n : Int := (digits_value (s2.takeWhile isdigit) : Nat)
  if s1.head? = some '-' then -n else n

/-- `strtol(s, NULL, 10)` with a 64-bit `long`: the number read, or the nearer
one of `LONG_MIN` and `LONG_MAX` when it is outside `long`. -/
def strtol (s : List Char) : Int :=
  if atoi_value s < LONG_MIN then LONG_MIN
  else if LONG_MAX < atoi_value s then LONG_MAX
  else atoi_value s

/-- The conversion `(int) v` of a `long`: its low 32 bits in two's complement. -/
def int_of_long (v : Int) : Int :=
  (v + 2147483648) % 4294967296 - 2147483648

/-- The `int` that `atoi` returns, `(int) strtol(s, NULL, 10)`: the number read
when an `int` can hold it, and the low 32 bits of the `long` otherwise. -/
def atoi_int (s : List Char) : Int :=
  int_of_long (strtol s)

/-- `atoi` of `<stdlib.h>`. It always returns: it has no error result, and a
number that an `int` cannot hold comes back as the `int` of `atoi_int`. -/
def atoi (s : List Char) : Outcome Int :=
  .ok (atoi_int s)

/-- An entry of `tokens` that `lex` has not written: static storage is
zero-initialised, kind `0` is `TOK_LET` and the lexeme is empty. -/
def zero_token : Token := ⟨TOK_LET, .text []⟩

/-- The read `tokens[i]` of the global array `Token tokens[MAX_TOKENS]`, of
which `tokens` lists the entries written by `lex`. -/
def token_at (tokens : List Token) (i : Nat) : Outcome Token :=
  if i < MAX_TOKENS then .ok (tokens.getD i zero_token) else .undefined

/-- `Token peek() { return tokens[current]; }` -/
def peek (tokens : List Token) (current : Nat) : Outcome Token :=
  token_at tokens current

/-- `Token advance() { return tokens[current++]; }`: the token and the new
value of `current`. -/
def advance (tokens : List Token) (current : Nat) : Outcome (Token × Nat) :=
  (token_at tokens current).bind fun t => .ok (t, current + 1)

/-- `int match(TokenType type)`: the result and the new value of `current`. -/
def match_ (tokens : List Token) (current : Nat) (type : TokenType) :
    Outcome (Bool × Nat) :=
  (peek tokens current).bind fun t =>
    if t.type = type then
      (advance tokens current).bind fun r => .ok (true, r.2)
    else .ok (false, current)

/-- `parse_number()`: a number node with `atoi(tokens[current - 1].lexeme)`. -/
def parse_number (tokens : List Token) (current : Nat) : Outcome ASTNode :=
  if current = 0 then .undefined
  else (token_at tokens (current - 1)).bind fun t =>
    t.lexeme.read.bind fun s =>
    (atoi s).bind fun v => .ok (AST_NUMBER v)

/-- `parse_primary()`: the node and the new value of `current`, or `exit(1)`
after printing the lexeme of `peek()`. -/
def parse_primary (tokens : List Token) (current : Nat) : Outcome (ASTNode × Nat) :=
  (match_ tokens current TOK_NUMBER).bind fun m =>
    if m.1 then (parse_number tokens m.2).bind fun node => .ok (node, m.2)
    else (peek tokens m.2).bind fun t =>
      t.lexeme.read.bind fun s => .exit 1 s

/-- The condition `match(a) || match(b)` of the two parser loops. -/
def match_either (tokens : List Token) (current : Nat) (a b : TokenType) :
    Outcome (Bool × Nat) :=
  (match_ tokens current a).bind fun m =>
    if m.1 then .ok m else match_ tokens m.2 b

/-- `tokens[current - 1].lexeme[0]` -/
def op_char (tokens : List Token) (current : Nat) : Outcome Char :=
  if current = 0 then .undefined
  else (token_at tokens (current - 1)).bind fun t => .ok t.lexeme.first

/-- The `while` loop of `parse_term`, entered with the node `left`. Every
iteration reads `tokens[current]` and moves `current` forward, so it runs out of
`fuel` only where the read is outside the array. -/
def parse_term_loop : Nat → List Token → ASTNode → Nat → Outcome (ASTNode × Nat)
  | 0, _, _, _ => .undefined
  | fuel + 1, tokens, left, current =>
    (match_either tokens current TOK_STAR TOK_SLASH).bind fun m =>
      if m.1 then
        (op_char tokens m.2).bind fun op =>
          (parse_primary tokens m.2).bind fun r =>
            parse_term_loop fuel tokens (AST_BINARY left r.1 op) r.2
      else .ok (left, m.2)

/-- `parse_term()` -/
def parse_term (tokens : List Token) (current : Nat) : Outcome (ASTNode × Nat) :=
  (parse_primary tokens current).bind fun l =>
    parse_term_loop MAX_TOKENS tokens l.1 l.2

/-- The `while` loop of `parse_expression`, entered with the node `left`. -/
def parse_expression_loop : Nat → List Token → ASTNode → Nat → Outcome (ASTNode × Nat)
  | 0, _, _, _ => .undefined
  | fuel + 1, tokens, left, current =>
    (match_either tokens current TOK_PLUS TOK_MINUS).bind fun m =>
      if m.1 then
        (op_char tokens m.2).bind fun op =>
          (parse_term tokens m.2).bind fun r =>
            parse_expression_loop fuel tokens (AST_BINARY left r.1 op) r.2
      else .ok (left, m.2)

/-- `parse_expression()` -/
def parse_expression (tokens : List Token) (current : Nat) : Outcome (ASTNode × Nat) :=
  (parse_term tokens current).bind fun l =>
    parse_expression_loop MAX_TOKENS tokens l.1 l.2

/-- `parse_var_decl()` started with `current = 0`: the node and the final value
of `current`. The lexeme of `id` is read by `strcpy` after the last `advance`. -/
def parse_var_decl (tokens : List Token) : Outcome (ASTNode × Nat) :=
  (advance tokens 0).bind fun a1 =>
  (advance tokens a1.2).bind fun id =>
  (advance tokens id.2).bind fun a3 =>
  (parse_expression tokens a3.2).bind fun value =>
  (advance tokens value.2).bind fun a5 =>
  id.1.lexeme.read.bind fun name =>
  .ok (AST_VAR_DECL name value.1, a5.2)

/-! ## Bytecode -/

inductive OpCode where
  | OP_LOAD_CONST | OP_ADD | OP_SUB | OP_MUL | OP_DIV | OP_STORE_VAR
deriving DecidableEq, Repr

open OpCode

/-- Integer value of an enumerator of `OpCode`, as printed with `%d`. -/
def OpCode.code : OpCode → Int
  | OP_LOAD_CONST => 0
  | OP_ADD => 1
  | OP_SUB => 2
  | OP_MUL => 3
  | OP_DIV => 4
  | OP_STORE_VAR => 5

/-- The three output arrays `constants[128]`, `variables[128][64]` (field
`vars`) and `bytecode[128]`, each as the list of its first `const_index`,
`var_index` and `bc_index` entries. -/
structure Buffers where
  constants : List Int
  vars : List (List Char)
  bytecode : List OpCode
deriving DecidableEq, Repr

/-- State at program start: the three index variables are `0`. -/
def Buffers.empty : Buffers := ⟨[], [], []⟩

/-- `constants[const_index++] = v` -/
def push_constant (v : Int) (b : Buffers) : Outcome Buffers :=
  if b.constants.length < 128 then .ok { b with constants := b.constants ++ [v] }
  else .undefined

/-- `strcpy(variables[var_index++], name)` -/
def push_variable (name : List Char) (b : Buffers) : Outcome Buffers :=
  if b.vars.length < 128 then .ok { b with vars := b.vars ++ [name] }
  else .undefined

/-- `bytecode[bc_index++] = op` -/
def push_opcode (op : OpCode) (b : Buffers) : Outcome Buffers :=
  if b.bytecode.length < 128 then .ok { b with bytecode := b.bytecode ++ [op] }
  else .undefined

/-- `emit_bytecode(node)` on the current contents of the output buffers. -/
def emit_bytecode : ASTNode → Buffers → Outcome Buffers
  | AST_NUMBER value, b =>
    (push_constant value b).bind (push_opcode OP_LOAD_CONST)
  | AST_BINARY left right op, b =>
    (emit_bytecode left b).bind fun b1 =>
    (emit_bytecode right b1).bind fun b2 =>
      if op = '+' then push_opcode OP_ADD b2
      else if op = '-' then push_opcode OP_SUB b2
      else if op = '*' then push_opcode OP_MUL b2
      else if op = '/' then push_opcode OP_DIV b2
      else .ok b2
  | AST_VAR_DECL name value, b =>
    (emit_bytecode value b).bind fun b1 =>
    (push_variable name b1).bind (push_opcode OP_STORE_VAR)

/-! ## Main -/

/-- The pipeline of `main` on a source string: `lex()`, `parse_var_decl()`,
`emit_bytecode(ast)`, started from the initial values of all globals. -/
def compile (src : List Char) : Outcome Buffers :=
  (lex src).bind fun tokens =>
  (parse_var_decl tokens).bind fun ast =>
  emit_bytecode ast.1 Buffers.empty

/-- What `main` prints after the line `--Bytecode --`: the opcodes with `%d`,
the constants with `%d`, the variable names with `%s`. -/
structure Printed where
  bytecode : List Int
  constants : List Int
  vars : List (List Char)
deriving DecidableEq, Repr

/-- `main()`: the exit status and the printed buffers. -/
def main : Outcome (Int × Printed) :=
  (compile "let x = 5 * 3;".toList).bind fun b =>
    .ok (0, ⟨b.bytecode.map OpCode.code, b.constants, b.vars⟩)

/-! ## The scanner without its buffers -/

/-- A token as the specification describes it: a kind and the literal source
text. -/
structure SpecToken where
  type : TokenType
  text : List Char
deriving DecidableEq, Repr

/-- The classification rules of the scanner as the specification gives them
(white space skipped; a letter starts the maximal run of letters or digits,
classified as keyword or identifier; a digit starts the maximal run of digits;
any other character is a token of its own), with no bound on the number of
tokens or on the length of a lexeme. The end-of-input token is not included. -/
def spec_scan_loop : Nat → List Char → List SpecToken
  | 0, _ => []
  | _ + 1, [] => []
  | fuel + 1, c :: cs =>
    if c = Char.ofNat 0 then []
    else if isspace c then spec_scan_loop fuel cs
    else if isalpha c then
      ⟨word_type ((c :: cs).takeWhile isalnum), (c :: cs).takeWhile isalnum⟩ ::
        spec_scan_loop fuel ((c :: cs).dropWhile isalnum)
    else if isdigit c then
      ⟨TOK_NUMBER, (c :: cs).takeWhile isdigit⟩ ::
        spec_scan_loop fuel ((c :: cs).dropWhile isdigit)
    else ⟨single_type c, [c]⟩ :: spec_scan_loop fuel cs

/-- The tokens that the classification rules produce for `src`, before the
end-of-input token. -/
def spec_scan (src : List Char) : List SpecToken :=
  spec_scan_loop (src.length + 1) src

/-- The token that `add_token` stores for a token of the rules. -/
def SpecToken.stored (t : SpecToken) : Token :=
  ⟨t.type, strncpy63 t.text⟩

/-- The source stays within the arrays of the scanner: fewer than `MAX_TOKENS`
tokens before the end-of-input token (which takes one entry of `tokens`), each
with fewer than 64 characters (which go to `char lex[64]` with a terminator). -/
def fits_scanner (src : List Char) : Prop :=
  (spec_scan src).length < MAX_TOKENS ∧ ∀ t ∈ spec_scan src, t.text.length < 64

instance (src : List Char) : Decidable (fits_scanner src) :=
  inferInstanceAs (Decidable
    ((spec_scan src).length < MAX_TOKENS ∧ ∀ t ∈ spec_scan src, t.text.length < 64))

/-- Every token of the source has fewer than 63 characters, so that
`strncpy(tok.lexeme, lexeme, 63)` stores it with a terminator. -/
def short_lexemes (src : List Char) : Prop :=
  ∀ t ∈ spec_scan src, t.text.length < 63

instance (src : List Char) : Decidable (short_lexemes src) :=
  inferInstanceAs (Decidable (∀ t ∈ spec_scan src, t.text.length < 63))

/-- The eleven single-character punctuators. -/
def is_punctuator (c : Char) : Bool :=
  c = '=' || c = '+' || c = '-' || c = '*' || c = '/' || c = '(' || c = ')' ||
    c = Char.ofNat 123 || c = Char.ofNat 125 || c = ':' || c = ';'

/-- The three shapes of a token of the scanning loop: a word, a number, or a
single character that is neither a letter, a digit nor white space. -/
def scanned (t : SpecToken) : Prop :=
  (∃ c w, t.text = c :: w ∧ isalpha c = true ∧ (∀ x ∈ w, isalnum x = true) ∧
      t.type = word_type t.text) ∨
  (t.text ≠ [] ∧ (∀ x ∈ t.text, isdigit x = true) ∧ t.type = TOK_NUMBER) ∨
  (∃ c, t.text = [c] ∧ isalnum c = false ∧ isspace c = false ∧ c ≠ Char.ofNat 0 ∧
      t.type = single_type c)

/-! ## What the emitter appends -/

/-- The opcode that `emit_bytecode` appends for the `op` of a binary node; no
branch of the `if` chain is taken for other characters. -/
def op_code (op : Char) : List OpCode :=
  if op = '+' then [OP_ADD]
  else if op = '-' then [OP_SUB]
  else if op = '*' then [OP_MUL]
  else if op = '/' then [OP_DIV]
  else []

/-- The opcodes that `emit_bytecode node` appends to `bytecode`. -/
def code_of : ASTNode → List OpCode
  | AST_NUMBER _ => [OP_LOAD_CONST]
  | AST_BINARY left right op => code_of left ++ code_of right ++ op_code op
  | AST_VAR_DECL _ value => code_of value ++ [OP_STORE_VAR]

/-- The integers that `emit_bytecode node` appends to `constants`. -/
def constants_of : ASTNode → List Int
  | AST_NUMBER value => [value]
  | AST_BINARY left right _ => constants_of left ++ constants_of right
  | AST_VAR_DECL _ value => constants_of value

/-- The names that `emit_bytecode node` appends to `variables`. -/
def names_of : ASTNode → List (List Char)
  | AST_NUMBER _ => []
  | AST_BINARY left right _ => names_of left ++ names_of right
  | AST_VAR_DECL name value => names_of value ++ [name]

/-- The indices `const_index`, `var_index` and `bc_index` are within the arrays
or one past their end. -/
def Buffers.valid (b : Buffers) : Prop :=
  b.constants.length ≤ 128 ∧ b.vars.length ≤ 128 ∧ b.bytecode.length ≤ 128

/-- What `emit_bytecode node` appends fits the three arrays after the entries
of `b`. -/
def fits_buffers (node : ASTNode) (b : Buffers) : Prop :=
  b.constants.length + (constants_of node).length ≤ 128 ∧
  b.vars.length + (names_of node).length ≤ 128 ∧
  b.bytecode.length + (code_of node).length ≤ 128

instance (node : ASTNode) (b : Buffers) : Decidable (fits_buffers node b) :=
  inferInstanceAs (Decidable (_ ∧ _ ∧ _))

instance (b : Buffers) : Decidable b.valid :=
  inferInstanceAs (Decidable (_ ∧ _ ∧ _))

/-- The two counting equalities: as many `OP_LOAD_CONST` as constants, as many
`OP_STORE_VAR` as variable names. -/
def balanced (b : Buffers) : Prop :=
  b.bytecode.count OP_LOAD_CONST = b.constants.length ∧
  b.bytecode.count OP_STORE_VAR = b.vars.length

instance (b : Buffers) : Decidable (balanced b) :=
  inferInstanceAs (Decidable (_ ∧ _))

/-- Number of nodes of a tree. -/
def node_count : ASTNode → Nat
  | AST_NUMBER _ => 1
  | AST_BINARY left right _ => node_count left + node_count right + 1
  | AST_VAR_DECL _ value => node_count value + 1

/-- The expression trees of the grammar: number leaves and binary nodes whose
`op` is one of `+ - * /`. -/
def is_arith : ASTNode → Bool
  | AST_NUMBER _ => true
  | AST_BINARY left right op =>
    is_arith left && is_arith right && (op = '+' || op = '-' || op = '*' || op = '/')
  | AST_VAR_DECL _ _ => false

/-! ## Stack simulation of an instruction stream -/

/-- The four integer operations of the stack machine. -/
structure IntOps where
  add : Int → Int → Int
  sub : Int → Int → Int
  mul : Int → Int → Int
  div : Int → Int → Int

/-- Direct evaluation of an expression tree with the operations `ops`. -/
def eval_ast (ops : IntOps) : ASTNode → Option Int
  | AST_NUMBER value => some value
  | AST_BINARY left right op =>
    (eval_ast ops left).bind fun a =>
    (eval_ast ops right).bind fun b =>
      if op = '+' then some (ops.add a b)
      else if op = '-' then some (ops.sub a b)
      else if op = '*' then some (ops.mul a b)
      else if op = '/' then some (ops.div a b)
      else none
  | AST_VAR_DECL _ _ => none

/-- State of the stack simulation: the operand stack (top first), the bindings
made so far, and the entries of the two pools that have not been read yet. -/
structure Machine where
  stack : List Int
  bindings : List (List Char × Int)
  constants : List Int
  names : List (List Char)
deriving DecidableEq, Repr

/-- Pop the right operand, then the left one, and push the result. -/
def apply_binary (f : Int → Int → Int) (m : Machine) : Option Machine :=
  match m.stack with
  | b :: a :: rest => some { m with stack := f a b :: rest }
  | _ => none

/-- One instruction: `OP_LOAD_CONST` pushes the next constant, an arithmetic
opcode pops two operands and pushes the result, `OP_STORE_VAR` pops a value and
binds it to the next variable name. -/
def stack_step (ops : IntOps) : OpCode → Machine → Option Machine
  | OP_LOAD_CONST, m =>
    match m.constants with
    | c :: cs => some { m with stack := c :: m.stack, constants := cs }
    | [] => none
  | OP_ADD, m => apply_binary ops.add m
  | OP_SUB, m => apply_binary ops.sub m
  | OP_MUL, m => apply_binary ops.mul m
  | OP_DIV, m => apply_binary ops.div m
  | OP_STORE_VAR, m =>
    match m.stack, m.names with
    | v :: rest, n :: ns =>
      some { m with stack := rest, names := ns, bindings := m.bindings ++ [(n, v)] }
    | _, _ => none

/-- Run an instruction stream from a machine state. -/
def stack_simulate (ops : IntOps) : List OpCode → Machine → Option Machine
  | [], m => some m
  | op :: rest, m => (stack_step ops op m).bind (stack_simulate ops rest)

/-- Stack simulation of emitted buffers, from the empty stack: the final stack
and the bindings. -/
def simulate_buffers (ops : IntOps) (b : Buffers) :
    Option (List Int × List (List Char × Int)) :=
  (stack_simulate ops b.bytecode ⟨[], [], b.constants, b.vars⟩).map
    fun m => (m.stack, m.bindings)

/-- A left-leaning sum `1 + 1 + ... + 1` with `n` operators. -/
def sum_chain : Nat → ASTNode
  | 0 => AST_NUMBER 1
  | n + 1 => AST_BINARY (sum_chain n) (AST_NUMBER 1) '+'

/-- The operations of 32-bit two's complement arithmetic, with quotients
truncated toward zero. -/
def int32_ops : IntOps where
  add a b := (a + b + 2147483648) % 4294967296 - 2147483648
  sub a b := (a - b + 2147483648) % 4294967296 - 2147483648
  mul a b := (a * b + 2147483648) % 4294967296 - 2147483648
  div a b := (Int.tdiv a b + 2147483648) % 4294967296 - 2147483648

/-! ## Words and numerals -/

/-- A word: a letter followed by letters and digits. -/
def is_word (w : List Char) : Bool :=
  match w with
  | [] => false
  | c :: cs => isalpha c && cs.all isalnum

/-- A numeral: a non-empty run of decimal digits. -/
def is_numeral (d : List Char) : Bool :=
  match d with
  | [] => false
  | c :: cs => isdigit c && cs.all isdigit

/-- The source text `let v = a o1 b o2 c;` with single spaces as in the
scenarios of the specification. -/
def decl_source (v a b c : List Char) (o1 o2 : Char) : List Char :=
  ['l', 'e', 't', ' '] ++ v ++ [' ', '=', ' '] ++ a ++ [' ', o1, ' '] ++ b ++ [' ', o2, ' '] ++
    c ++ [';']

/-! ## The parser seen from outside -/

/-- The loop of `parse_term` and of `parse_expression`, which differ in the two
operator kinds `a`, `b` and in the function `sub` that parses the right operand. -/
def binary_loop (sub : List Token → Nat → Outcome (ASTNode × Nat)) (a b : TokenType) :
    Nat → List Token → ASTNode → Nat → Outcome (ASTNode × Nat)
  | 0, _, _, _ => .undefined
  | fuel + 1, tokens, left, current =>
    (match_either tokens current a b).bind fun m =>
      if m.1 then
        (op_char tokens m.2).bind fun op =>
          (sub tokens m.2).bind fun r =>
            binary_loop sub a b fuel tokens (AST_BINARY left r.1 op) r.2
      else .ok (left, m.2)

/-- An entry of the in-order traversal of a tree: the value of a number leaf or
the `op` of a binary node. -/
inductive Item where
  | num (value : Int)
  | op (c : Char)
deriving DecidableEq, Repr

/-- In-order traversal, left subtree first. -/
def inorder : ASTNode → List Item
  | AST_NUMBER value => [.num value]
  | AST_BINARY left right op => inorder left ++ [.op op] ++ inorder right
  | AST_VAR_DECL _ value => inorder value

/-- The bytes of a lexeme before its terminator, or all 63 written bytes. -/
def Lexeme.bytes : Lexeme → List Char
  | .text s => s
  | .unterminated bytes => bytes

/-- The lexeme was stored with its terminator. -/
def Lexeme.terminated : Lexeme → Bool
  | .text _ => true
  | .unterminated _ => false

/-- What a consumed token contributes to the tree: a `TOK_NUMBER` token the
`int` that `atoi` returns for its lexeme, an operator token the first character
of its lexeme. -/
def token_item (t : Token) : Item :=
  if t.type = TOK_NUMBER then .num (atoi_int t.lexeme.bytes) else .op t.lexeme.first

/-- The same with the decimal value of the lexeme of a `TOK_NUMBER` token. -/
def decimal_item (t : Token) : Item :=
  if t.type = TOK_NUMBER then .num (digits_value t.lexeme.bytes) else .op t.lexeme.first

/-- The entries `tokens[i]`, ..., `tokens[j - 1]` of the token array. -/
def token_range (tokens : List Token) (i j : Nat) : List Token :=
  (List.range' i (j - i)).map fun k => tokens.getD k zero_token

def is_mul_op (c : Char) : Bool := c = '*' || c = '/'

def is_add_op (c : Char) : Bool := c = '+' || c = '-'

/-- The tree contains a `+` or `-` node. -/
def has_add : ASTNode → Bool
  | AST_NUMBER _ => false
  | AST_BINARY left right op => is_add_op op || has_add left || has_add right
  | AST_VAR_DECL _ value => has_add value

def is_leaf : ASTNode → Bool
  | AST_NUMBER _ => true
  | _ => false

/-- The right child of every `*` or `/` node is a number leaf. -/
def mul_right_leaf : ASTNode → Bool
  | AST_NUMBER _ => true
  | AST_BINARY left right op =>
    (!is_mul_op op || is_leaf right) && mul_right_leaf left && mul_right_leaf right
  | AST_VAR_DECL _ value => mul_right_leaf value

/-- No `*` or `/` node has a `+` or `-` node beneath it. -/
def no_add_under_mul : ASTNode → Bool
  | AST_NUMBER _ => true
  | AST_BINARY left right op =>
    (!is_mul_op op || (!has_add left && !has_add right)) &&
      no_add_under_mul left && no_add_under_mul right
  | AST_VAR_DECL _ value => no_add_under_mul value

/-- The right child of every `+` or `-` node contains no `+` or `-` node. -/
def add_right_plain : ASTNode → Bool
  | AST_NUMBER _ => true
  | AST_BINARY left right op =>
    (!is_add_op op || !has_add right) && add_right_plain left && add_right_plain right
  | AST_VAR_DECL _ value => add_right_plain value

/-- Trees of `parse_term`: a number, or a `*` or `/` node over such a tree and a
number. -/
def term_tree : ASTNode → Bool
  | AST_NUMBER _ => true
  | AST_BINARY left right op => is_mul_op op && is_leaf right && term_tree left
  | AST_VAR_DECL _ _ => false

/-- Trees of `parse_expression`: a tree of `parse_term`, or a `+` or `-` node over
such a tree and a tree of `parse_term`. -/
def expr_tree : ASTNode → Bool
  | AST_NUMBER _ => true
  | AST_BINARY left right op =>
    (is_mul_op op && is_leaf right && term_tree left) ||
      (is_add_op op && term_tree right && expr_tree left)
  | AST_VAR_DECL _ _ => false

/-- The lexeme of an operator token is its character, as it is for the tokens
that `lex` stores. -/
def op_lexeme_ok (t : Token) : Prop :=
  (t.type = TOK_PLUS → t.lexeme = .text ['+']) ∧
    (t.type = TOK_MINUS → t.lexeme = .text ['-']) ∧
    (t.type = TOK_STAR → t.lexeme = .text ['*']) ∧
    (t.type = TOK_SLASH → t.lexeme = .text ['/'])

instance (t : Token) : Decidable (op_lexeme_ok t) :=
  inferInstanceAs (Decidable
    ((t.type = TOK_PLUS → t.lexeme = .text ['+']) ∧
      (t.type = TOK_MINUS → t.lexeme = .text ['-']) ∧
      (t.type = TOK_STAR → t.lexeme = .text ['*']) ∧
      (t.type = TOK_SLASH → t.lexeme = .text ['/'])))

/-- The lexeme of a `TOK_NUMBER` token is a run of digits, complete or cut to 63
bytes, as it is for the tokens that `lex` stores. -/
def number_lexeme_ok (t : Token) : Prop :=
  t.type = TOK_NUMBER → is_numeral t.lexeme.bytes = true

instance (t : Token) : Decidable (number_lexeme_ok t) :=
  inferInstanceAs (Decidable (t.type = TOK_NUMBER → is_numeral t.lexeme.bytes = true))

/-! ## Well-formed declarations -/

/-- The kinds of the four operator tokens. -/
def is_op_kind (k : TokenType) : Bool :=
  k = TOK_PLUS || k = TOK_MINUS || k = TOK_STAR || k = TOK_SLASH

/-- The token kinds of an expression of the grammar: a number, followed by any
number of pairs of an operator and a number. -/
def expr_kinds : List TokenType → Bool
  | [] => false
  | [k] => k = TOK_NUMBER
  | k :: o :: rest => k = TOK_NUMBER && is_op_kind o && expr_kinds rest

/-- A token that the parser consumes inside an expression: a number whose
lexeme was stored with its terminator, or an operator. -/
def consumable (t : Token) : Bool :=
  (t.type = TOK_NUMBER && t.lexeme.terminated) || is_op_kind t.type

/-! ## The reads of the token array

The parser once more, with every read `tokens[i]` recorded. -/

/-- The outcome of a piece of the parser together with the indices of its reads
of `tokens`, in the order in which they happen. -/
structure Traced (α : Type) where
  reads : List Nat
  outcome : Outcome α

/-- Sequencing: the second piece runs, and reads, only if the first returns. -/
def Traced.bind {α β : Type} (x : Traced α) (f : α → Traced β) : Traced β :=
  match x.outcome with
  | .ok a => ⟨x.reads ++ (f a).reads, (f a).outcome⟩
  | .exit status lexeme => ⟨x.reads, .exit status lexeme⟩
  | .undefined => ⟨x.reads, .undefined⟩

/-- A step that reads no entry of `tokens`. -/
def Traced.silent {α : Type} (x : Outcome α) : Traced α := ⟨[], x⟩

/-- The read `tokens[i]`. -/
def token_at_traced (tokens : List Token) (i : Nat) : Traced Token :=
  ⟨[i], token_at tokens i⟩

/-- `peek()` with its read. -/
def peek_traced (tokens : List Token) (current : Nat) : Traced Token :=
  token_at_traced tokens current

/-- `advance()` with its read. -/
def advance_traced (tokens : List Token) (current : Nat) : Traced (Token × Nat) :=
  (token_at_traced tokens current).bind fun t => .silent (.ok (t, current + 1))

/-- `match(type)` with its reads: one by `peek`, one more by `advance`. -/
def match_traced (tokens : List Token) (current : Nat) (type : TokenType) :
    Traced (Bool × Nat) :=
  (peek_traced tokens current).bind fun t =>
    if t.type = type then
      (advance_traced tokens current).bind fun r => .silent (.ok (true, r.2))
    else .silent (.ok (false, current))

/-- `parse_number()` with its read of `tokens[current - 1]`. -/
def parse_number_traced (tokens : List Token) (current : Nat) : Traced ASTNode :=
  if current = 0 then .silent .undefined
  else (token_at_traced tokens (current - 1)).bind fun t =>
    .silent (t.lexeme.read.bind fun s => (atoi s).bind fun v => .ok (AST_NUMBER v))

/-- `parse_primary()` with its reads. -/
def parse_primary_traced (tokens : List Token) (current : Nat) : Traced (ASTNode × Nat) :=
  (match_traced tokens current TOK_NUMBER).bind fun m =>
    if m.1 then (parse_number_traced tokens m.2).bind fun node => .silent (.ok (node, m.2))
    else (peek_traced tokens m.2).bind fun t =>
      .silent (t.lexeme.read.bind fun s => .exit 1 s)

/-- The condition `match(a) || match(b)` with its reads. -/
def match_either_traced (tokens : List Token) (current : Nat) (a b : TokenType) :
    Traced (Bool × Nat) :=
  (match_traced tokens current a).bind fun m =>
    if m.1 then .silent (.ok m) else match_traced tokens m.2 b

/-- `tokens[current - 1].lexeme[0]` with its read. -/
def op_char_traced (tokens : List Token) (current : Nat) : Traced Char :=
  if current = 0 then .silent .undefined
  else (token_at_traced tokens (current - 1)).bind fun t => .silent (.ok t.lexeme.first)

/-- The `while` loop of `parse_term` with its reads. -/
def parse_term_loop_traced : Nat → List Token → ASTNode → Nat → Traced (ASTNode × Nat)
  | 0, _, _, _ => .silent .undefined
  | fuel + 1, tokens, left, current =>
    (match_either_traced tokens current TOK_STAR TOK_SLASH).bind fun m =>
      if m.1 then
        (op_char_traced tokens m.2).bind fun op =>
          (parse_primary_traced tokens m.2).bind fun r =>
            parse_term_loop_traced fuel tokens (AST_BINARY left r.1 op) r.2
      else .silent (.ok (left, m.2))

/-- `parse_term()` with its reads. -/
def parse_term_traced (tokens : List Token) (current : Nat) : Traced (ASTNode × Nat) :=
  (parse_primary_traced tokens current).bind fun l =>
    parse_term_loop_traced MAX_TOKENS tokens l.1 l.2

/-- The `while` loop of `parse_expression` with its reads. -/
def parse_expression_loop_traced :
    Nat → List Token → ASTNode → Nat → Traced (ASTNode × Nat)
  | 0, _, _, _ => .silent .undefined
  | fuel + 1, tokens, left, current =>
    (match_either_traced tokens current TOK_PLUS TOK_MINUS).bind fun m =>
      if m.1 then
        (op_char_traced tokens m.2).bind fun op =>
          (parse_term_traced tokens m.2).bind fun r =>
            parse_expression_loop_traced fuel tokens (AST_BINARY left r.1 op) r.2
      else .silent (.ok (left, m.2))

/-- `parse_expression()` with its reads. -/
def parse_expression_traced (tokens : List Token) (current : Nat) :
    Traced (ASTNode × Nat) :=
  (parse_term_traced tokens current).bind fun l =>
    parse_expression_loop_traced MAX_TOKENS tokens l.1 l.2

/-- `parse_var_decl()` with its reads. The `strcpy` reads the copy `id`, not the
array. -/
def parse_var_decl_traced (tokens : List Token) : Traced (ASTNode × Nat) :=
  (advance_traced tokens 0).bind fun a1 =>
  (advance_traced tokens a1.2).bind fun id =>
  (advance_traced tokens id.2).bind fun a3 =>
  (parse_expression_traced tokens a3.2).bind fun value =>
  (advance_traced tokens value.2).bind fun a5 =>
  .silent (id.1.lexeme.read.bind fun name => .ok (AST_VAR_DECL name value.1, a5.2))

/-- The loop of `parse_term_traced` and of `parse_expression_traced`. -/
def binary_loop_traced (sub : List Token → Nat → Traced (ASTNode × Nat)) (a b : TokenType) :
    Nat → List Token → ASTNode → Nat → Traced (ASTNode × Nat)
  | 0, _, _, _ => .silent .undefined
  | fuel + 1, tokens, left, current =>
    (match_either_traced tokens current a b).bind fun m =>
      if m.1 then
        (op_char_traced tokens m.2).bind fun op =>
          (sub tokens m.2).bind fun r =>
            binary_loop_traced sub a b fuel tokens (AST_BINARY left r.1 op) r.2
      else .silent (.ok (left, m.2))

/-- The largest index among the reads. -/
def last_read (reads : List Nat) : Nat := reads.foldr max 0

/-- The largest index that `parse_expression`, called by `parse_var_decl` at
index 3, reads: the index of the first token that it does not consume. -/
def expression_end (tokens : List Token) : Nat :=
  last_read (parse_expression_traced tokens 3).reads

/-- The two token arrays have the same entry at every index of the list. -/
def same_at (a b : List Token) (k : Nat) : Prop :=
  a.getD k zero_token = b.getD k zero_token

instance (a b : List Token) (k : Nat) : Decidable (same_at a b k) :=
  inferInstanceAs (Decidable (a.getD k zero_token = b.getD k zero_token))

/-! # Theorems -/

/-! ## Facts about the scanner -/

theorem length_dropWhile_cons_le (p : Char → Bool) (c : Char) (cs : List Char)
    (h : p c = true) : ((c :: cs).dropWhile p).length ≤ cs.length := by
  rw [List.dropWhile_cons, if_pos h]
  exact (List.dropWhile_sublist p).length_le

theorem isalnum_of_isalpha {c : Char} (h : isalpha c = true) : isalnum c = true := by
  simp [isalnum, h]

theorem isalnum_of_isdigit {c : Char} (h : isdigit c = true) : isalnum c = true := by
  simp [isalnum, h]

theorem spec_scan_loop_fuel (f g : Nat) (src : List Char)
    (hf : src.length < f) (hg : src.length < g) :
    spec_scan_loop f src = spec_scan_loop g src := by
  induction f generalizing g src with
  | zero => omega
  | succ f ih =>
    cases g with
    | zero => omega
    | succ g =>
      cases src with
      | nil => simp [spec_scan_loop]
      | cons c cs =>
        simp only [List.length_cons] at hf hg
        simp only [spec_scan_loop]
        split_ifs with h0 hs ha hd
        · rfl
        · exact ih g cs (by omega) (by omega)
        · have := length_dropWhile_cons_le isalnum c cs (isalnum_of_isalpha ha)
          rw [ih g _ (by omega) (by omega)]
        · have := length_dropWhile_cons_le isdigit c cs hd
          rw [ih g _ (by omega) (by omega)]
        · rw [ih g cs (by omega) (by omega)]

theorem spec_scan_loop_eq (f : Nat) (src : List Char) (hf : src.length < f) :
    spec_scan_loop f src = spec_scan src :=
  spec_scan_loop_fuel f (src.length + 1) src hf (by omega)

theorem add_token_bind (type : TokenType) (lexeme : List Char) (tokens : List Token)
    (ts : List SpecToken)
    (k : List Token → Outcome (List Token)) (ht : tokens.length ≤ MAX_TOKENS)
    (hl : lexeme.length < 64)
    (hk : ∀ toks : List Token, toks.length ≤ MAX_TOKENS →
      k toks = if toks.length + ts.length ≤ MAX_TOKENS ∧ ∀ t ∈ ts, t.text.length < 64 then
        .ok (toks ++ ts.map SpecToken.stored) else .undefined) :
    (add_token type lexeme tokens).bind k =
      if tokens.length + ((⟨type, lexeme⟩ : SpecToken) :: ts).length ≤ MAX_TOKENS ∧
          ∀ t ∈ (⟨type, lexeme⟩ : SpecToken) :: ts, t.text.length < 64 then
        .ok (tokens ++ ((⟨type, lexeme⟩ : SpecToken) :: ts).map SpecToken.stored)
      else .undefined := by
  unfold add_token
  by_cases hn : tokens.length < MAX_TOKENS
  · rw [if_pos hn]
    simp only [Outcome.bind]
    rw [hk _ (by simp; omega)]
    simp only [List.length_append, List.length_cons, List.length_nil, List.mem_cons,
      forall_eq_or_imp, List.append_assoc, List.singleton_append, List.map_cons,
      SpecToken.stored]
    by_cases hc : tokens.length + (ts.length + 1) ≤ MAX_TOKENS ∧ ∀ t ∈ ts, t.text.length < 64
    · rw [if_pos (show tokens.length + (0 + 1) + ts.length ≤ MAX_TOKENS ∧
            ∀ t ∈ ts, t.text.length < 64 from ⟨by omega, hc.2⟩),
        if_pos (show tokens.length + (ts.length + 1) ≤ MAX_TOKENS ∧ lexeme.length < 64 ∧
            ∀ t ∈ ts, t.text.length < 64 from ⟨hc.1, hl, hc.2⟩)]
    · rw [if_neg (fun h : tokens.length + (0 + 1) + ts.length ≤ MAX_TOKENS ∧
            ∀ t ∈ ts, t.text.length < 64 => hc ⟨by omega, h.2⟩),
        if_neg (fun h : tokens.length + (ts.length + 1) ≤ MAX_TOKENS ∧ lexeme.length < 64 ∧
            ∀ t ∈ ts, t.text.length < 64 => hc ⟨h.1, h.2.2⟩)]
  · rw [if_neg hn, if_neg]
    · rfl
    · simp only [List.length_cons]; intro h; omega

theorem lex_loop_eq (f : Nat) (src : List Char) (tokens : List Token)
    (hf : src.length < f) (ht : tokens.length ≤ MAX_TOKENS) :
    lex_loop f src tokens =
      if tokens.length + (spec_scan_loop f src).length ≤ MAX_TOKENS ∧
          ∀ t ∈ spec_scan_loop f src, t.text.length < 64 then
        .ok (tokens ++ (spec_scan_loop f src).map SpecToken.stored)
      else .undefined := by
  induction f generalizing src tokens with
  | zero => omega
  | succ f ih =>
    cases src with
    | nil => simp [lex_loop, spec_scan_loop, ht]
    | cons c cs =>
      simp only [List.length_cons] at hf
      by_cases h0 : c = Char.ofNat 0
      · simp [lex_loop, spec_scan_loop, h0, ht]
      by_cases hs : isspace c = true
      · simp only [lex_loop, spec_scan_loop, if_neg h0, if_pos hs]
        exact ih cs tokens (by omega) ht
      by_cases ha : isalpha c = true
      · simp only [lex_loop, spec_scan_loop, if_neg h0, if_neg hs, if_pos ha]
        have hlen := length_dropWhile_cons_le isalnum c cs (isalnum_of_isalpha ha)
        by_cases h64 : ((c :: cs).takeWhile isalnum).length < 64
        · rw [if_pos h64]
          exact add_token_bind (word_type ((c :: cs).takeWhile isalnum))
            ((c :: cs).takeWhile isalnum) tokens
            (spec_scan_loop f ((c :: cs).dropWhile isalnum))
            (lex_loop f ((c :: cs).dropWhile isalnum)) ht h64
            (fun toks h => ih _ toks (by omega) h)
        · rw [if_neg h64, if_neg]
          intro h
          exact h64 (h.2 _ (List.mem_cons_self _ _))
      by_cases hd : isdigit c = true
      · simp only [lex_loop, spec_scan_loop, if_neg h0, if_neg hs, if_neg ha, if_pos hd]
        have hlen := length_dropWhile_cons_le isdigit c cs hd
        by_cases h64 : ((c :: cs).takeWhile isdigit).length < 64
        · rw [if_pos h64]
          exact add_token_bind TOK_NUMBER
            ((c :: cs).takeWhile isdigit) tokens
            (spec_scan_loop f ((c :: cs).dropWhile isdigit))
            (lex_loop f ((c :: cs).dropWhile isdigit)) ht h64
            (fun toks h => ih _ toks (by omega) h)
        · rw [if_neg h64, if_neg]
          intro h
          exact h64 (h.2 _ (List.mem_cons_self _ _))
      · simp only [lex_loop, spec_scan_loop, if_neg h0, if_neg hs, if_neg ha, if_neg hd]
        exact add_token_bind (single_type c) [c] tokens (spec_scan_loop f cs)
          (lex_loop f cs) ht (by simp) (fun toks h => ih _ toks (by omega) h)

/-- The scanner stores the tokens of the classification rules, followed by the
end-of-input token, when the source fits its arrays, and writes outside an array
otherwise. -/
theorem lex_eq (src : List Char) :
    lex src = if fits_scanner src then
        .ok ((spec_scan src).map SpecToken.stored ++ [⟨TOK_EOF, .text []⟩])
      else .undefined := by
  unfold lex
  rw [lex_loop_eq _ src [] (by omega) (by simp [MAX_TOKENS])]
  unfold fits_scanner spec_scan
  simp only [List.length_nil, Nat.zero_add, List.nil_append]
  by_cases h : (spec_scan_loop (src.length + 1) src).length < MAX_TOKENS ∧
      ∀ t ∈ spec_scan_loop (src.length + 1) src, t.text.length < 64
  · rw [if_pos ⟨by omega, h.2⟩, if_pos h]
    simp [Outcome.bind, add_token, h.1, strncpy63]
  · rw [if_neg h]
    by_cases h2 : (spec_scan_loop (src.length + 1) src).length ≤ MAX_TOKENS ∧
      ∀ t ∈ spec_scan_loop (src.length + 1) src, t.text.length < 64
    · rw [if_pos h2]
      have : ¬ (spec_scan_loop (src.length + 1) src).length < MAX_TOKENS :=
        fun h3 => h ⟨h3, h2.2⟩
      simp [Outcome.bind, add_token, this]
    · rw [if_neg h2]; rfl

/-- A token of fewer than 63 characters is stored with its text as lexeme. -/
theorem stored_short (t : SpecToken) (h : t.text.length < 63) :
    t.stored = ⟨t.type, .text t.text⟩ := by
  unfold SpecToken.stored strncpy63
  rw [if_pos h]

/-! ### Character classes -/

theorem isspace_toNat {c : Char} (h : isspace c = true) :
    c.toNat = 32 ∨ (9 ≤ c.toNat ∧ c.toNat ≤ 13) := by
  simp only [isspace, Bool.or_eq_true, decide_eq_true_eq, Bool.and_eq_true] at h
  rcases h with h | h
  · left; subst h; rfl
  · right; exact h

theorem isalpha_toNat {c : Char} (h : isalpha c = true) :
    (65 ≤ c.toNat ∧ c.toNat ≤ 90) ∨ (97 ≤ c.toNat ∧ c.toNat ≤ 122) := by
  simpa only [isalpha, Bool.or_eq_true, decide_eq_true_eq, Bool.and_eq_true] using h

theorem isdigit_toNat {c : Char} (h : isdigit c = true) : 48 ≤ c.toNat ∧ c.toNat ≤ 57 := by
  simpa only [isdigit, decide_eq_true_eq, Bool.and_eq_true] using h

theorem isalnum_toNat {c : Char} (h : isalnum c = true) :
    (65 ≤ c.toNat ∧ c.toNat ≤ 90) ∨ (97 ≤ c.toNat ∧ c.toNat ≤ 122) ∨
      (48 ≤ c.toNat ∧ c.toNat ≤ 57) := by
  simp only [isalnum, Bool.or_eq_true] at h
  rcases h with h | h
  · rcases isalpha_toNat h with h | h
    · exact Or.inl h
    · exact Or.inr (Or.inl h)
  · exact Or.inr (Or.inr (isdigit_toNat h))

theorem not_isspace_of_isalnum {c : Char} (h : isalnum c = true) : isspace c = false := by
  cases hs : isspace c with
  | false => rfl
  | true =>
    have h1 := isspace_toNat hs
    have h2 := isalnum_toNat h
    omega

theorem ne_nul_of_isalnum {c : Char} (h : isalnum c = true) : c ≠ Char.ofNat 0 := by
  intro h0
  subst h0
  exact absurd h (by decide)

theorem not_isalpha_of_isdigit {c : Char} (h : isdigit c = true) : isalpha c = false := by
  cases ha : isalpha c with
  | false => rfl
  | true =>
    have h1 := isalpha_toNat ha
    have h2 := isdigit_toNat h
    omega

theorem ne_nul_of_isspace {c : Char} (h : isspace c = true) : c ≠ Char.ofNat 0 := by
  intro h0
  subst h0
  exact absurd h (by decide)

/-! ### Runs -/

theorem takeWhile_eq_nil_of_head (p : Char → Bool) (rest : List Char)
    (h : ∀ c, rest.head? = some c → p c = false) : rest.takeWhile p = [] := by
  cases rest with
  | nil => rfl
  | cons c cs => simp [List.takeWhile_cons, h c rfl]

theorem dropWhile_eq_self_of_head (p : Char → Bool) (rest : List Char)
    (h : ∀ c, rest.head? = some c → p c = false) : rest.dropWhile p = rest := by
  cases rest with
  | nil => rfl
  | cons c cs => simp [List.dropWhile_cons, h c rfl]

theorem takeWhile_run (p : Char → Bool) (w rest : List Char) (hw : ∀ c ∈ w, p c = true)
    (h : ∀ c, rest.head? = some c → p c = false) : (w ++ rest).takeWhile p = w := by
  rw [List.takeWhile_append_of_pos hw, takeWhile_eq_nil_of_head p rest h, List.append_nil]

theorem dropWhile_run (p : Char → Bool) (w rest : List Char) (hw : ∀ c ∈ w, p c = true)
    (h : ∀ c, rest.head? = some c → p c = false) : (w ++ rest).dropWhile p = rest := by
  rw [List.dropWhile_append_of_pos hw, dropWhile_eq_self_of_head p rest h]

/-! ### Computing `spec_scan` -/

theorem spec_scan_nil : spec_scan [] = [] := rfl

theorem spec_scan_space (c : Char) (cs : List Char) (hs : isspace c = true) :
    spec_scan (c :: cs) = spec_scan cs := by
  unfold spec_scan
  simp only [List.length_cons, spec_scan_loop, if_neg (ne_nul_of_isspace hs), if_pos hs]

theorem spec_scan_word (c : Char) (w rest : List Char) (hc : isalpha c = true)
    (hw : ∀ x ∈ w, isalnum x = true) (h : ∀ x, rest.head? = some x → isalnum x = false) :
    spec_scan (c :: w ++ rest) = ⟨word_type (c :: w), c :: w⟩ :: spec_scan rest := by
  have hall : ∀ x ∈ c :: w, isalnum x = true := by
    intro x hx
    rcases List.mem_cons.1 hx with hx | hx
    · subst hx; exact isalnum_of_isalpha hc
    · exact hw x hx
  have hcn := isalnum_of_isalpha hc
  have htake : (c :: (w ++ rest)).takeWhile isalnum = c :: w :=
    takeWhile_run isalnum (c :: w) rest hall h
  have hdrop : (c :: (w ++ rest)).dropWhile isalnum = rest :=
    dropWhile_run isalnum (c :: w) rest hall h
  show spec_scan_loop ((c :: (w ++ rest)).length + 1) (c :: (w ++ rest)) = _
  simp only [List.length_cons, spec_scan_loop, if_neg (ne_nul_of_isalnum hcn),
    not_isspace_of_isalnum hcn, if_pos hc, htake, hdrop, Bool.false_eq_true, if_false]
  rw [spec_scan_loop_eq _ rest (by simp; omega)]

theorem spec_scan_number (c : Char) (w rest : List Char) (hc : isdigit c = true)
    (hw : ∀ x ∈ w, isdigit x = true) (h : ∀ x, rest.head? = some x → isdigit x = false) :
    spec_scan (c :: w ++ rest) = ⟨TOK_NUMBER, c :: w⟩ :: spec_scan rest := by
  have hall : ∀ x ∈ c :: w, isdigit x = true := by
    intro x hx
    rcases List.mem_cons.1 hx with hx | hx
    · subst hx; exact hc
    · exact hw x hx
  have hcn := isalnum_of_isdigit hc
  have htake : (c :: (w ++ rest)).takeWhile isdigit = c :: w :=
    takeWhile_run isdigit (c :: w) rest hall h
  have hdrop : (c :: (w ++ rest)).dropWhile isdigit = rest :=
    dropWhile_run isdigit (c :: w) rest hall h
  show spec_scan_loop ((c :: (w ++ rest)).length + 1) (c :: (w ++ rest)) = _
  simp only [List.length_cons, spec_scan_loop, if_neg (ne_nul_of_isalnum hcn),
    not_isspace_of_isalnum hcn, not_isalpha_of_isdigit hc, if_pos hc, htake, hdrop,
    Bool.false_eq_true, if_false]
  rw [spec_scan_loop_eq _ rest (by simp; omega)]

theorem spec_scan_single (c : Char) (cs : List Char) (h0 : c ≠ Char.ofNat 0)
    (hs : isspace c = false) (hn : isalnum c = false) :
    spec_scan (c :: cs) = ⟨single_type c, [c]⟩ :: spec_scan cs := by
  have ha : isalpha c = false := by
    cases h : isalpha c with
    | false => rfl
    | true => rw [isalnum_of_isalpha h] at hn; cases hn
  have hd : isdigit c = false := by
    cases h : isdigit c with
    | false => rfl
    | true => rw [isalnum_of_isdigit h] at hn; cases hn
  unfold spec_scan
  simp only [List.length_cons, spec_scan_loop, if_neg h0, hs, ha, hd, Bool.false_eq_true,
    if_false]

/-! ### Shape of the scanned tokens -/

theorem ite_ne {α : Type} {p : Prop} [Decidable p] {a b x : α} (ha : a ≠ x) (hb : b ≠ x) :
    (if p then a else b) ≠ x := by
  split <;> assumption

theorem word_type_ne_eof (w : List Char) : word_type w ≠ TOK_EOF := by
  unfold word_type
  repeat (first | exact (by decide) | apply ite_ne (by decide))

theorem single_type_ne_eof (c : Char) : single_type c ≠ TOK_EOF := by
  unfold single_type
  repeat (first | exact (by decide) | apply ite_ne (by decide))

theorem single_type_unknown (c : Char) (h : is_punctuator c = false) :
    single_type c = TOK_UNKNOWN := by
  simp only [is_punctuator, Bool.or_eq_false_iff, decide_eq_false_iff_not] at h
  obtain ⟨⟨⟨⟨⟨⟨⟨⟨⟨⟨h1, h2⟩, h3⟩, h4⟩, h5⟩, h6⟩, h7⟩, h8⟩, h9⟩, h10⟩, h11⟩ := h
  simp [single_type, *]

theorem scanned_ne_eof {t : SpecToken} (h : scanned t) : t.type ≠ TOK_EOF := by
  rcases h with ⟨c, w, _, _, _, ht⟩ | ⟨_, _, ht⟩ | ⟨c, _, _, _, _, ht⟩
  · rw [ht]; exact word_type_ne_eof _
  · rw [ht]; decide
  · rw [ht]; exact single_type_ne_eof _

theorem spec_scan_loop_scanned (f : Nat) (src : List Char) :
    ∀ t ∈ spec_scan_loop f src, scanned t := by
  induction f generalizing src with
  | zero => simp [spec_scan_loop]
  | succ f ih =>
    cases src with
    | nil => simp [spec_scan_loop]
    | cons c cs =>
      by_cases h0 : c = Char.ofNat 0
      · simp [spec_scan_loop, h0]
      by_cases hs : isspace c = true
      · simp only [spec_scan_loop, if_neg h0, if_pos hs]
        exact ih cs
      by_cases ha : isalpha c = true
      · simp only [spec_scan_loop, if_neg h0, if_neg hs, if_pos ha]
        intro t ht
        rcases List.mem_cons.1 ht with ht | ht
        · subst ht
          left
          refine ⟨c, cs.takeWhile isalnum, ?_, ha, ?_, rfl⟩
          · simp [List.takeWhile_cons, isalnum_of_isalpha ha]
          · intro x hx
            exact List.mem_takeWhile_imp hx
        · exact ih _ t ht
      by_cases hd : isdigit c = true
      · simp only [spec_scan_loop, if_neg h0, if_neg hs, if_neg ha, if_pos hd]
        intro t ht
        rcases List.mem_cons.1 ht with ht | ht
        · subst ht
          right; left
          refine ⟨?_, ?_, rfl⟩
          · simp [List.takeWhile_cons, hd]
          · intro x hx
            exact List.mem_takeWhile_imp hx
        · exact ih _ t ht
      · simp only [spec_scan_loop, if_neg h0, if_neg hs, if_neg ha, if_neg hd]
        intro t ht
        rcases List.mem_cons.1 ht with ht | ht
        · subst ht
          right; right
          refine ⟨c, rfl, ?_, ?_, h0, rfl⟩
          · simp only [isalnum, Bool.or_eq_false_iff]
            exact ⟨by simpa using ha, by simpa using hd⟩
          · simpa using hs
        · exact ih _ t ht

theorem filter_not_isspace_of_isalnum (w : List Char) (hw : ∀ x ∈ w, isalnum x = true) :
    w.filter (fun c => !isspace c) = w := by
  rw [List.filter_eq_self]
  intro x hx
  simp [not_isspace_of_isalnum (hw x hx)]

theorem spec_scan_loop_lexemes (f : Nat) (src : List Char) (hf : src.length < f)
    (hnul : Char.ofNat 0 ∉ src) :
    ((spec_scan_loop f src).map SpecToken.text).flatten =
      src.filter (fun c => !isspace c) := by
  induction f generalizing src with
  | zero => omega
  | succ f ih =>
    cases src with
    | nil => simp [spec_scan_loop]
    | cons c cs =>
      simp only [List.length_cons] at hf
      have h0 : c ≠ Char.ofNat 0 := fun h => hnul (h ▸ List.mem_cons_self _ _)
      have hcs : Char.ofNat 0 ∉ cs := fun h => hnul (List.mem_cons_of_mem _ h)
      by_cases hs : isspace c = true
      · simp only [spec_scan_loop, if_neg h0, if_pos hs]
        rw [ih cs (by omega) hcs]
        simp [List.filter_cons, hs]
      by_cases ha : isalpha c = true
      · simp only [spec_scan_loop, if_neg h0, if_neg hs, if_pos ha, List.map_cons,
          List.flatten_cons]
        have hlen := length_dropWhile_cons_le isalnum c cs (isalnum_of_isalpha ha)
        have hsub : Char.ofNat 0 ∉ (c :: cs).dropWhile isalnum :=
          fun h => hnul ((List.dropWhile_sublist isalnum).subset h)
        rw [ih _ (by omega) hsub]
        conv_rhs => rw [← List.takeWhile_append_dropWhile isalnum (c :: cs), List.filter_append]
        rw [filter_not_isspace_of_isalnum _ (fun x hx => List.mem_takeWhile_imp hx)]
      by_cases hd : isdigit c = true
      · simp only [spec_scan_loop, if_neg h0, if_neg hs, if_neg ha, if_pos hd, List.map_cons,
          List.flatten_cons]
        have hlen := length_dropWhile_cons_le isdigit c cs hd
        have hsub : Char.ofNat 0 ∉ (c :: cs).dropWhile isdigit :=
          fun h => hnul ((List.dropWhile_sublist isdigit).subset h)
        rw [ih _ (by omega) hsub]
        conv_rhs => rw [← List.takeWhile_append_dropWhile isdigit (c :: cs), List.filter_append]
        rw [filter_not_isspace_of_isalnum _
          (fun x hx => isalnum_of_isdigit (List.mem_takeWhile_imp hx))]
      · simp only [spec_scan_loop, if_neg h0, if_neg hs, if_neg ha, if_neg hd, List.map_cons,
          List.flatten_cons]
        rw [ih cs (by omega) hcs]
        simp [List.filter_cons, hs]

theorem spec_scan_scanned (src : List Char) : ∀ t ∈ spec_scan src, scanned t :=
  spec_scan_loop_scanned _ src

theorem spec_scan_lexemes (src : List Char) (hnul : Char.ofNat 0 ∉ src) :
    ((spec_scan src).map SpecToken.text).flatten = src.filter (fun c => !isspace c) :=
  spec_scan_loop_lexemes _ src (by omega) hnul

theorem word_type_spec (w : List Char) :
    (word_type w = TOK_LET ↔ w = "let".toList) ∧
    (word_type w = TOK_FUNCTION ↔ w = "function".toList) ∧
    (word_type w = TOK_RETURN ↔ w = "return".toList) ∧
    (word_type w = TOK_IDENTIFIER ↔
      (w ≠ "let".toList ∧ w ≠ "function".toList ∧ w ≠ "return".toList)) := by
  unfold word_type
  by_cases h1 : w = "let".toList
  · subst h1; decide
  by_cases h2 : w = "function".toList
  · subst h2; decide
  by_cases h3 : w = "return".toList
  · subst h3; decide
  rw [if_neg h1, if_neg h2, if_neg h3]
  exact ⟨⟨fun h => (by cases h), fun h => absurd h h1⟩,
    ⟨fun h => (by cases h), fun h => absurd h h2⟩,
    ⟨fun h => (by cases h), fun h => absurd h h3⟩, ⟨fun _ => ⟨h1, h2, h3⟩, fun _ => rfl⟩⟩

theorem spec_scan_one_word (w : List Char) (hhead : ∃ c, w.head? = some c ∧ isalpha c = true)
    (hall : ∀ x ∈ w, isalnum x = true) : spec_scan w = [⟨word_type w, w⟩] := by
  obtain ⟨c, hc, ha⟩ := hhead
  cases w with
  | nil => simp at hc
  | cons c0 w =>
    simp only [List.head?_cons, Option.some.injEq] at hc
    subst hc
    have := spec_scan_word c0 w [] ha (fun x hx => hall x (List.mem_cons_of_mem _ hx))
      (by simp)
    simpa [spec_scan_nil] using this

theorem stored_type (t : SpecToken) : t.stored.type = t.type := rfl

theorem map_stored_short (ts : List SpecToken) (h : ∀ t ∈ ts, t.text.length < 63) :
    ts.map SpecToken.stored = ts.map fun t => (⟨t.type, .text t.text⟩ : Token) := by
  apply List.map_congr_left
  intro t ht
  exact stored_short t (h t ht)

/-! ## The claims about the scanner -/

/-- C9 (as amended): for every word `w` of at most 62 characters that starts with
a letter and consists only of letters and digits, `lex` applied to `w` yields
exactly one token before the end-of-input token; its lexeme is `w` and its kind
is `TOK_LET` iff `w` is `let`, `TOK_FUNCTION` iff `w` is `function`, `TOK_RETURN`
iff `w` is `return`, and `TOK_IDENTIFIER` otherwise. -/
theorem lex_word (w : List Char) (hhead : ∃ c, w.head? = some c ∧ isalpha c = true)
    (hall : ∀ x ∈ w, isalnum x = true) (hlen : w.length ≤ 62) :
    ∃ k, lex w = .ok [⟨k, .text w⟩, ⟨TOK_EOF, .text []⟩] ∧
      (k = TOK_LET ↔ w = "let".toList) ∧
      (k = TOK_FUNCTION ↔ w = "function".toList) ∧
      (k = TOK_RETURN ↔ w = "return".toList) ∧
      (k = TOK_IDENTIFIER ↔
        (w ≠ "let".toList ∧ w ≠ "function".toList ∧ w ≠ "return".toList)) := by
  refine ⟨word_type w, ?_, word_type_spec w⟩
  have hs := spec_scan_one_word w hhead hall
  have hfit : fits_scanner w := by
    unfold fits_scanner
    rw [hs]
    refine ⟨by simp [MAX_TOKENS], ?_⟩
    intro t ht
    have : t = ⟨word_type w, w⟩ := by simpa using ht
    subst this
    show w.length < 64
    omega
  rw [lex_eq, if_pos hfit, hs]
  simp only [List.map_cons, List.map_nil, List.singleton_append,
    stored_short ⟨word_type w, w⟩ (show w.length < 63 by omega)]

/-- C9, witness: the words `x1`, `lets`, `Let` and `let`. -/
theorem lex_word_witness :
    (∃ k, lex "x1".toList = .ok [⟨k, .text "x1".toList⟩, ⟨TOK_EOF, .text []⟩] ∧
      (k = TOK_LET ↔ "x1".toList = "let".toList) ∧
      (k = TOK_FUNCTION ↔ "x1".toList = "function".toList) ∧
      (k = TOK_RETURN ↔ "x1".toList = "return".toList) ∧
      (k = TOK_IDENTIFIER ↔ ("x1".toList ≠ "let".toList ∧ "x1".toList ≠ "function".toList ∧
        "x1".toList ≠ "return".toList))) ∧
    (∃ k, lex "lets".toList = .ok [⟨k, .text "lets".toList⟩, ⟨TOK_EOF, .text []⟩] ∧
      (k = TOK_LET ↔ "lets".toList = "let".toList) ∧
      (k = TOK_FUNCTION ↔ "lets".toList = "function".toList) ∧
      (k = TOK_RETURN ↔ "lets".toList = "return".toList) ∧
      (k = TOK_IDENTIFIER ↔ ("lets".toList ≠ "let".toList ∧
        "lets".toList ≠ "function".toList ∧ "lets".toList ≠ "return".toList))) ∧
    (∃ k, lex "Let".toList = .ok [⟨k, .text "Let".toList⟩, ⟨TOK_EOF, .text []⟩] ∧
      (k = TOK_LET ↔ "Let".toList = "let".toList) ∧
      (k = TOK_FUNCTION ↔ "Let".toList = "function".toList) ∧
      (k = TOK_RETURN ↔ "Let".toList = "return".toList) ∧
      (k = TOK_IDENTIFIER ↔ ("Let".toList ≠ "let".toList ∧
        "Let".toList ≠ "function".toList ∧ "Let".toList ≠ "return".toList))) ∧
    (∃ k, lex "let".toList = .ok [⟨k, .text "let".toList⟩, ⟨TOK_EOF, .text []⟩] ∧
      (k = TOK_LET ↔ "let".toList = "let".toList) ∧
      (k = TOK_FUNCTION ↔ "let".toList = "function".toList) ∧
      (k = TOK_RETURN ↔ "let".toList = "return".toList) ∧
      (k = TOK_IDENTIFIER ↔ ("let".toList ≠ "let".toList ∧
        "let".toList ≠ "function".toList ∧ "let".toList ≠ "return".toList))) :=
  ⟨lex_word _ ⟨'x', rfl, by decide⟩ (by decide) (by decide),
   lex_word _ ⟨'l', rfl, by decide⟩ (by decide) (by decide),
   lex_word _ ⟨'L', rfl, by decide⟩ (by decide) (by decide),
   lex_word _ ⟨'l', rfl, by decide⟩ (by decide) (by decide)⟩

/-- C9, counterexample: a word of 64 letters does not fit `char lex[64]` with its
terminator, and `lex` yields no tokens; a word of 63 letters is stored by
`strncpy(tok.lexeme, lexeme, 63)` without terminator, so the lexeme of its token
is not a string. -/
theorem lex_long_word :
    (∀ x ∈ List.replicate 64 'a', isalpha x = true) ∧
    lex (List.replicate 64 'a') = .undefined ∧
    (¬ ∃ k, lex (List.replicate 64 'a') =
      .ok [⟨k, .text (List.replicate 64 'a')⟩, ⟨TOK_EOF, .text []⟩]) ∧
    lex (List.replicate 63 'a') =
      .ok [⟨TOK_IDENTIFIER, .unterminated (List.replicate 63 'a')⟩, ⟨TOK_EOF, .text []⟩] ∧
    ¬ ∃ k, lex (List.replicate 63 'a') =
      .ok [⟨k, .text (List.replicate 63 'a')⟩, ⟨TOK_EOF, .text []⟩] := by
  have h : lex (List.replicate 64 'a') = .undefined := by decide
  have h63 : lex (List.replicate 63 'a') =
      .ok [⟨TOK_IDENTIFIER, .unterminated (List.replicate 63 'a')⟩, ⟨TOK_EOF, .text []⟩] := by
    decide
  refine ⟨by decide, h, ?_, h63, ?_⟩
  · rintro ⟨k, hk⟩
    rw [h] at hk
    cases hk
  · rintro ⟨k, hk⟩
    rw [h63] at hk
    cases hk

/-- C10 (as amended): for every non-empty string `d` of at most 62 digits and
every non-keyword word `w` of at most 62 characters that starts with a letter and
consists of letters and digits, `lex` applied to `d` followed immediately by `w`
yields exactly the number `d`, the identifier `w` and the end-of-input token. -/
theorem lex_number_then_word (d w : List Char) (hd : d ≠ [])
    (hdig : ∀ x ∈ d, isdigit x = true)
    (hhead : ∃ c, w.head? = some c ∧ isalpha c = true) (hall : ∀ x ∈ w, isalnum x = true)
    (hkw : w ≠ "let".toList ∧ w ≠ "function".toList ∧ w ≠ "return".toList)
    (hdlen : d.length ≤ 62) (hwlen : w.length ≤ 62) :
    lex (d ++ w) =
      .ok [⟨TOK_NUMBER, .text d⟩, ⟨TOK_IDENTIFIER, .text w⟩, ⟨TOK_EOF, .text []⟩] := by
  have hw := spec_scan_one_word w hhead hall
  rw [((word_type_spec w).2.2.2).2 hkw] at hw
  have hs : spec_scan (d ++ w) = [⟨TOK_NUMBER, d⟩, ⟨TOK_IDENTIFIER, w⟩] := by
    cases d with
    | nil => exact absurd rfl hd
    | cons c d =>
      rw [spec_scan_number c d w (hdig c (List.mem_cons_self _ _))
        (fun x hx => hdig x (List.mem_cons_of_mem _ hx)) ?_, hw]
      intro x hx
      obtain ⟨a, ha, hal⟩ := hhead
      rw [ha] at hx
      cases hx
      cases hdx : isdigit x with
      | false => rfl
      | true => rw [not_isalpha_of_isdigit hdx] at hal; cases hal
  have hfit : fits_scanner (d ++ w) := by
    unfold fits_scanner
    rw [hs]
    refine ⟨by simp [MAX_TOKENS], ?_⟩
    intro t ht
    simp only [List.mem_cons, List.mem_singleton, List.not_mem_nil, or_false] at ht
    rcases ht with ht | ht
    · subst ht; show d.length < 64; omega
    · subst ht; show w.length < 64; omega
  rw [lex_eq, if_pos hfit, hs]
  simp only [List.map_cons, List.map_nil, List.cons_append, List.nil_append,
    stored_short ⟨TOK_NUMBER, d⟩ (show d.length < 63 by omega),
    stored_short ⟨TOK_IDENTIFIER, w⟩ (show w.length < 63 by omega)]

/-- C10, witness: `1a` scans as the number `1` followed by the identifier `a`. -/
theorem lex_number_then_word_witness :
    lex ("1".toList ++ "a".toList) =
      .ok [⟨TOK_NUMBER, .text "1".toList⟩, ⟨TOK_IDENTIFIER, .text "a".toList⟩,
        ⟨TOK_EOF, .text []⟩] :=
  lex_number_then_word "1".toList "a".toList (by decide) (by decide) ⟨'a', rfl, by decide⟩
    (by decide) (by decide) (by decide) (by decide)

/-- C10, counterexample: the digit `1` followed by a word of 64 letters; the word
does not fit `char lex[64]`, and `lex` returns no tokens. -/
theorem lex_number_then_long_word :
    (∀ x ∈ List.replicate 64 'b', isalpha x = true) ∧
    List.replicate 64 'b' ≠ "let".toList ∧ List.replicate 64 'b' ≠ "function".toList ∧
    List.replicate 64 'b' ≠ "return".toList ∧
    lex ('1' :: List.replicate 64 'b') = .undefined ∧
    lex ('1' :: List.replicate 64 'b') ≠
      .ok [⟨TOK_NUMBER, .text ['1']⟩, ⟨TOK_IDENTIFIER, .text (List.replicate 64 'b')⟩,
        ⟨TOK_EOF, .text []⟩] := by
  have h : lex ('1' :: List.replicate 64 'b') = .undefined := by decide
  refine ⟨by decide, by decide, by decide, by decide, h, ?_⟩
  rw [h]
  intro hk
  cases hk

/-! ## Facts about the emitter -/

theorem length_op_code_le (op : Char) : (op_code op).length ≤ 1 := by
  unfold op_code
  split_ifs <;> simp

theorem push_opcode_eq (o : OpCode) (b : Buffers) :
    push_opcode o b =
      if b.bytecode.length + 1 ≤ 128 then .ok { b with bytecode := b.bytecode ++ [o] }
      else .undefined := by
  unfold push_opcode
  by_cases h : b.bytecode.length < 128
  · rw [if_pos h, if_pos (by omega)]
  · rw [if_neg h, if_neg (by omega)]

theorem emit_op (op : Char) (b : Buffers) (hb : b.bytecode.length ≤ 128) :
    (if op = '+' then push_opcode OP_ADD b
      else if op = '-' then push_opcode OP_SUB b
      else if op = '*' then push_opcode OP_MUL b
      else if op = '/' then push_opcode OP_DIV b
      else .ok b) =
    if b.bytecode.length + (op_code op).length ≤ 128 then
      .ok { b with bytecode := b.bytecode ++ op_code op }
    else .undefined := by
  unfold op_code
  by_cases h1 : op = '+'
  · simp only [if_pos h1, push_opcode_eq, List.length_singleton]
  by_cases h2 : op = '-'
  · simp only [if_neg h1, if_pos h2, push_opcode_eq, List.length_singleton]
  by_cases h3 : op = '*'
  · simp only [if_neg h1, if_neg h2, if_pos h3, push_opcode_eq, List.length_singleton]
  by_cases h4 : op = '/'
  · simp only [if_neg h1, if_neg h2, if_neg h3, if_pos h4, push_opcode_eq,
      List.length_singleton]
  · simp only [if_neg h1, if_neg h2, if_neg h3, if_neg h4, List.length_nil, Nat.add_zero,
      List.append_nil, if_pos hb]

/-- What `emit_bytecode` does: it appends `constants_of node`, `names_of node`
and `code_of node` to the three buffers when they fit, and goes outside an
array otherwise. -/
theorem emit_bytecode_eq (node : ASTNode) (b : Buffers) (hb : b.valid) :
    emit_bytecode node b =
      if fits_buffers node b then
        .ok ⟨b.constants ++ constants_of node, b.vars ++ names_of node,
          b.bytecode ++ code_of node⟩
      else .undefined := by
  induction node generalizing b with
  | AST_NUMBER value =>
    obtain ⟨h1, h2, h3⟩ := hb
    simp only [emit_bytecode, push_constant, fits_buffers, constants_of, names_of,
      code_of, List.length_singleton, List.length_nil, Nat.add_zero]
    by_cases hc : b.constants.length < 128
    · by_cases hbc : b.bytecode.length < 128
      · rw [if_pos hc, if_pos ⟨by omega, h2, by omega⟩]
        simp [Outcome.bind, push_opcode, hbc]
      · rw [if_pos hc, if_neg (fun h => hbc (by omega))]
        simp [Outcome.bind, push_opcode, hbc]
    · rw [if_neg hc, if_neg (fun h => hc (by omega))]
      rfl
  | AST_BINARY left right op ihl ihr =>
    have hop := length_op_code_le op
    simp only [emit_bytecode]
    rw [ihl b hb]
    by_cases hl : fits_buffers left b
    · rw [if_pos hl]
      simp only [Outcome.bind]
      have hv1 : Buffers.valid ⟨b.constants ++ constants_of left, b.vars ++ names_of left,
          b.bytecode ++ code_of left⟩ := by
        unfold Buffers.valid fits_buffers at *
        simp only [List.length_append]
        exact hl
      rw [ihr _ hv1]
      by_cases hr : fits_buffers right ⟨b.constants ++ constants_of left,
          b.vars ++ names_of left, b.bytecode ++ code_of left⟩
      · rw [if_pos hr]
        simp only [Outcome.bind]
        have hr2 := hr
        unfold fits_buffers at hr2
        simp only [List.length_append] at hr2
        rw [emit_op _ _ (by simp only [List.length_append]; omega)]
        simp only [List.length_append]
        by_cases ho : b.bytecode.length + (code_of left).length + (code_of right).length +
            (op_code op).length ≤ 128
        · rw [if_pos ho, if_pos]
          · simp [constants_of, names_of, code_of, List.append_assoc]
          · unfold fits_buffers
            simp only [constants_of, names_of, code_of, List.length_append]
            omega
        · rw [if_neg ho, if_neg]
          unfold fits_buffers
          simp only [constants_of, names_of, code_of, List.length_append]
          omega
      · rw [if_neg hr]
        simp only [Outcome.bind]
        rw [if_neg]
        intro h
        apply hr
        unfold fits_buffers at *
        simp only [constants_of, names_of, code_of, List.length_append] at *
        omega
    · rw [if_neg hl]
      simp only [Outcome.bind]
      rw [if_neg]
      intro h
      apply hl
      unfold fits_buffers at *
      simp only [constants_of, names_of, code_of, List.length_append] at *
      omega
  | AST_VAR_DECL name value ih =>
    simp only [emit_bytecode]
    rw [ih b hb]
    by_cases hv : fits_buffers value b
    · rw [if_pos hv]
      simp only [Outcome.bind, push_variable]
      have hv2 := hv
      unfold fits_buffers at hv2
      by_cases hn : b.vars.length + (names_of value).length < 128
      · by_cases hc : b.bytecode.length + (code_of value).length < 128
        · rw [if_pos (by simpa only [List.length_append] using hn), if_pos]
          · simp [push_opcode, hc, names_of, code_of, constants_of]
          · unfold fits_buffers
            simp only [constants_of, names_of, code_of, List.length_append,
              List.length_singleton]
            omega
        · rw [if_pos (by simpa only [List.length_append] using hn), if_neg]
          · simp [push_opcode, hc]
          · unfold fits_buffers
            simp only [constants_of, names_of, code_of, List.length_append,
              List.length_singleton]
            omega
      · rw [if_neg (by simpa only [List.length_append] using hn), if_neg]
        unfold fits_buffers
        simp only [constants_of, names_of, code_of, List.length_append,
          List.length_singleton]
        omega
    · rw [if_neg hv]
      simp only [Outcome.bind]
      rw [if_neg]
      intro h
      apply hv
      unfold fits_buffers at *
      simp only [constants_of, names_of, code_of, List.length_append,
        List.length_singleton] at *
      omega

theorem Outcome.bind_eq_ok {α β : Type} {x : Outcome α} {f : α → Outcome β} {b : β}
    (h : x.bind f = .ok b) : ∃ a, x = .ok a ∧ f a = .ok b := by
  cases x with
  | ok a => exact ⟨a, rfl, h⟩
  | exit s l => cases h
  | undefined => cases h

theorem count_op_code (op : Char) :
    (op_code op).count OP_LOAD_CONST = 0 ∧ (op_code op).count OP_STORE_VAR = 0 := by
  unfold op_code
  split_ifs <;> decide

theorem count_code_of (node : ASTNode) :
    (code_of node).count OP_LOAD_CONST = (constants_of node).length ∧
    (code_of node).count OP_STORE_VAR = (names_of node).length := by
  induction node with
  | AST_NUMBER value => simp [code_of, constants_of, names_of]
  | AST_BINARY left right op ihl ihr =>
    have h := count_op_code op
    simp only [code_of, constants_of, names_of, List.count_append, List.length_append,
      ihl.1, ihl.2, ihr.1, ihr.2, h.1, h.2, Nat.add_zero, and_self]
  | AST_VAR_DECL name value ih =>
    simp [code_of, constants_of, names_of, List.count_append, ih.1, ih.2]

theorem valid_of_fits {node : ASTNode} {b : Buffers} (h : fits_buffers node b) : b.valid := by
  unfold fits_buffers at h
  unfold Buffers.valid
  omega

theorem balanced_append (node : ASTNode) (b : Buffers) (hb : balanced b) :
    balanced ⟨b.constants ++ constants_of node, b.vars ++ names_of node,
      b.bytecode ++ code_of node⟩ := by
  have h := count_code_of node
  unfold balanced at *
  simp only [List.count_append, List.length_append, h.1, h.2, hb.1, hb.2, and_self]

theorem names_of_arith (e : ASTNode) (h : is_arith e = true) : names_of e = [] := by
  induction e with
  | AST_NUMBER value => rfl
  | AST_BINARY left right op ihl ihr =>
    simp only [is_arith, Bool.and_eq_true] at h
    simp [names_of, ihl h.1.1, ihr h.1.2]
  | AST_VAR_DECL name value ih => simp [is_arith] at h

theorem length_code_of_arith (e : ASTNode) (h : is_arith e = true) :
    (code_of e).length = node_count e := by
  induction e with
  | AST_NUMBER value => rfl
  | AST_BINARY left right op ihl ihr =>
    simp only [is_arith, Bool.and_eq_true, Bool.or_eq_true, decide_eq_true_eq] at h
    have ho : (op_code op).length = 1 := by
      unfold op_code
      rcases h.2 with ((h1 | h1) | h1) | h1 <;> subst h1 <;> decide
    simp only [code_of, node_count, List.length_append, ihl h.1.1, ihr h.1.2, ho]
  | AST_VAR_DECL name value ih => simp [is_arith] at h

theorem length_constants_of_le (e : ASTNode) : (constants_of e).length ≤ node_count e := by
  induction e with
  | AST_NUMBER value => simp [constants_of, node_count]
  | AST_BINARY left right op ihl ihr =>
    simp only [constants_of, node_count, List.length_append]
    omega
  | AST_VAR_DECL name value ih =>
    simp only [constants_of, node_count]
    omega

theorem stack_simulate_append (ops : IntOps) (c1 c2 : List OpCode) (m : Machine) :
    stack_simulate ops (c1 ++ c2) m =
      (stack_simulate ops c1 m).bind (stack_simulate ops c2) := by
  induction c1 generalizing m with
  | nil => simp [stack_simulate]
  | cons op rest ih =>
    simp only [List.cons_append, stack_simulate]
    cases stack_step ops op m with
    | none => rfl
    | some m1 => simp [ih]

/-- The instructions emitted for an expression tree push its value: they read
exactly its constants and leave the rest of the machine state as it was. -/
theorem stack_simulate_arith (ops : IntOps) (e : ASTNode) (h : is_arith e = true) :
    ∃ v, eval_ast ops e = some v ∧
      ∀ (st : List Int) (bs : List (List Char × Int)) (cs : List Int) (ns : List (List Char)),
        stack_simulate ops (code_of e) ⟨st, bs, constants_of e ++ cs, ns⟩ =
          some ⟨v :: st, bs, cs, ns⟩ := by
  induction e with
  | AST_NUMBER value =>
    exact ⟨value, rfl, fun st bs cs ns => rfl⟩
  | AST_BINARY left right op ihl ihr =>
    simp only [is_arith, Bool.and_eq_true, Bool.or_eq_true, decide_eq_true_eq] at h
    obtain ⟨a, hea, ha⟩ := ihl h.1.1
    obtain ⟨b, heb, hb⟩ := ihr h.1.2
    have hrun : ∀ (f : Int → Int → Int) (o : OpCode), stack_step ops o = apply_binary f →
        ∀ (st : List Int) (bs : List (List Char × Int)) (cs : List Int) (ns : List (List Char)),
        stack_simulate ops (code_of left ++ code_of right ++ [o])
            ⟨st, bs, (constants_of left ++ constants_of right) ++ cs, ns⟩ =
          some ⟨f a b :: st, bs, cs, ns⟩ := by
      intro f o ho st bs cs ns
      rw [stack_simulate_append, stack_simulate_append, List.append_assoc, ha]
      simp only [Option.bind, hb, stack_simulate, ho, apply_binary]
    rcases h.2 with ((h1 | h1) | h1) | h1 <;> subst h1
    · refine ⟨ops.add a b, by simp [eval_ast, hea, heb], ?_⟩
      exact hrun ops.add OP_ADD (by funext m; rfl)
    · refine ⟨ops.sub a b, by simp [eval_ast, hea, heb], ?_⟩
      exact hrun ops.sub OP_SUB (by funext m; rfl)
    · refine ⟨ops.mul a b, by simp [eval_ast, hea, heb], ?_⟩
      exact hrun ops.mul OP_MUL (by funext m; rfl)
    · refine ⟨ops.div a b, by simp [eval_ast, hea, heb], ?_⟩
      exact hrun ops.div OP_DIV (by funext m; rfl)
  | AST_VAR_DECL name value ih => simp [is_arith] at h

/-! ## The claims about the emitter -/

/-- C1 (as amended): for every tree `VarDecl(name, value)` whose `value` is built
from number leaves and binary nodes with `op` among `+ - * /` and has at most
127 nodes (so that its instructions and the final `OP_STORE_VAR` fit
`bytecode[128]`), `emit_bytecode` from empty buffers succeeds, and the stack
simulation of the emitted stream against the two pools succeeds, leaves an empty
stack and yields exactly the binding `(name, v)`, where `v` is the value of the
direct evaluation of `value` with the same integer operations. -/
theorem emit_bytecode_correct (ops : IntOps) (name : List Char) (value : ASTNode)
    (harith : is_arith value = true) (hsize : node_count value ≤ 127) :
    ∃ b v, emit_bytecode (AST_VAR_DECL name value) Buffers.empty = .ok b ∧
      eval_ast ops value = some v ∧
      simulate_buffers ops b = some ([], [(name, v)]) := by
  obtain ⟨v, hev, hrun⟩ := stack_simulate_arith ops value harith
  have hfit : fits_buffers (AST_VAR_DECL name value) Buffers.empty := by
    have h1 := length_constants_of_le value
    have h2 := length_code_of_arith value harith
    unfold fits_buffers
    simp only [Buffers.empty, constants_of, names_of, code_of, names_of_arith value harith,
      List.length_nil, List.length_append, List.length_singleton, Nat.zero_add]
    omega
  refine ⟨⟨Buffers.empty.constants ++ constants_of (AST_VAR_DECL name value),
    Buffers.empty.vars ++ names_of (AST_VAR_DECL name value),
    Buffers.empty.bytecode ++ code_of (AST_VAR_DECL name value)⟩, v, ?_, hev, ?_⟩
  · rw [emit_bytecode_eq _ _ (valid_of_fits hfit), if_pos hfit]
  · have h := hrun [] [] [] [name]
    simp only [simulate_buffers, Buffers.empty, List.nil_append, code_of, constants_of,
      names_of, names_of_arith value harith, stack_simulate_append]
    rw [List.append_nil] at h
    rw [h]
    rfl

/-- C1, witness: the tree of `let y = 1 + 2 * 3;` evaluates to 7 in 32-bit
arithmetic, and so does the emitted stream. -/
theorem emit_bytecode_correct_witness :
    is_arith (AST_BINARY (AST_NUMBER 1) (AST_BINARY (AST_NUMBER 2) (AST_NUMBER 3) '*') '+') = true ∧
    node_count (AST_BINARY (AST_NUMBER 1) (AST_BINARY (AST_NUMBER 2) (AST_NUMBER 3) '*') '+')
      ≤ 127 ∧
    eval_ast int32_ops
      (AST_BINARY (AST_NUMBER 1) (AST_BINARY (AST_NUMBER 2) (AST_NUMBER 3) '*') '+') = some 7 ∧
    ∃ b v, emit_bytecode (AST_VAR_DECL "y".toList
        (AST_BINARY (AST_NUMBER 1) (AST_BINARY (AST_NUMBER 2) (AST_NUMBER 3) '*') '+'))
        Buffers.empty = .ok b ∧
      eval_ast int32_ops
        (AST_BINARY (AST_NUMBER 1) (AST_BINARY (AST_NUMBER 2) (AST_NUMBER 3) '*') '+') = some v ∧
      simulate_buffers int32_ops b = some ([], [("y".toList, v)]) :=
  ⟨by decide, by decide, by decide,
    emit_bytecode_correct int32_ops "y".toList _ (by decide) (by decide)⟩

set_option maxRecDepth 100000 in
/-- C1, counterexample: the declaration of a sum of 65 literals has 129
instructions before its `OP_STORE_VAR`; the last `OP_ADD` would be written to
`bytecode[128]`, outside the array, so the emission yields no instruction
stream to simulate. -/
theorem emit_bytecode_overflow :
    is_arith (sum_chain 64) = true ∧
    emit_bytecode (AST_VAR_DECL "x".toList (sum_chain 64)) Buffers.empty = .undefined ∧
    ¬ ∃ b, emit_bytecode (AST_VAR_DECL "x".toList (sum_chain 64)) Buffers.empty = .ok b := by
  have h : emit_bytecode (AST_VAR_DECL "x".toList (sum_chain 64)) Buffers.empty = .undefined := by
    decide
  exact ⟨by decide, h, fun ⟨b, hb⟩ => by rw [h] at hb; cases hb⟩

/-- C2 (as amended): for every source string that the pipeline accepts, the
number of `OP_LOAD_CONST` in the instruction stream is the size of the constant
pool and the number of `OP_STORE_VAR` is the size of the variable-name pool; and
for every tree and every starting state in which both equalities hold,
`emit_bytecode` succeeds and ends in a state in which they hold, provided what it
appends fits the three 128-entry arrays. -/
theorem emit_bytecode_balanced :
    (∀ (src : List Char) (b : Buffers), compile src = .ok b → balanced b) ∧
    (∀ (node : ASTNode) (b : Buffers), balanced b → fits_buffers node b →
      ∃ b1, emit_bytecode node b = .ok b1 ∧ balanced b1) := by
  constructor
  · intro src b h
    obtain ⟨tokens, _, h⟩ := Outcome.bind_eq_ok h
    obtain ⟨ast, _, h⟩ := Outcome.bind_eq_ok h
    rw [emit_bytecode_eq _ _ (by decide)] at h
    by_cases hf : fits_buffers ast.1 Buffers.empty
    · rw [if_pos hf] at h
      cases h
      exact balanced_append ast.1 Buffers.empty (by decide)
    · rw [if_neg hf] at h
      cases h
  · intro node b hb hf
    refine ⟨_, ?_, balanced_append node b hb⟩
    rw [emit_bytecode_eq _ _ (valid_of_fits hf), if_pos hf]

/-- C2, witness: the source of the driver is accepted and its buffers satisfy
both equalities; a number node emitted after them keeps both. -/
theorem emit_bytecode_balanced_witness :
    (compile "let x = 5 * 3;".toList =
        .ok ⟨[5, 3], ["x".toList], [OP_LOAD_CONST, OP_LOAD_CONST, OP_MUL, OP_STORE_VAR]⟩ ∧
      balanced ⟨[5, 3], ["x".toList], [OP_LOAD_CONST, OP_LOAD_CONST, OP_MUL, OP_STORE_VAR]⟩) ∧
    (balanced ⟨[5, 3], ["x".toList], [OP_LOAD_CONST, OP_LOAD_CONST, OP_MUL, OP_STORE_VAR]⟩ ∧
      fits_buffers (AST_NUMBER 9)
        ⟨[5, 3], ["x".toList], [OP_LOAD_CONST, OP_LOAD_CONST, OP_MUL, OP_STORE_VAR]⟩ ∧
      ∃ b1, emit_bytecode (AST_NUMBER 9)
          ⟨[5, 3], ["x".toList], [OP_LOAD_CONST, OP_LOAD_CONST, OP_MUL, OP_STORE_VAR]⟩ = .ok b1 ∧
        balanced b1) :=
  ⟨⟨by decide, emit_bytecode_balanced.1 "let x = 5 * 3;".toList _ (by decide)⟩,
    by decide, by decide, emit_bytecode_balanced.2 _ _ (by decide) (by decide)⟩

set_option maxRecDepth 100000 in
/-- C2, counterexample: both equalities hold in the full buffers that hold 128
constants and 128 `OP_LOAD_CONST`; emitting one more number node writes
`constants[128]`, outside the array, and ends in no state. -/
theorem emit_bytecode_full :
    balanced ⟨List.replicate 128 0, [], List.replicate 128 OP_LOAD_CONST⟩ ∧
    emit_bytecode (AST_NUMBER 7) ⟨List.replicate 128 0, [], List.replicate 128 OP_LOAD_CONST⟩ =
      .undefined ∧
    ¬ ∃ b1, emit_bytecode (AST_NUMBER 7)
        ⟨List.replicate 128 0, [], List.replicate 128 OP_LOAD_CONST⟩ = .ok b1 ∧ balanced b1 := by
  have h : emit_bytecode (AST_NUMBER 7)
      ⟨List.replicate 128 0, [], List.replicate 128 OP_LOAD_CONST⟩ = .undefined := by decide
  exact ⟨by decide, h, fun ⟨b, hb, _⟩ => by rw [h] at hb; cases hb⟩

/-- C5: the pipeline on the source of the driver, `let x = 5 * 3;`, succeeds with
the instruction stream `OP_LOAD_CONST, OP_LOAD_CONST, OP_MUL, OP_STORE_VAR`, the
constant pool `5, 3` and the variable-name pool `x`; `main` returns status 0 and
prints the stream as `0 0 3 5`; the opcodes are numbered in declaration order. -/
theorem main_output :
    compile "let x = 5 * 3;".toList =
      .ok ⟨[5, 3], ["x".toList], [OP_LOAD_CONST, OP_LOAD_CONST, OP_MUL, OP_STORE_VAR]⟩ ∧
    main = .ok (0, ⟨[0, 0, 3, 5], [5, 3], ["x".toList]⟩) ∧
    [OP_LOAD_CONST, OP_ADD, OP_SUB, OP_MUL, OP_DIV, OP_STORE_VAR].map OpCode.code =
      [0, 1, 2, 3, 4, 5] := by
  decide

/-! ## Facts about the parser -/

theorem head_cons_stop (p : Char → Bool) (c : Char) (r : List Char) (h : p c = false) :
    ∀ x, (c :: r).head? = some x → p x = false := by
  intro x hx
  cases hx
  exact h

theorem spec_scan_is_word (w rest : List Char) (hw : is_word w = true)
    (h : ∀ x, rest.head? = some x → isalnum x = false) :
    spec_scan (w ++ rest) = ⟨word_type w, w⟩ :: spec_scan rest := by
  cases w with
  | nil => simp [is_word] at hw
  | cons c w =>
    simp only [is_word, Bool.and_eq_true, List.all_eq_true] at hw
    exact spec_scan_word c w rest hw.1 hw.2 h

theorem spec_scan_is_numeral (d rest : List Char) (hd : is_numeral d = true)
    (h : ∀ x, rest.head? = some x → isdigit x = false) :
    spec_scan (d ++ rest) = ⟨TOK_NUMBER, d⟩ :: spec_scan rest := by
  cases d with
  | nil => simp [is_numeral] at hd
  | cons c d =>
    simp only [is_numeral, Bool.and_eq_true, List.all_eq_true] at hd
    exact spec_scan_number c d rest hd.1 hd.2 h

theorem int_of_long_id (v : Int) (h1 : -2147483648 ≤ v) (h2 : v ≤ 2147483647) :
    int_of_long v = v := by
  unfold int_of_long
  omega

/-- A number that an `int` can hold is what `atoi` returns. -/
theorem atoi_int_id (s : List Char) (h1 : INT_MIN ≤ atoi_value s)
    (h2 : atoi_value s ≤ INT_MAX) : atoi_int s = atoi_value s := by
  unfold INT_MIN at h1
  unfold INT_MAX at h2
  have h3 : strtol s = atoi_value s := by
    unfold strtol LONG_MIN LONG_MAX
    rw [if_neg (by omega), if_neg (by omega)]
  unfold atoi_int
  rw [h3]
  exact int_of_long_id _ h1 h2

theorem atoi_numeral (d : List Char) (hd : is_numeral d = true)
    (hv : (digits_value d : Int) ≤ INT_MAX) : atoi d = .ok (digits_value d : Int) := by
  cases d with
  | nil => simp [is_numeral] at hd
  | cons c d =>
    simp only [is_numeral, Bool.and_eq_true, List.all_eq_true] at hd
    have hc := isdigit_toNat hd.1
    have hsp : isspace c = false := not_isspace_of_isalnum (isalnum_of_isdigit hd.1)
    have h1 : (c :: d).dropWhile isspace = c :: d := by
      simp [List.dropWhile_cons, hsp]
    have hm : c ≠ '-' := by
      intro h; subst h; revert hc; decide
    have hp : c ≠ '+' := by
      intro h; subst h; revert hc; decide
    have h2 : (c :: d).takeWhile isdigit = c :: d := by
      rw [List.takeWhile_eq_self_iff]
      intro x hx
      rcases List.mem_cons.1 hx with hx | hx
      · subst hx; exact hd.1
      · exact hd.2 x hx
    have hmin : INT_MIN ≤ (digits_value (c :: d) : Int) := by
      unfold INT_MIN; omega
    have hval : atoi_value (c :: d) = (digits_value (c :: d) : Int) := by
      unfold atoi_value
      simp only [h1, List.head?_cons, Option.some.injEq, hm, hp, or_self, if_false, h2]
    unfold atoi
    rw [atoi_int_id _ (by rw [hval]; exact hmin) (by rw [hval]; exact hv), hval]

/-- `atoi` always returns. -/
theorem atoi_returns (s : List Char) : ∃ v, atoi s = .ok v :=
  ⟨_, rfl⟩

/-- The tokens of `let v = a o1 b o2 c;`. -/
theorem lex_decl_source (v a b c : List Char) (o1 o2 : Char)
    (hv : is_word v = true) (ha : is_numeral a = true) (hb : is_numeral b = true)
    (hc : is_numeral c = true)
    (hvl : v.length ≤ 62) (hal : a.length ≤ 62) (hbl : b.length ≤ 62) (hcl : c.length ≤ 62)
    (h1 : o1 ≠ Char.ofNat 0 ∧ isspace o1 = false ∧ isalnum o1 = false)
    (h2 : o2 ≠ Char.ofNat 0 ∧ isspace o2 = false ∧ isalnum o2 = false) :
    lex (decl_source v a b c o1 o2) =
      .ok [⟨TOK_LET, .text ['l', 'e', 't']⟩, ⟨word_type v, .text v⟩, ⟨TOK_EQUAL, .text ['=']⟩,
        ⟨TOK_NUMBER, .text a⟩, ⟨single_type o1, .text [o1]⟩, ⟨TOK_NUMBER, .text b⟩,
        ⟨single_type o2, .text [o2]⟩, ⟨TOK_NUMBER, .text c⟩, ⟨TOK_SEMICOLON, .text [';']⟩,
        ⟨TOK_EOF, .text []⟩] := by
  have hsrc : decl_source v a b c o1 o2 =
      ['l', 'e', 't'] ++ (' ' :: (v ++ (' ' :: '=' :: ' ' :: (a ++ (' ' :: o1 :: ' ' ::
        (b ++ (' ' :: o2 :: ' ' :: (c ++ [';'])))))))) := by
    simp [decl_source]
  have hs : spec_scan (decl_source v a b c o1 o2) =
      [⟨TOK_LET, ['l', 'e', 't']⟩, ⟨word_type v, v⟩, ⟨TOK_EQUAL, ['=']⟩, ⟨TOK_NUMBER, a⟩,
        ⟨single_type o1, [o1]⟩, ⟨TOK_NUMBER, b⟩, ⟨single_type o2, [o2]⟩, ⟨TOK_NUMBER, c⟩,
        ⟨TOK_SEMICOLON, [';']⟩] := by
    rw [hsrc, spec_scan_is_word _ _ (by decide) (head_cons_stop _ _ _ (by decide)),
      spec_scan_space _ _ (by decide),
      spec_scan_is_word v _ hv (head_cons_stop _ _ _ (by decide)),
      spec_scan_space _ _ (by decide),
      spec_scan_single '=' _ (by decide) (by decide) (by decide),
      spec_scan_space _ _ (by decide),
      spec_scan_is_numeral a _ ha (head_cons_stop _ _ _ (by decide)),
      spec_scan_space _ _ (by decide),
      spec_scan_single o1 _ h1.1 h1.2.1 h1.2.2,
      spec_scan_space _ _ (by decide),
      spec_scan_is_numeral b _ hb (head_cons_stop _ _ _ (by decide)),
      spec_scan_space _ _ (by decide),
      spec_scan_single o2 _ h2.1 h2.2.1 h2.2.2,
      spec_scan_space _ _ (by decide),
      spec_scan_is_numeral c _ hc (head_cons_stop _ _ _ (by decide)),
      spec_scan_single ';' _ (by decide) (by decide) (by decide), spec_scan_nil]
    rfl
  have hshort : ∀ t ∈ spec_scan (decl_source v a b c o1 o2), t.text.length < 63 := by
    rw [hs]
    intro t ht
    simp only [List.mem_cons, List.mem_singleton, List.not_mem_nil, or_false] at ht
    rcases ht with ht | ht | ht | ht | ht | ht | ht | ht | ht <;> subst ht <;>
      simp only [List.length_cons, List.length_nil] <;> omega
  have hfit : fits_scanner (decl_source v a b c o1 o2) := by
    refine ⟨?_, fun t ht => Nat.lt_succ_of_lt (hshort t ht)⟩
    rw [hs]
    simp [MAX_TOKENS]
  rw [lex_eq, if_pos hfit, map_stored_short _ hshort, hs]
  rfl

theorem parse_plus_times (v a b c : List Char) (k : TokenType) (va vb vc : Int)
    (ha : atoi a = .ok va) (hb : atoi b = .ok vb) (hc : atoi c = .ok vc) :
    parse_var_decl [⟨TOK_LET, .text ['l', 'e', 't']⟩, ⟨k, .text v⟩, ⟨TOK_EQUAL, .text ['=']⟩,
        ⟨TOK_NUMBER, .text a⟩, ⟨TOK_PLUS, .text ['+']⟩, ⟨TOK_NUMBER, .text b⟩,
        ⟨TOK_STAR, .text ['*']⟩, ⟨TOK_NUMBER, .text c⟩, ⟨TOK_SEMICOLON, .text [';']⟩,
        ⟨TOK_EOF, .text []⟩] =
      .ok (AST_VAR_DECL v (AST_BINARY (AST_NUMBER va)
        (AST_BINARY (AST_NUMBER vb) (AST_NUMBER vc) '*') '+'), 9) := by
  simp [parse_var_decl, parse_expression, parse_expression_loop, parse_term, parse_term_loop,
    parse_primary, parse_number, match_either, match_, op_char, advance, peek, token_at,
    MAX_TOKENS, Outcome.bind, Lexeme.read, Lexeme.first, ha, hb, hc]

theorem parse_minus_minus (v a b c : List Char) (k : TokenType) (va vb vc : Int)
    (ha : atoi a = .ok va) (hb : atoi b = .ok vb) (hc : atoi c = .ok vc) :
    parse_var_decl [⟨TOK_LET, .text ['l', 'e', 't']⟩, ⟨k, .text v⟩, ⟨TOK_EQUAL, .text ['=']⟩,
        ⟨TOK_NUMBER, .text a⟩, ⟨TOK_MINUS, .text ['-']⟩, ⟨TOK_NUMBER, .text b⟩,
        ⟨TOK_MINUS, .text ['-']⟩, ⟨TOK_NUMBER, .text c⟩, ⟨TOK_SEMICOLON, .text [';']⟩,
        ⟨TOK_EOF, .text []⟩] =
      .ok (AST_VAR_DECL v (AST_BINARY (AST_BINARY (AST_NUMBER va) (AST_NUMBER vb) '-')
        (AST_NUMBER vc) '-'), 9) := by
  simp [parse_var_decl, parse_expression, parse_expression_loop, parse_term, parse_term_loop,
    parse_primary, parse_number, match_either, match_, op_char, advance, peek, token_at,
    MAX_TOKENS, Outcome.bind, Lexeme.read, Lexeme.first, ha, hb, hc]

/-- A primary position that holds no number ends `parse_var_decl` in `exit(1)`
with the lexeme of that token, when the lexeme is a string. -/
theorem parse_var_decl_exit (toks : List Token) (s : List Char)
    (hT : (toks.getD 3 zero_token).type ≠ TOK_NUMBER)
    (hs : (toks.getD 3 zero_token).lexeme = .text s) :
    parse_var_decl toks = .exit 1 s := by
  simp [parse_var_decl, parse_expression, parse_term, parse_primary, match_, advance, peek,
    token_at, MAX_TOKENS, Outcome.bind, Lexeme.read, hT, hs, -List.getD_eq_getElem?_getD]

theorem token_at_of_lt (tokens : List Token) (i : Nat) (h : i < MAX_TOKENS) :
    token_at tokens i = .ok (tokens.getD i zero_token) := by
  unfold token_at
  rw [if_pos h]

theorem token_at_of_ge (tokens : List Token) (i : Nat) (h : MAX_TOKENS ≤ i) :
    token_at tokens i = .undefined := by
  unfold token_at
  rw [if_neg (by omega)]

/-- `match` reads `tokens[current]`, and moves `current` by one exactly when it
returns 1. -/
theorem match_eq (tokens : List Token) (current : Nat) (type : TokenType) :
    match_ tokens current type =
      if current < MAX_TOKENS then
        if (tokens.getD current zero_token).type = type then .ok (true, current + 1)
        else .ok (false, current)
      else .undefined := by
  unfold match_ peek advance
  by_cases h : current < MAX_TOKENS
  · rw [token_at_of_lt _ _ h, if_pos h]
    by_cases ht : (tokens.getD current zero_token).type = type
    · simp only [Outcome.bind, if_pos ht]
    · simp only [Outcome.bind, if_neg ht]
  · rw [token_at_of_ge _ _ (by omega), if_neg h]
    rfl

theorem match_either_eq (tokens : List Token) (current : Nat) (a b : TokenType) :
    match_either tokens current a b =
      if current < MAX_TOKENS then
        if (tokens.getD current zero_token).type = a ∨
            (tokens.getD current zero_token).type = b then .ok (true, current + 1)
        else .ok (false, current)
      else .undefined := by
  unfold match_either
  rw [match_eq]
  by_cases h : current < MAX_TOKENS
  · simp only [if_pos h]
    by_cases ha : (tokens.getD current zero_token).type = a
    · rw [if_pos ha, if_pos (Or.inl ha)]
      rfl
    · by_cases hb : (tokens.getD current zero_token).type = b
      · rw [if_neg ha, if_pos (Or.inr hb)]
        simp only [Outcome.bind, Bool.false_eq_true, if_false, match_eq, if_pos h, if_pos hb]
      · rw [if_neg ha, if_neg (fun hab => hab.elim ha hb)]
        simp only [Outcome.bind, Bool.false_eq_true, if_false, match_eq, if_pos h, if_neg hb]
  · simp only [if_neg h]
    rfl

/-- `parse_primary` consumes exactly one token when it returns. -/
theorem parse_primary_index {tokens : List Token} {current : Nat} {r : ASTNode × Nat}
    (h : parse_primary tokens current = .ok r) : r.2 = current + 1 := by
  unfold parse_primary at h
  rw [match_eq] at h
  by_cases hc : current < MAX_TOKENS
  · rw [if_pos hc] at h
    by_cases ht : (tokens.getD current zero_token).type = TOK_NUMBER
    · rw [if_pos ht] at h
      simp only [Outcome.bind, if_true] at h
      cases hp : parse_number tokens (current + 1) with
      | ok n => rw [hp] at h; cases h; rfl
      | exit s l => rw [hp] at h; cases h
      | undefined => rw [hp] at h; cases h
    · rw [if_neg ht] at h
      simp only [Outcome.bind, Bool.false_eq_true, if_false, peek, token_at_of_lt _ _ hc] at h
      cases hl : (tokens.getD current zero_token).lexeme.read with
      | ok x => rw [hl] at h; cases h
      | exit x l => rw [hl] at h; cases h
      | undefined => rw [hl] at h; cases h
  · rw [if_neg hc] at h
    cases h

/-- The fuel of the loop of `parse_term` is never used up before a read outside
the token array: any two amounts that reach the end of the array give the same
result. -/
theorem parse_term_loop_fuel (f g : Nat) (tokens : List Token) (left : ASTNode)
    (current : Nat) (hf : MAX_TOKENS ≤ f + current) (hg : MAX_TOKENS ≤ g + current) :
    parse_term_loop f tokens left current = parse_term_loop g tokens left current := by
  induction f generalizing g left current with
  | zero =>
    cases g with
    | zero => rfl
    | succ g =>
      simp only [parse_term_loop, match_either_eq, if_neg (show ¬ current < MAX_TOKENS by omega),
        Outcome.bind]
  | succ f ih =>
    cases g with
    | zero =>
      simp only [parse_term_loop, match_either_eq, if_neg (show ¬ current < MAX_TOKENS by omega),
        Outcome.bind]
    | succ g =>
      simp only [parse_term_loop]
      cases hm : match_either tokens current TOK_STAR TOK_SLASH with
      | exit s l => rfl
      | undefined => rfl
      | ok m =>
        simp only [Outcome.bind]
        by_cases hm1 : m.1 = true
        · simp only [hm1, if_true]
          have hm2 : m.2 = current + 1 := by
            rw [match_either_eq] at hm
            split_ifs at hm <;> cases hm <;> first | rfl | cases hm1
          cases op_char tokens m.2 with
          | exit s l => rfl
          | undefined => rfl
          | ok op =>
            cases hp : parse_primary tokens m.2 with
            | exit s l => rfl
            | undefined => rfl
            | ok r =>
              have hr := parse_primary_index hp
              exact ih g _ r.2 (by omega) (by omega)
        · simp only [hm1, Bool.false_eq_true, if_false]

theorem parse_term_loop_index (f : Nat) {tokens : List Token} {left : ASTNode}
    {current : Nat} {r : ASTNode × Nat}
    (h : parse_term_loop f tokens left current = .ok r) : current ≤ r.2 := by
  induction f generalizing left current with
  | zero => cases h
  | succ f ih =>
    simp only [parse_term_loop] at h
    cases hm : match_either tokens current TOK_STAR TOK_SLASH with
    | exit s l => rw [hm] at h; cases h
    | undefined => rw [hm] at h; cases h
    | ok m =>
      rw [hm] at h
      simp only [Outcome.bind] at h
      have hm2 : current ≤ m.2 := by
        rw [match_either_eq] at hm
        split_ifs at hm <;> cases hm <;> simp
      by_cases hm1 : m.1 = true
      · simp only [hm1, if_true] at h
        cases ho : op_char tokens m.2 with
        | exit s l => rw [ho] at h; cases h
        | undefined => rw [ho] at h; cases h
        | ok op =>
          rw [ho] at h
          simp only at h
          cases hp : parse_primary tokens m.2 with
          | exit s l => rw [hp] at h; cases h
          | undefined => rw [hp] at h; cases h
          | ok p =>
            rw [hp] at h
            simp only at h
            have h1 := parse_primary_index hp
            have h2 := ih h
            omega
      · simp only [hm1, Bool.false_eq_true, if_false] at h
        cases h
        exact hm2

/-- `parse_term` consumes at least one token when it returns. -/
theorem parse_term_index {tokens : List Token} {current : Nat} {r : ASTNode × Nat}
    (h : parse_term tokens current = .ok r) : current + 1 ≤ r.2 := by
  unfold parse_term at h
  cases hp : parse_primary tokens current with
  | exit s l => rw [hp] at h; cases h
  | undefined => rw [hp] at h; cases h
  | ok p =>
    rw [hp] at h
    simp only [Outcome.bind] at h
    have h1 := parse_primary_index hp
    have h2 := parse_term_loop_index _ h
    omega

/-- The fuel of the loop of `parse_expression` is never used up before a read
outside the token array. -/
theorem parse_expression_loop_fuel (f g : Nat) (tokens : List Token) (left : ASTNode)
    (current : Nat) (hf : MAX_TOKENS ≤ f + current) (hg : MAX_TOKENS ≤ g + current) :
    parse_expression_loop f tokens left current =
      parse_expression_loop g tokens left current := by
  induction f generalizing g left current with
  | zero =>
    cases g with
    | zero => rfl
    | succ g =>
      simp only [parse_expression_loop, match_either_eq,
        if_neg (show ¬ current < MAX_TOKENS by omega), Outcome.bind]
  | succ f ih =>
    cases g with
    | zero =>
      simp only [parse_expression_loop, match_either_eq,
        if_neg (show ¬ current < MAX_TOKENS by omega), Outcome.bind]
    | succ g =>
      simp only [parse_expression_loop]
      cases hm : match_either tokens current TOK_PLUS TOK_MINUS with
      | exit s l => rfl
      | undefined => rfl
      | ok m =>
        simp only [Outcome.bind]
        by_cases hm1 : m.1 = true
        · simp only [hm1, if_true]
          have hm2 : m.2 = current + 1 := by
            rw [match_either_eq] at hm
            split_ifs at hm <;> cases hm <;> first | rfl | cases hm1
          cases op_char tokens m.2 with
          | exit s l => rfl
          | undefined => rfl
          | ok op =>
            cases hp : parse_term tokens m.2 with
            | exit s l => rfl
            | undefined => rfl
            | ok r =>
              have hr := parse_term_index hp
              exact ih g _ r.2 (by omega) (by omega)
        · simp only [hm1, Bool.false_eq_true, if_false]

/-! ## The claims about the parser and the whole pipeline -/

/-- C3 (as amended): for all numerals `a`, `b`, `c` of at most 62 digits whose
values fit an `int`, and every word `v` of at most 62 characters, the source
`let v = a + b * c;` compiles to the instruction stream `OP_LOAD_CONST,
OP_LOAD_CONST, OP_LOAD_CONST, OP_MUL, OP_ADD, OP_STORE_VAR` with the constant
pool `a, b, c` and the variable-name pool `v`. -/
theorem compile_plus_times (v a b c : List Char)
    (hv : is_word v = true) (ha : is_numeral a = true) (hb : is_numeral b = true)
    (hc : is_numeral c = true)
    (hai : (digits_value a : Int) ≤ INT_MAX) (hbi : (digits_value b : Int) ≤ INT_MAX)
    (hci : (digits_value c : Int) ≤ INT_MAX)
    (hvl : v.length ≤ 62) (hal : a.length ≤ 62) (hbl : b.length ≤ 62) (hcl : c.length ≤ 62) :
    compile (decl_source v a b c '+' '*') =
      .ok ⟨[(digits_value a : Int), (digits_value b : Int), (digits_value c : Int)], [v],
        [OP_LOAD_CONST, OP_LOAD_CONST, OP_LOAD_CONST, OP_MUL, OP_ADD, OP_STORE_VAR]⟩ := by
  unfold compile
  rw [lex_decl_source v a b c '+' '*' hv ha hb hc hvl hal hbl hcl (by decide) (by decide)]
  have h1 : single_type '+' = TOK_PLUS := by decide
  have h2 : single_type '*' = TOK_STAR := by decide
  simp only [Outcome.bind, h1, h2]
  rw [parse_plus_times v a b c _ _ _ _ (atoi_numeral a ha hai) (atoi_numeral b hb hbi)
    (atoi_numeral c hc hci)]
  simp [emit_bytecode, push_constant, push_opcode, push_variable, Outcome.bind, Buffers.empty]

/-- C3, witness: `let y = 1 + 2 * 3;`. -/
theorem compile_plus_times_witness :
    decl_source "y".toList "1".toList "2".toList "3".toList '+' '*' =
      "let y = 1 + 2 * 3;".toList ∧
    compile "let y = 1 + 2 * 3;".toList =
      .ok ⟨[1, 2, 3], ["y".toList],
        [OP_LOAD_CONST, OP_LOAD_CONST, OP_LOAD_CONST, OP_MUL, OP_ADD, OP_STORE_VAR]⟩ :=
  ⟨by decide,
    compile_plus_times "y".toList "1".toList "2".toList "3".toList (by decide) (by decide)
      (by decide) (by decide) (by decide) (by decide) (by decide) (by decide) (by decide)
      (by decide) (by decide)⟩

/-- C3, counterexample: with an identifier of 64 letters, or with the numeral of
64 zeros (its value 0 fits an `int`), the scanner writes past `char lex[64]` and
the pipeline yields no instruction stream. With an identifier of 63 letters the
lexeme is stored without terminator and `strcpy` in `parse_var_decl` reads past
it. -/
theorem compile_plus_times_long :
    is_word (List.replicate 64 'v') = true ∧
    compile (decl_source (List.replicate 64 'v') "1".toList "2".toList "3".toList '+' '*') =
      .undefined ∧
    is_numeral (List.replicate 64 '0') = true ∧
    (digits_value (List.replicate 64 '0') : Int) ≤ INT_MAX ∧
    compile (decl_source "y".toList (List.replicate 64 '0') "2".toList "3".toList '+' '*') =
      .undefined ∧
    compile (decl_source (List.replicate 63 'v') "1".toList "2".toList "3".toList '+' '*') =
      .undefined := by
  decide

/-- C4 (as amended): for all numerals `a`, `b`, `c` of at most 62 digits whose
values fit an `int`, and every word `v` of at most 62 characters, the source
`let v = a - b - c;` compiles to the instruction stream `OP_LOAD_CONST,
OP_LOAD_CONST, OP_SUB, OP_LOAD_CONST, OP_SUB, OP_STORE_VAR` with the constant pool
`a, b, c`, and not to `OP_LOAD_CONST, OP_LOAD_CONST, OP_LOAD_CONST, OP_SUB, OP_SUB,
OP_STORE_VAR`. -/
theorem compile_minus_minus (v a b c : List Char)
    (hv : is_word v = true) (ha : is_numeral a = true) (hb : is_numeral b = true)
    (hc : is_numeral c = true)
    (hai : (digits_value a : Int) ≤ INT_MAX) (hbi : (digits_value b : Int) ≤ INT_MAX)
    (hci : (digits_value c : Int) ≤ INT_MAX)
    (hvl : v.length ≤ 62) (hal : a.length ≤ 62) (hbl : b.length ≤ 62) (hcl : c.length ≤ 62) :
    compile (decl_source v a b c '-' '-') =
      .ok ⟨[(digits_value a : Int), (digits_value b : Int), (digits_value c : Int)], [v],
        [OP_LOAD_CONST, OP_LOAD_CONST, OP_SUB, OP_LOAD_CONST, OP_SUB, OP_STORE_VAR]⟩ ∧
    ∀ b1, compile (decl_source v a b c '-' '-') = .ok b1 →
      b1.bytecode ≠
        [OP_LOAD_CONST, OP_LOAD_CONST, OP_LOAD_CONST, OP_SUB, OP_SUB, OP_STORE_VAR] := by
  have h : compile (decl_source v a b c '-' '-') =
      .ok ⟨[(digits_value a : Int), (digits_value b : Int), (digits_value c : Int)], [v],
        [OP_LOAD_CONST, OP_LOAD_CONST, OP_SUB, OP_LOAD_CONST, OP_SUB, OP_STORE_VAR]⟩ := by
    unfold compile
    rw [lex_decl_source v a b c '-' '-' hv ha hb hc hvl hal hbl hcl (by decide) (by decide)]
    have h1 : single_type '-' = TOK_MINUS := by decide
    simp only [Outcome.bind, h1]
    rw [parse_minus_minus v a b c _ _ _ _ (atoi_numeral a ha hai) (atoi_numeral b hb hbi)
      (atoi_numeral c hc hci)]
    simp [emit_bytecode, push_constant, push_opcode, push_variable, Outcome.bind,
      Buffers.empty]
  refine ⟨h, ?_⟩
  intro b1 hb1
  rw [h] at hb1
  cases hb1
  show [OP_LOAD_CONST, OP_LOAD_CONST, OP_SUB, OP_LOAD_CONST, OP_SUB, OP_STORE_VAR] ≠
    [OP_LOAD_CONST, OP_LOAD_CONST, OP_LOAD_CONST, OP_SUB, OP_SUB, OP_STORE_VAR]
  decide

/-- C4, witness: `let z = 10 - 4 - 2;`. -/
theorem compile_minus_minus_witness :
    decl_source "z".toList "10".toList "4".toList "2".toList '-' '-' =
      "let z = 10 - 4 - 2;".toList ∧
    compile "let z = 10 - 4 - 2;".toList =
      .ok ⟨[10, 4, 2], ["z".toList],
        [OP_LOAD_CONST, OP_LOAD_CONST, OP_SUB, OP_LOAD_CONST, OP_SUB, OP_STORE_VAR]⟩ :=
  ⟨by decide,
    (compile_minus_minus "z".toList "10".toList "4".toList "2".toList (by decide) (by decide)
      (by decide) (by decide) (by decide) (by decide) (by decide) (by decide) (by decide)
      (by decide) (by decide)).1⟩

/-- C4, counterexample: with an identifier of 64 letters the scanner writes past
`char lex[64]` and the pipeline yields no instruction stream. With a numeral of
63 digits (62 zeros before a 7) the lexeme is stored without terminator and
`atoi` reads past it. -/
theorem compile_minus_minus_long :
    is_word (List.replicate 64 'z') = true ∧
    compile (decl_source (List.replicate 64 'z') "10".toList "4".toList "2".toList '-' '-') =
      .undefined ∧
    is_numeral (List.replicate 62 '0' ++ ['7']) = true ∧
    (digits_value (List.replicate 62 '0' ++ ['7']) : Int) ≤ INT_MAX ∧
    compile (decl_source "z".toList (List.replicate 62 '0' ++ ['7']) "4".toList "2".toList
      '-' '-') = .undefined := by
  decide

/-- C6 (as amended): at an index inside the token array, and for a token whose
lexeme is a terminated string, `parse_primary` ends in `exit` iff the token at
the current index is not of kind `TOK_NUMBER`; the exit status is 1, the message
carries exactly the lexeme of that token, and no node is produced. Consequently,
for every source that the scanner holds within its arrays and whose token in
primary position (index 3) is not a number, such as an identifier, `(` or `-`,
and has fewer than 63 characters, the pipeline ends in `exit(1)` with the lexeme
of that token. -/
theorem parse_primary_exit :
    (∀ (tokens : List Token) (current : Nat) (s : List Char), current < MAX_TOKENS →
      (tokens.getD current zero_token).lexeme = .text s →
      ((tokens.getD current zero_token).type ≠ TOK_NUMBER →
        parse_primary tokens current = .exit 1 s) ∧
      ((tokens.getD current zero_token).type = TOK_NUMBER →
        ∀ st l, parse_primary tokens current ≠ .exit st l)) ∧
    (∀ (src : List Char) (toks : List Token) (s : List Char), lex src = .ok toks →
      (toks.getD 3 zero_token).type ≠ TOK_NUMBER →
      (toks.getD 3 zero_token).lexeme = .text s →
      compile src = .exit 1 s) := by
  constructor
  · intro tokens current s hcur hs
    constructor
    · intro hT
      simp [parse_primary, match_, peek, token_at, hcur, Outcome.bind, Lexeme.read, hT, hs,
        -List.getD_eq_getElem?_getD]
    · intro hT st l
      simp only [parse_primary, match_, peek, advance, token_at, hcur, if_true, Outcome.bind,
        hT, parse_number, Nat.add_sub_cancel, Nat.succ_ne_zero, if_false, hs, Lexeme.read]
      obtain ⟨v, hv⟩ := atoi_returns s
      rw [hv]
      simp
  · intro src toks s hlex hT hs
    unfold compile
    rw [hlex]
    simp only [Outcome.bind, parse_var_decl_exit toks s hT hs]

/-- C6, witness: `let a = x;`, `let a = (1);` and `let a = -5;` end in `exit(1)`
with the lexemes `x`, `(` and `-`. -/
theorem parse_primary_exit_witness :
    compile "let a = x;".toList = .exit 1 "x".toList ∧
    compile "let a = (1);".toList = .exit 1 "(".toList ∧
    compile "let a = -5;".toList = .exit 1 "-".toList ∧
    parse_primary [⟨TOK_IDENTIFIER, .text "x".toList⟩] 0 = .exit 1 "x".toList :=
  ⟨parse_primary_exit.2 "let a = x;".toList
      [⟨TOK_LET, .text "let".toList⟩, ⟨TOK_IDENTIFIER, .text "a".toList⟩,
        ⟨TOK_EQUAL, .text "=".toList⟩, ⟨TOK_IDENTIFIER, .text "x".toList⟩,
        ⟨TOK_SEMICOLON, .text ";".toList⟩, ⟨TOK_EOF, .text []⟩]
      "x".toList (by decide) (by decide) (by decide),
    parse_primary_exit.2 "let a = (1);".toList
      [⟨TOK_LET, .text "let".toList⟩, ⟨TOK_IDENTIFIER, .text "a".toList⟩,
        ⟨TOK_EQUAL, .text "=".toList⟩, ⟨TOK_LPAREN, .text "(".toList⟩,
        ⟨TOK_NUMBER, .text "1".toList⟩, ⟨TOK_RPAREN, .text ")".toList⟩,
        ⟨TOK_SEMICOLON, .text ";".toList⟩, ⟨TOK_EOF, .text []⟩]
      "(".toList (by decide) (by decide) (by decide),
    parse_primary_exit.2 "let a = -5;".toList
      [⟨TOK_LET, .text "let".toList⟩, ⟨TOK_IDENTIFIER, .text "a".toList⟩,
        ⟨TOK_EQUAL, .text "=".toList⟩, ⟨TOK_MINUS, .text "-".toList⟩,
        ⟨TOK_NUMBER, .text "5".toList⟩, ⟨TOK_SEMICOLON, .text ";".toList⟩,
        ⟨TOK_EOF, .text []⟩]
      "-".toList (by decide) (by decide) (by decide),
    (parse_primary_exit.1 [⟨TOK_IDENTIFIER, .text "x".toList⟩] 0 "x".toList (by decide)
      (by decide)).1 (by decide)⟩

/-- C6, counterexample: `let NAME = x;` with a name of 64 letters; the scanner
writes past `char lex[64]`, and the pipeline does not end in the parse error that
names `x`. And `let a = T;` with an identifier `T` of 63 letters: its lexeme is
stored without terminator, so the message that `parse_primary` prints with `%s`
is not that lexeme. -/
theorem parse_primary_exit_long :
    compile ("let ".toList ++ List.replicate 64 'n' ++ " = x;".toList) = .undefined ∧
    compile ("let ".toList ++ List.replicate 64 'n' ++ " = x;".toList) ≠
      .exit 1 "x".toList ∧
    compile ("let a = ".toList ++ List.replicate 63 'T' ++ ";".toList) = .undefined ∧
    compile ("let a = ".toList ++ List.replicate 63 'T' ++ ";".toList) ≠
      .exit 1 (List.replicate 63 'T') := by
  decide

/-! ## More claims about the scanner and the emitter -/

set_option maxRecDepth 100000 in
/-- C11, evaluation at the failing inputs: for a word of 70 letters `lex` writes
past `char lex[64]` instead of storing its first 63 characters; a numeral of 63
digits is stored without terminator, so its lexeme is not the source text. -/
theorem lex_lexeme_bound_fails :
    lex (List.replicate 70 'k') = .undefined ∧
    lex (List.replicate 70 'k') ≠
      .ok [⟨TOK_IDENTIFIER, .text (List.replicate 63 'k')⟩, ⟨TOK_EOF, .text []⟩] ∧
    lex (List.replicate 63 '9') =
      .ok [⟨TOK_NUMBER, .unterminated (List.replicate 63 '9')⟩, ⟨TOK_EOF, .text []⟩] ∧
    lex (List.replicate 63 '9') ≠
      .ok [⟨TOK_NUMBER, .text (List.replicate 63 '9')⟩, ⟨TOK_EOF, .text []⟩] := by
  decide

/-- C15 (as amended): for every tree and every starting state of the three
buffers after which the appended entries fit the 128-entry arrays,
`emit_bytecode` ends in a state that extends the instruction stream, the constant
pool and the variable-name pool of the starting state, each by exactly what
`emit_bytecode` produces for the tree from empty buffers; no earlier entry is
changed or removed. -/
theorem emit_bytecode_appends (node : ASTNode) (b : Buffers) (hfit : fits_buffers node b) :
    ∃ a, emit_bytecode node Buffers.empty = .ok a ∧
      emit_bytecode node b =
        .ok ⟨b.constants ++ a.constants, b.vars ++ a.vars, b.bytecode ++ a.bytecode⟩ := by
  have hfit0 : fits_buffers node Buffers.empty := by
    unfold fits_buffers at *
    simp only [Buffers.empty, List.length_nil, Nat.zero_add]
    omega
  refine ⟨⟨constants_of node, names_of node, code_of node⟩, ?_, ?_⟩
  · rw [emit_bytecode_eq _ _ (valid_of_fits hfit0), if_pos hfit0]
    simp [Buffers.empty]
  · rw [emit_bytecode_eq _ _ (valid_of_fits hfit), if_pos hfit]

/-- C15, witness: a product emitted after the buffers of `let x = 5 * 3;`. -/
theorem emit_bytecode_appends_witness :
    fits_buffers (AST_BINARY (AST_NUMBER 2) (AST_NUMBER 7) '*')
      ⟨[5, 3], ["x".toList], [OP_LOAD_CONST, OP_LOAD_CONST, OP_MUL, OP_STORE_VAR]⟩ ∧
    ∃ a, emit_bytecode (AST_BINARY (AST_NUMBER 2) (AST_NUMBER 7) '*') Buffers.empty = .ok a ∧
      emit_bytecode (AST_BINARY (AST_NUMBER 2) (AST_NUMBER 7) '*')
          ⟨[5, 3], ["x".toList], [OP_LOAD_CONST, OP_LOAD_CONST, OP_MUL, OP_STORE_VAR]⟩ =
        .ok ⟨[5, 3] ++ a.constants, ["x".toList] ++ a.vars,
          [OP_LOAD_CONST, OP_LOAD_CONST, OP_MUL, OP_STORE_VAR] ++ a.bytecode⟩ :=
  ⟨by decide, emit_bytecode_appends _ _ (by decide)⟩

set_option maxRecDepth 100000 in
/-- C15, counterexample: after 127 instructions a sum of two literals needs three
more entries; its `OP_ADD` would be written to `bytecode[128]`, outside the
array, and `emit_bytecode` ends in no state. -/
theorem emit_bytecode_no_room :
    emit_bytecode (AST_BINARY (AST_NUMBER 1) (AST_NUMBER 2) '+')
      ⟨[], [], List.replicate 127 OP_ADD⟩ = .undefined ∧
    ¬ ∃ b1, emit_bytecode (AST_BINARY (AST_NUMBER 1) (AST_NUMBER 2) '+')
      ⟨[], [], List.replicate 127 OP_ADD⟩ = .ok b1 := by
  have h : emit_bytecode (AST_BINARY (AST_NUMBER 1) (AST_NUMBER 2) '+')
      ⟨[], [], List.replicate 127 OP_ADD⟩ = .undefined := by decide
  exact ⟨h, fun ⟨b1, hb⟩ => by rw [h] at hb; cases hb⟩

theorem emit_ok_iff {node : ASTNode} {b b1 : Buffers} (hb : b.valid)
    (h : emit_bytecode node b = .ok b1) :
    fits_buffers node b ∧
    b1 = ⟨b.constants ++ constants_of node, b.vars ++ names_of node,
      b.bytecode ++ code_of node⟩ := by
  rw [emit_bytecode_eq _ _ hb] at h
  by_cases hf : fits_buffers node b
  · rw [if_pos hf] at h
    cases h
    exact ⟨hf, rfl⟩
  · rw [if_neg hf] at h
    cases h

theorem emit_from_empty {node : ASTNode} (hf : fits_buffers node Buffers.empty) :
    emit_bytecode node Buffers.empty = .ok ⟨constants_of node, names_of node, code_of node⟩ := by
  rw [emit_bytecode_eq _ _ (valid_of_fits hf), if_pos hf]
  simp [Buffers.empty]

theorem parse_term_loop_eq (f : Nat) (tokens : List Token) (left : ASTNode) (current : Nat) :
    parse_term_loop f tokens left current =
      binary_loop parse_primary TOK_STAR TOK_SLASH f tokens left current := by
  induction f generalizing left current with
  | zero => rfl
  | succ f ih => simp only [parse_term_loop, binary_loop, ih]

theorem parse_expression_loop_eq (f : Nat) (tokens : List Token) (left : ASTNode)
    (current : Nat) :
    parse_expression_loop f tokens left current =
      binary_loop parse_term TOK_PLUS TOK_MINUS f tokens left current := by
  induction f generalizing left current with
  | zero => rfl
  | succ f ih => simp only [parse_expression_loop, binary_loop, ih]

theorem op_char_succ (tokens : List Token) (current : Nat) (h : current < MAX_TOKENS) :
    op_char tokens (current + 1) = .ok (tokens.getD current zero_token).lexeme.first := by
  unfold op_char
  rw [if_neg (Nat.succ_ne_zero _), Nat.add_sub_cancel, token_at_of_lt _ _ h]
  rfl

/-- One iteration of the loop, in terms of the token at `current`. -/
theorem binary_loop_succ (sub : List Token → Nat → Outcome (ASTNode × Nat)) (a b : TokenType)
    (f : Nat) (tokens : List Token) (left : ASTNode) (current : Nat) :
    binary_loop sub a b (f + 1) tokens left current =
      if current < MAX_TOKENS then
        if (tokens.getD current zero_token).type = a ∨
            (tokens.getD current zero_token).type = b then
          (sub tokens (current + 1)).bind fun r =>
            binary_loop sub a b f tokens
              (AST_BINARY left r.1 (tokens.getD current zero_token).lexeme.first) r.2
        else .ok (left, current)
      else .undefined := by
  simp only [binary_loop]
  rw [match_either_eq]
  by_cases h : current < MAX_TOKENS
  · rw [if_pos h, if_pos h]
    by_cases hab : (tokens.getD current zero_token).type = a ∨
        (tokens.getD current zero_token).type = b
    · rw [if_pos hab, if_pos hab]
      simp only [Outcome.bind, if_true, op_char_succ tokens current h]
    · rw [if_neg hab, if_neg hab]
      simp only [Outcome.bind, Bool.false_eq_true, if_false]
  · rw [if_neg h, if_neg h]
    rfl

/-- `parse_primary` in terms of the token at `current`. -/
theorem parse_primary_eq (tokens : List Token) (current : Nat) :
    parse_primary tokens current =
      if current < MAX_TOKENS then
        if (tokens.getD current zero_token).type = TOK_NUMBER then
          (tokens.getD current zero_token).lexeme.read.bind fun s =>
            (atoi s).bind fun v => .ok (AST_NUMBER v, current + 1)
        else (tokens.getD current zero_token).lexeme.read.bind fun s => .exit 1 s
      else .undefined := by
  unfold parse_primary
  rw [match_eq]
  by_cases h : current < MAX_TOKENS
  · rw [if_pos h, if_pos h]
    by_cases ht : (tokens.getD current zero_token).type = TOK_NUMBER
    · rw [if_pos ht, if_pos ht]
      simp only [Outcome.bind, if_true, parse_number, Nat.succ_ne_zero, if_false,
        Nat.add_sub_cancel, token_at_of_lt _ _ h]
      cases (tokens.getD current zero_token).lexeme.read with
      | ok s =>
        dsimp only
        cases atoi s <;> rfl
      | exit s l => rfl
      | undefined => rfl
    · rw [if_neg ht, if_neg ht]
      simp only [Outcome.bind, Bool.false_eq_true, if_false, peek, token_at_of_lt _ _ h]
  · rw [if_neg h, if_neg h]
    rfl

/-! ## What a successful parse returns -/

theorem token_range_self (tokens : List Token) (i : Nat) : token_range tokens i i = [] := by
  simp [token_range]

theorem token_range_cons (tokens : List Token) (i j : Nat) (h : i < j) :
    token_range tokens i j = tokens.getD i zero_token :: token_range tokens (i + 1) j := by
  unfold token_range
  have : j - i = (j - (i + 1)) + 1 := by omega
  rw [this, List.range'_succ]
  rfl

theorem token_range_append (tokens : List Token) (i k j : Nat) (hik : i ≤ k) (hkj : k ≤ j) :
    token_range tokens i k ++ token_range tokens k j = token_range tokens i j := by
  unfold token_range
  rw [← List.map_append]
  congr 1
  have h := @List.range'_append i (k - i) (j - k) 1
  rw [show i + 1 * (k - i) = k by omega, show (j - k) + (k - i) = j - i by omega] at h
  exact h

theorem length_token_range (tokens : List Token) (i j : Nat) :
    (token_range tokens i j).length = j - i := by
  simp [token_range]

theorem atoi_ok {s : List Char} {v : Int} (h : atoi s = .ok v) : v = atoi_int s := by
  unfold atoi at h
  cases h
  rfl

theorem read_ok {l : Lexeme} {s : List Char} (h : l.read = .ok s) : l = .text s := by
  cases l with
  | text t => simp only [Lexeme.read, Outcome.ok.injEq] at h; rw [h]
  | unterminated b => cases h

/-- What `parse_primary` returns: the number leaf of the token at `current`, which
is a `TOK_NUMBER` token with a terminated lexeme that `atoi` reads. -/
theorem parse_primary_ok {tokens : List Token} {current : Nat} {r : ASTNode × Nat}
    (h : parse_primary tokens current = .ok r) :
    current < MAX_TOKENS ∧ (tokens.getD current zero_token).type = TOK_NUMBER ∧
    ∃ s, (tokens.getD current zero_token).lexeme = .text s ∧ atoi s = .ok (atoi_int s) ∧
      r = (AST_NUMBER (atoi_int s), current + 1) := by
  rw [parse_primary_eq] at h
  by_cases hc : current < MAX_TOKENS
  · rw [if_pos hc] at h
    by_cases ht : (tokens.getD current zero_token).type = TOK_NUMBER
    · rw [if_pos ht] at h
      refine ⟨hc, ht, ?_⟩
      cases hr : (tokens.getD current zero_token).lexeme.read with
      | ok s =>
        rw [hr] at h
        simp only [Outcome.bind] at h
        cases ha : atoi s with
        | ok v =>
          rw [ha] at h
          simp only [Outcome.ok.injEq] at h
          have hv := atoi_ok ha
          subst hv
          exact ⟨s, read_ok hr, ha, h.symm⟩
        | exit x l => rw [ha] at h; cases h
        | undefined => rw [ha] at h; cases h
      | exit x l => rw [hr] at h; cases h
      | undefined => rw [hr] at h; cases h
    · rw [if_neg ht] at h
      cases hr : (tokens.getD current zero_token).lexeme.read with
      | ok s => rw [hr] at h; cases h
      | exit x l => rw [hr] at h; cases h
      | undefined => rw [hr] at h; cases h
  · rw [if_neg hc] at h
    cases h

theorem parse_primary_inorder {tokens : List Token} {current : Nat} {r : ASTNode × Nat}
    (h : parse_primary tokens current = .ok r) :
    current < r.2 ∧ r.2 = current + 1 ∧
      inorder r.1 = (token_range tokens current r.2).map token_item ∧ is_leaf r.1 = true := by
  obtain ⟨_, ht, s, hs, _, hr⟩ := parse_primary_ok h
  subst hr
  refine ⟨by simp, rfl, ?_, rfl⟩
  rw [token_range_cons _ _ _ (by simp), token_range_self]
  simp only [inorder, List.map_cons, List.map_nil, token_item, if_pos ht, hs, Lexeme.bytes]

/-- What the loop returns, given what `sub` returns: the new `current` is at a
token inside the array that is of neither operator kind, and the tree lists the
tree it was entered with followed by the consumed tokens. -/
theorem binary_loop_ok (sub : List Token → Nat → Outcome (ASTNode × Nat)) (a b : TokenType)
    (ha : a ≠ TOK_NUMBER) (hb : b ≠ TOK_NUMBER) (Q : Nat → Prop) (tokens : List Token)
    (hsub : ∀ i r, sub tokens i = .ok r →
      i < r.2 ∧ inorder r.1 = (token_range tokens i r.2).map token_item ∧ Q r.2)
    (f : Nat) (left : ASTNode) (current : Nat) (r : ASTNode × Nat) (hQ : Q current)
    (h : binary_loop sub a b f tokens left current = .ok r) :
    current ≤ r.2 ∧ r.2 < MAX_TOKENS ∧
      (tokens.getD r.2 zero_token).type ≠ a ∧ (tokens.getD r.2 zero_token).type ≠ b ∧
      Q r.2 ∧
      inorder r.1 = inorder left ++ (token_range tokens current r.2).map token_item := by
  induction f generalizing left current with
  | zero => cases h
  | succ f ih =>
    rw [binary_loop_succ] at h
    by_cases hc : current < MAX_TOKENS
    · rw [if_pos hc] at h
      by_cases hab : (tokens.getD current zero_token).type = a ∨
          (tokens.getD current zero_token).type = b
      · rw [if_pos hab] at h
        cases hs : sub tokens (current + 1) with
        | ok r1 =>
          rw [hs] at h
          simp only [Outcome.bind] at h
          obtain ⟨h1, h2, h3⟩ := hsub _ _ hs
          obtain ⟨i1, i2, i3, i4, i5, i6⟩ := ih _ _ h3 h
          refine ⟨by omega, i2, i3, i4, i5, ?_⟩
          have hn : (tokens.getD current zero_token).type ≠ TOK_NUMBER := by
            rcases hab with hab | hab
            · rw [hab]; exact ha
            · rw [hab]; exact hb
          rw [i6, ← token_range_append tokens current r1.2 r.2 (by omega) i1,
            token_range_cons tokens current r1.2 (by omega)]
          simp only [inorder, h2, List.map_append, List.map_cons, token_item, if_neg hn,
            List.append_assoc, List.singleton_append, List.cons_append, List.nil_append]
        | exit x l => rw [hs] at h; cases h
        | undefined => rw [hs] at h; cases h
      · rw [if_neg hab] at h
        cases h
        refine ⟨Nat.le_refl _, hc, fun h1 => hab (Or.inl h1), fun h1 => hab (Or.inr h1), hQ, ?_⟩
        simp [token_range_self]
    · rw [if_neg hc] at h
      cases h

/-- What `parse_term` returns. -/
theorem parse_term_ok {tokens : List Token} {current : Nat} {r : ASTNode × Nat}
    (h : parse_term tokens current = .ok r) :
    current < r.2 ∧ r.2 < MAX_TOKENS ∧
      (tokens.getD r.2 zero_token).type ≠ TOK_STAR ∧
      (tokens.getD r.2 zero_token).type ≠ TOK_SLASH ∧
      inorder r.1 = (token_range tokens current r.2).map token_item := by
  unfold parse_term at h
  cases hp : parse_primary tokens current with
  | ok p =>
    rw [hp] at h
    simp only [Outcome.bind] at h
    rw [parse_term_loop_eq] at h
    obtain ⟨p1, p2, p3, _⟩ := parse_primary_inorder hp
    obtain ⟨i1, i2, i3, i4, _, i6⟩ := binary_loop_ok parse_primary TOK_STAR TOK_SLASH
      (by decide) (by decide) (fun _ => True) tokens
      (fun i r hr => ⟨(parse_primary_inorder hr).1, (parse_primary_inorder hr).2.2.1, trivial⟩)
      _ _ _ _ trivial h
    refine ⟨by omega, i2, i3, i4, ?_⟩
    rw [i6, p3, ← List.map_append, token_range_append _ _ _ _ (by omega) i1]
  | exit x l => rw [hp] at h; cases h
  | undefined => rw [hp] at h; cases h

/-- What `parse_expression` returns. -/
theorem parse_expression_ok {tokens : List Token} {current : Nat} {r : ASTNode × Nat}
    (h : parse_expression tokens current = .ok r) :
    current < r.2 ∧ r.2 < MAX_TOKENS ∧
      (tokens.getD r.2 zero_token).type ≠ TOK_PLUS ∧
      (tokens.getD r.2 zero_token).type ≠ TOK_MINUS ∧
      (tokens.getD r.2 zero_token).type ≠ TOK_STAR ∧
      (tokens.getD r.2 zero_token).type ≠ TOK_SLASH ∧
      inorder r.1 = (token_range tokens current r.2).map token_item := by
  unfold parse_expression at h
  cases hp : parse_term tokens current with
  | ok p =>
    rw [hp] at h
    simp only [Outcome.bind] at h
    rw [parse_expression_loop_eq] at h
    obtain ⟨p1, p2, p3, p4, p5⟩ := parse_term_ok hp
    obtain ⟨i1, i2, i3, i4, i5, i6⟩ := binary_loop_ok parse_term TOK_PLUS TOK_MINUS
      (by decide) (by decide)
      (fun j => (tokens.getD j zero_token).type ≠ TOK_STAR ∧
        (tokens.getD j zero_token).type ≠ TOK_SLASH) tokens
      (fun i r hr => ⟨(parse_term_ok hr).1, (parse_term_ok hr).2.2.2.2,
        (parse_term_ok hr).2.2.1, (parse_term_ok hr).2.2.2.1⟩)
      _ _ _ _ ⟨p3, p4⟩ h
    refine ⟨by omega, i2, i3, i4, i5.1, i5.2, ?_⟩
    rw [i6, p5, ← List.map_append, token_range_append _ _ _ _ (by omega) i1]
  | exit x l => rw [hp] at h; cases h
  | undefined => rw [hp] at h; cases h

/-! ## The tokens that `lex` stores -/

theorem word_type_cases (w : List Char) :
    word_type w = TOK_LET ∨ word_type w = TOK_FUNCTION ∨ word_type w = TOK_RETURN ∨
      word_type w = TOK_IDENTIFIER := by
  unfold word_type
  split_ifs <;> simp

theorem single_type_ne_number (c : Char) : single_type c ≠ TOK_NUMBER := by
  unfold single_type
  repeat (first | exact (by decide) | apply ite_ne (by decide))

theorem single_type_plus {c : Char} (h : single_type c = TOK_PLUS) : c = '+' := by
  by_contra hc
  revert h
  unfold single_type
  simp only [hc, if_false]
  repeat (first | exact (by decide) | apply ite_ne (by decide))

theorem single_type_minus {c : Char} (h : single_type c = TOK_MINUS) : c = '-' := by
  by_contra hc
  revert h
  unfold single_type
  simp only [hc, if_false]
  repeat (first | exact (by decide) | apply ite_ne (by decide))

theorem single_type_star {c : Char} (h : single_type c = TOK_STAR) : c = '*' := by
  by_contra hc
  revert h
  unfold single_type
  simp only [hc, if_false]
  repeat (first | exact (by decide) | apply ite_ne (by decide))

theorem single_type_slash {c : Char} (h : single_type c = TOK_SLASH) : c = '/' := by
  by_contra hc
  revert h
  unfold single_type
  simp only [hc, if_false]
  repeat (first | exact (by decide) | apply ite_ne (by decide))

theorem is_numeral_take (d : List Char) (h : is_numeral d = true) :
    is_numeral (d.take 63) = true := by
  cases d with
  | nil => simp [is_numeral] at h
  | cons c d =>
    simp only [is_numeral, Bool.and_eq_true, List.all_eq_true] at h
    simp only [List.take_succ_cons, is_numeral, Bool.and_eq_true, List.all_eq_true]
    exact ⟨h.1, fun x hx => h.2 x (List.mem_of_mem_take hx)⟩

theorem is_numeral_of_digits (d : List Char) (hne : d ≠ []) (h : ∀ x ∈ d, isdigit x = true) :
    is_numeral d = true := by
  cases d with
  | nil => exact absurd rfl hne
  | cons c d =>
    simp only [is_numeral, Bool.and_eq_true, List.all_eq_true]
    exact ⟨h c (List.mem_cons_self _ _), fun x hx => h x (List.mem_cons_of_mem _ hx)⟩

/-- Kind and lexeme of a stored token fit together. -/
theorem stored_lexeme_ok (u : SpecToken) (hu : scanned u) :
    op_lexeme_ok u.stored ∧ number_lexeme_ok u.stored := by
  rcases hu with ⟨c, w, hl, ha, hw, hty⟩ | ⟨hne, hd, hty⟩ | ⟨c, hl, _, _, _, hty⟩
  · have hk := word_type_cases u.text
    rw [← hty] at hk
    refine ⟨⟨?_, ?_, ?_, ?_⟩, ?_⟩ <;> intro h <;> rw [stored_type] at h <;>
      rw [h] at hk <;> simp at hk
  · refine ⟨⟨?_, ?_, ?_, ?_⟩, ?_⟩
    · intro h; rw [stored_type, hty] at h; cases h
    · intro h; rw [stored_type, hty] at h; cases h
    · intro h; rw [stored_type, hty] at h; cases h
    · intro h; rw [stored_type, hty] at h; cases h
    · intro _
      have hn := is_numeral_of_digits u.text hne hd
      unfold SpecToken.stored strncpy63
      split_ifs
      · exact hn
      · exact is_numeral_take _ hn
  · have hshort : u.text.length < 63 := by rw [hl]; simp
    rw [stored_short u hshort, hl]
    refine ⟨⟨?_, ?_, ?_, ?_⟩, ?_⟩
    · intro h; simp only at h; rw [hty] at h; rw [single_type_plus h]
    · intro h; simp only at h; rw [hty] at h; rw [single_type_minus h]
    · intro h; simp only at h; rw [hty] at h; rw [single_type_star h]
    · intro h; simp only at h; rw [hty] at h; rw [single_type_slash h]
    · intro h; simp only at h; rw [hty] at h; exact absurd h (single_type_ne_number c)

/-- The tokens of `lex`, as a list. -/
theorem lex_ok_eq {src : List Char} {toks : List Token} (h : lex src = .ok toks) :
    fits_scanner src ∧
      toks = (spec_scan src).map SpecToken.stored ++ [⟨TOK_EOF, .text []⟩] := by
  rw [lex_eq] at h
  by_cases hf : fits_scanner src
  · rw [if_pos hf] at h
    cases h
    exact ⟨hf, rfl⟩
  · rw [if_neg hf] at h
    cases h

theorem getD_mem_or (tokens : List Token) (k : Nat) :
    tokens.getD k zero_token ∈ tokens ∨ tokens.getD k zero_token = zero_token := by
  by_cases h : k < tokens.length
  · left
    rw [List.getD_eq_getElem _ _ h]
    exact List.getElem_mem h
  · right
    exact List.getD_eq_default _ _ (by omega)

/-- Every entry of the token array after `lex` has a lexeme that fits its kind. -/
theorem lex_lexeme_ok {src : List Char} {toks : List Token} (h : lex src = .ok toks)
    (k : Nat) :
    op_lexeme_ok (toks.getD k zero_token) ∧ number_lexeme_ok (toks.getD k zero_token) := by
  obtain ⟨_, ht⟩ := lex_ok_eq h
  have hz : op_lexeme_ok zero_token ∧ number_lexeme_ok zero_token := by
    refine ⟨⟨?_, ?_, ?_, ?_⟩, ?_⟩ <;> intro h <;> cases h
  rcases getD_mem_or toks k with hm | hm
  · rw [ht] at hm
    rcases List.mem_append.1 hm with hm | hm
    · obtain ⟨u, hu, he⟩ := List.mem_map.1 hm
      rw [ht, ← he]
      exact stored_lexeme_ok u (spec_scan_scanned src u hu)
    · have he : (toks.getD k zero_token) = ⟨TOK_EOF, .text []⟩ := by
        rw [ht]; simpa using hm
      rw [he]
      refine ⟨⟨?_, ?_, ?_, ?_⟩, ?_⟩ <;> intro h <;> cases h
  · rw [hm]
    exact hz

theorem atoi_value_numeral (d : List Char) (hd : is_numeral d = true) :
    atoi_value d = (digits_value d : Int) := by
  cases d with
  | nil => simp [is_numeral] at hd
  | cons c d =>
    simp only [is_numeral, Bool.and_eq_true, List.all_eq_true] at hd
    have hc := isdigit_toNat hd.1
    have hsp : isspace c = false := not_isspace_of_isalnum (isalnum_of_isdigit hd.1)
    have h1 : (c :: d).dropWhile isspace = c :: d := by
      simp [List.dropWhile_cons, hsp]
    have hm : c ≠ '-' := by
      intro h; subst h; revert hc; decide
    have hp : c ≠ '+' := by
      intro h; subst h; revert hc; decide
    have h2 : (c :: d).takeWhile isdigit = c :: d := by
      rw [List.takeWhile_eq_self_iff]
      intro x hx
      rcases List.mem_cons.1 hx with hx | hx
      · subst hx; exact hd.1
      · exact hd.2 x hx
    unfold atoi_value
    simp only [h1, List.head?_cons, Option.some.injEq, hm, hp, or_self, if_false, h2]

/-- For a run of digits with a value of at most `INT_MAX`, the `int` that `atoi`
returns is the decimal value. -/
theorem atoi_int_numeral (d : List Char) (hd : is_numeral d = true)
    (hv : (digits_value d : Int) ≤ INT_MAX) : atoi_int d = (digits_value d : Int) := by
  have h := atoi_numeral d hd hv
  unfold atoi at h
  simp only [Outcome.ok.injEq] at h
  exact h

theorem token_item_eq_decimal (t : Token) (h : number_lexeme_ok t)
    (hfit : t.type = TOK_NUMBER → (digits_value t.lexeme.bytes : Int) ≤ INT_MAX) :
    token_item t = decimal_item t := by
  unfold token_item decimal_item
  by_cases ht : t.type = TOK_NUMBER
  · rw [if_pos ht, if_pos ht, atoi_int_numeral _ (h ht) (hfit ht)]
  · rw [if_neg ht, if_neg ht]

/-! ## The shape of the trees of the parser -/

theorem is_leaf_eq {t : ASTNode} (h : is_leaf t = true) : ∃ v, t = AST_NUMBER v := by
  cases t with
  | AST_NUMBER v => exact ⟨v, rfl⟩
  | AST_BINARY l r op => cases h
  | AST_VAR_DECL n v => cases h

theorem is_mul_op_not_add {c : Char} (h : is_mul_op c = true) : is_add_op c = false := by
  simp only [is_mul_op, Bool.or_eq_true, decide_eq_true_eq] at h
  rcases h with h | h <;> subst h <;> decide

theorem is_add_op_not_mul {c : Char} (h : is_add_op c = true) : is_mul_op c = false := by
  simp only [is_add_op, Bool.or_eq_true, decide_eq_true_eq] at h
  rcases h with h | h <;> subst h <;> decide

theorem is_mul_op_arith {c : Char} (h : is_mul_op c = true) :
    (decide (c = '+') || decide (c = '-') || decide (c = '*') || decide (c = '/')) = true := by
  simp only [is_mul_op, Bool.or_eq_true, decide_eq_true_eq] at h
  rcases h with h | h <;> subst h <;> decide

theorem is_add_op_arith {c : Char} (h : is_add_op c = true) :
    (decide (c = '+') || decide (c = '-') || decide (c = '*') || decide (c = '/')) = true := by
  simp only [is_add_op, Bool.or_eq_true, decide_eq_true_eq] at h
  rcases h with h | h <;> subst h <;> decide

/-- A tree of `parse_term` is arithmetic, has no `+` or `-` node, and satisfies
the three conditions on the children of its nodes. -/
theorem term_tree_shape (t : ASTNode) (h : term_tree t = true) :
    is_arith t = true ∧ has_add t = false ∧ mul_right_leaf t = true ∧
      no_add_under_mul t = true ∧ add_right_plain t = true := by
  induction t with
  | AST_NUMBER v => exact ⟨rfl, rfl, rfl, rfl, rfl⟩
  | AST_BINARY l r op ihl _ =>
    simp only [term_tree, Bool.and_eq_true] at h
    obtain ⟨⟨hop, hleaf⟩, hl⟩ := h
    obtain ⟨v, hv⟩ := is_leaf_eq hleaf
    subst hv
    obtain ⟨a1, a2, a3, a4, a5⟩ := ihl hl
    have hadd := is_mul_op_not_add hop
    have har := is_mul_op_arith hop
    refine ⟨?_, ?_, ?_, ?_, ?_⟩
    · simp only [is_arith, a1, har, Bool.and_self]
    · simp only [has_add, hadd, a2, Bool.or_self]
    · simp only [mul_right_leaf, is_leaf, a3, Bool.or_true, Bool.and_self]
    · simp only [no_add_under_mul, a2, has_add, a4, Bool.not_false, Bool.and_self,
        Bool.or_true]
    · simp only [add_right_plain, has_add, a5, Bool.not_false, Bool.or_true, Bool.and_self]
  | AST_VAR_DECL n v _ => cases h

theorem expr_tree_of_term {t : ASTNode} (h : term_tree t = true) : expr_tree t = true := by
  cases t with
  | AST_NUMBER v => rfl
  | AST_BINARY l r op =>
    simp only [term_tree] at h
    simp only [expr_tree, h, Bool.true_or]
  | AST_VAR_DECL n v => cases h

/-- A tree of `parse_expression` is arithmetic and satisfies the three
conditions on the children of its nodes. -/
theorem expr_tree_shape (t : ASTNode) (h : expr_tree t = true) :
    is_arith t = true ∧ mul_right_leaf t = true ∧ no_add_under_mul t = true ∧
      add_right_plain t = true := by
  induction t with
  | AST_NUMBER v => exact ⟨rfl, rfl, rfl, rfl⟩
  | AST_BINARY l r op ihl _ =>
    simp only [expr_tree, Bool.or_eq_true, Bool.and_eq_true] at h
    rcases h with ⟨⟨hop, hleaf⟩, hl⟩ | ⟨⟨hop, hr⟩, hl⟩
    · have ht : term_tree (AST_BINARY l r op) = true := by
        simp only [term_tree, hop, hleaf, hl, Bool.and_self]
      obtain ⟨a1, _, a3, a4, a5⟩ := term_tree_shape _ ht
      exact ⟨a1, a3, a4, a5⟩
    · obtain ⟨a1, a3, a4, a5⟩ := ihl hl
      obtain ⟨b1, b2, b3, b4, b5⟩ := term_tree_shape r hr
      have hmul := is_add_op_not_mul hop
      have har := is_add_op_arith hop
      refine ⟨?_, ?_, ?_, ?_⟩
      · simp only [is_arith, a1, b1, har, Bool.and_self]
      · simp only [mul_right_leaf, hmul, a3, b3, Bool.not_false, Bool.true_or, Bool.and_self]
      · simp only [no_add_under_mul, hmul, a4, b4, Bool.not_false, Bool.true_or,
          Bool.and_self]
      · simp only [add_right_plain, b2, a5, b5, Bool.not_false, Bool.or_true, Bool.and_self]
  | AST_VAR_DECL n v _ => cases h

/-- The tree that the loop returns satisfies `L` when the tree it was entered
with does, the operands that `sub` returns satisfy `R`, and a node over an `L`
tree, an `R` tree and the character of a consumed operator satisfies `L`. -/
theorem binary_loop_shape (sub : List Token → Nat → Outcome (ASTNode × Nat)) (a b : TokenType)
    (L R : ASTNode → Prop) (okc : Char → Prop) (tokens : List Token)
    (hsub : ∀ i r, sub tokens i = .ok r → R r.1)
    (hop : ∀ c, (tokens.getD c zero_token).type = a ∨ (tokens.getD c zero_token).type = b →
      okc (tokens.getD c zero_token).lexeme.first)
    (hstep : ∀ l r op, L l → R r → okc op → L (AST_BINARY l r op))
    (f : Nat) (left : ASTNode) (current : Nat) (r : ASTNode × Nat) (hL : L left)
    (h : binary_loop sub a b f tokens left current = .ok r) : L r.1 := by
  induction f generalizing left current with
  | zero => cases h
  | succ f ih =>
    rw [binary_loop_succ] at h
    by_cases hc : current < MAX_TOKENS
    · rw [if_pos hc] at h
      by_cases hab : (tokens.getD current zero_token).type = a ∨
          (tokens.getD current zero_token).type = b
      · rw [if_pos hab] at h
        cases hs : sub tokens (current + 1) with
        | ok r1 =>
          rw [hs] at h
          simp only [Outcome.bind] at h
          exact ih _ _ (hstep _ _ _ hL (hsub _ _ hs) (hop _ hab)) h
        | exit x l => rw [hs] at h; cases h
        | undefined => rw [hs] at h; cases h
      · rw [if_neg hab] at h
        cases h
        exact hL
    · rw [if_neg hc] at h
      cases h

theorem parse_term_shape {tokens : List Token}
    (hok : ∀ k, op_lexeme_ok (tokens.getD k zero_token)) {current : Nat} {r : ASTNode × Nat}
    (h : parse_term tokens current = .ok r) : term_tree r.1 = true := by
  unfold parse_term at h
  cases hp : parse_primary tokens current with
  | ok p =>
    rw [hp] at h
    simp only [Outcome.bind] at h
    rw [parse_term_loop_eq] at h
    refine binary_loop_shape parse_primary TOK_STAR TOK_SLASH (fun t => term_tree t = true)
      (fun t => is_leaf t = true) (fun c => is_mul_op c = true) tokens
      (fun i r hr => (parse_primary_inorder hr).2.2.2) ?_ ?_ _ _ _ _ ?_ h
    · intro c hc
      rcases hc with hc | hc
      · rw [(hok c).2.2.1 hc]; rfl
      · rw [(hok c).2.2.2 hc]; rfl
    · intro l r op hl hr ho
      simp only [term_tree, ho, hr, hl, Bool.and_self]
    · obtain ⟨v, hv⟩ := is_leaf_eq (parse_primary_inorder hp).2.2.2
      rw [hv]; rfl
  | exit x l => rw [hp] at h; cases h
  | undefined => rw [hp] at h; cases h

theorem parse_expression_shape {tokens : List Token}
    (hok : ∀ k, op_lexeme_ok (tokens.getD k zero_token)) {current : Nat} {r : ASTNode × Nat}
    (h : parse_expression tokens current = .ok r) : expr_tree r.1 = true := by
  unfold parse_expression at h
  cases hp : parse_term tokens current with
  | ok p =>
    rw [hp] at h
    simp only [Outcome.bind] at h
    rw [parse_expression_loop_eq] at h
    refine binary_loop_shape parse_term TOK_PLUS TOK_MINUS (fun t => expr_tree t = true)
      (fun t => term_tree t = true) (fun c => is_add_op c = true) tokens
      (fun i r hr => parse_term_shape hok hr) ?_ ?_ _ _ _ _ ?_ h
    · intro c hc
      rcases hc with hc | hc
      · rw [(hok c).1 hc]; rfl
      · rw [(hok c).2.1 hc]; rfl
    · intro l r op hl hr ho
      simp only [expr_tree, ho, hr, hl, Bool.and_self, Bool.or_true]
    · exact expr_tree_of_term (parse_term_shape hok hp)
  | exit x l => rw [hp] at h; cases h
  | undefined => rw [hp] at h; cases h

/-- What a successful `parse_var_decl` went through. -/
theorem parse_var_decl_ok {tokens : List Token} {r : ASTNode × Nat}
    (h : parse_var_decl tokens = .ok r) :
    ∃ name value, parse_expression tokens 3 = .ok value ∧
      (tokens.getD 1 zero_token).lexeme = .text name ∧ value.2 < MAX_TOKENS ∧
      r = (AST_VAR_DECL name value.1, value.2 + 1) := by
  unfold parse_var_decl advance at h
  simp only [token_at_of_lt tokens 0 (by decide), token_at_of_lt tokens 1 (by decide),
    token_at_of_lt tokens 2 (by decide), Outcome.bind, Nat.zero_add, Nat.reduceAdd] at h
  cases he : parse_expression tokens 3 with
  | ok value =>
    rw [he] at h
    simp only at h
    have hlt := (parse_expression_ok he).2.1
    rw [token_at_of_lt _ _ hlt] at h
    simp only at h
    cases hr : (tokens.getD 1 zero_token).lexeme.read with
    | ok name =>
      rw [hr] at h
      simp only [Outcome.ok.injEq] at h
      exact ⟨name, value, rfl, read_ok hr, hlt, h.symm⟩
    | exit x l => rw [hr] at h; cases h
    | undefined => rw [hr] at h; cases h
  | exit x l => rw [he] at h; cases h
  | undefined => rw [he] at h; cases h

/-! ## Expressions of the grammar are parsed to their end -/

theorem parse_primary_number {tokens : List Token} {current : Nat} {s : List Char}
    (hc : current < MAX_TOKENS) (ht : (tokens.getD current zero_token).type = TOK_NUMBER)
    (hs : (tokens.getD current zero_token).lexeme = .text s) :
    parse_primary tokens current = .ok (AST_NUMBER (atoi_int s), current + 1) := by
  rw [parse_primary_eq, if_pos hc, if_pos ht, hs]
  simp only [Lexeme.read, Outcome.bind, atoi]

/-- The loop of `parse_term` inside an expression of the grammar that occupies
the entries `s`, ..., `s + n - 1`: entered after a number, it returns after a
number. -/
theorem term_loop_total (tokens : List Token) (s n : Nat) (hcap : s + n < MAX_TOKENS)
    (hodd : n % 2 = 1)
    (hnum : ∀ k, k < n → k % 2 = 0 → (tokens.getD (s + k) zero_token).type = TOK_NUMBER ∧
      ∃ str, (tokens.getD (s + k) zero_token).lexeme = .text str)
    (hstop : is_op_kind (tokens.getD (s + n) zero_token).type = false)
    (f : Nat) (left : ASTNode) (k : Nat) (hk : k % 2 = 1) (hkn : k ≤ n)
    (hf : s + n < f + (s + k)) :
    ∃ tree k1, binary_loop parse_primary TOK_STAR TOK_SLASH f tokens left (s + k) =
        .ok (tree, s + k1) ∧ k1 % 2 = 1 ∧ k ≤ k1 ∧ k1 ≤ n ∧
      (tokens.getD (s + k1) zero_token).type ≠ TOK_STAR ∧
      (tokens.getD (s + k1) zero_token).type ≠ TOK_SLASH := by
  induction f generalizing left k with
  | zero => omega
  | succ f ih =>
    rw [binary_loop_succ, if_pos (by omega)]
    by_cases hab : (tokens.getD (s + k) zero_token).type = TOK_STAR ∨
        (tokens.getD (s + k) zero_token).type = TOK_SLASH
    · rw [if_pos hab]
      have hne : k ≠ n := by
        intro h
        subst h
        rcases hab with hab | hab <;> rw [hab] at hstop <;> cases hstop
      obtain ⟨ht, str, hs⟩ := hnum (k + 1) (by omega) (by omega)
      have hp : parse_primary tokens (s + k + 1) =
          .ok (AST_NUMBER (atoi_int str), s + k + 1 + 1) :=
        parse_primary_number (by omega) ht hs
      rw [hp]
      simp only [Outcome.bind]
      obtain ⟨tree, k1, h1, h2, h3, h4, h5⟩ := ih
        (AST_BINARY left (AST_NUMBER (atoi_int str))
          (tokens.getD (s + k) zero_token).lexeme.first) (k + 2) (by omega) (by omega)
        (by omega)
      exact ⟨tree, k1, h1, h2, by omega, h4, h5⟩
    · rw [if_neg hab]
      exact ⟨left, k, rfl, hk, Nat.le_refl _, hkn, fun h => hab (Or.inl h),
        fun h => hab (Or.inr h)⟩

theorem parse_term_total (tokens : List Token) (s n : Nat) (hcap : s + n < MAX_TOKENS)
    (hodd : n % 2 = 1)
    (hnum : ∀ k, k < n → k % 2 = 0 → (tokens.getD (s + k) zero_token).type = TOK_NUMBER ∧
      ∃ str, (tokens.getD (s + k) zero_token).lexeme = .text str)
    (hstop : is_op_kind (tokens.getD (s + n) zero_token).type = false)
    (k : Nat) (hk : k % 2 = 0) (hkn : k < n) :
    ∃ tree k1, parse_term tokens (s + k) = .ok (tree, s + k1) ∧ k1 % 2 = 1 ∧ k < k1 ∧ k1 ≤ n ∧
      (tokens.getD (s + k1) zero_token).type ≠ TOK_STAR ∧
      (tokens.getD (s + k1) zero_token).type ≠ TOK_SLASH := by
  obtain ⟨ht, str, hs⟩ := hnum k hkn hk
  unfold parse_term
  rw [parse_primary_number (by omega) ht hs]
  simp only [Outcome.bind]
  rw [parse_term_loop_eq]
  obtain ⟨tree, k1, h1, h2, h3, h4, h5⟩ := term_loop_total tokens s n hcap hodd hnum hstop
    MAX_TOKENS (AST_NUMBER (atoi_int str)) (k + 1) (by omega) (by omega) (by omega)
  exact ⟨tree, k1, h1, h2, by omega, h4, h5⟩

/-- The loop of `parse_expression` inside an expression of the grammar: it
returns at the entry `s + n` that follows the expression. -/
theorem expression_loop_total (tokens : List Token) (s n : Nat) (hcap : s + n < MAX_TOKENS)
    (hodd : n % 2 = 1)
    (hnum : ∀ k, k < n → k % 2 = 0 → (tokens.getD (s + k) zero_token).type = TOK_NUMBER ∧
      ∃ str, (tokens.getD (s + k) zero_token).lexeme = .text str)
    (hop : ∀ k, k < n → k % 2 = 1 → is_op_kind (tokens.getD (s + k) zero_token).type = true)
    (hstop : is_op_kind (tokens.getD (s + n) zero_token).type = false)
    (f : Nat) (left : ASTNode) (k : Nat) (hk : k % 2 = 1) (hkn : k ≤ n)
    (hf : s + n < f + (s + k))
    (hstar : (tokens.getD (s + k) zero_token).type ≠ TOK_STAR)
    (hslash : (tokens.getD (s + k) zero_token).type ≠ TOK_SLASH) :
    ∃ tree, binary_loop parse_term TOK_PLUS TOK_MINUS f tokens left (s + k) =
      .ok (tree, s + n) := by
  induction f generalizing left k with
  | zero => omega
  | succ f ih =>
    rw [binary_loop_succ, if_pos (by omega)]
    by_cases hab : (tokens.getD (s + k) zero_token).type = TOK_PLUS ∨
        (tokens.getD (s + k) zero_token).type = TOK_MINUS
    · rw [if_pos hab]
      have hne : k ≠ n := by
        intro h
        subst h
        rcases hab with hab | hab <;> rw [hab] at hstop <;> cases hstop
      obtain ⟨tree, k1, h1, h2, h3, h4, h5, h6⟩ := parse_term_total tokens s n hcap hodd hnum
        hstop (k + 1) (by omega) (by omega)
      rw [show s + k + 1 = s + (k + 1) by omega, h1]
      simp only [Outcome.bind]
      exact ih _ k1 h2 h4 (by omega) h5 h6
    · rw [if_neg hab]
      have hkn1 : k = n := by
        by_contra hne
        have h := hop k (by omega) hk
        simp only [is_op_kind, Bool.or_eq_true, decide_eq_true_eq] at h
        rcases h with ((h | h) | h) | h
        · exact hab (Or.inl h)
        · exact hab (Or.inr h)
        · exact hstar h
        · exact hslash h
      subst hkn1
      exact ⟨left, rfl⟩

theorem parse_expression_total (tokens : List Token) (s n : Nat) (hcap : s + n < MAX_TOKENS)
    (hodd : n % 2 = 1)
    (hnum : ∀ k, k < n → k % 2 = 0 → (tokens.getD (s + k) zero_token).type = TOK_NUMBER ∧
      ∃ str, (tokens.getD (s + k) zero_token).lexeme = .text str)
    (hop : ∀ k, k < n → k % 2 = 1 → is_op_kind (tokens.getD (s + k) zero_token).type = true)
    (hstop : is_op_kind (tokens.getD (s + n) zero_token).type = false) :
    ∃ tree, parse_expression tokens s = .ok (tree, s + n) := by
  obtain ⟨tree, k1, h1, h2, h3, h4, h5, h6⟩ := parse_term_total tokens s n hcap hodd hnum
    hstop 0 rfl (by omega)
  unfold parse_expression
  rw [Nat.add_zero] at h1
  rw [h1]
  simp only [Outcome.bind]
  rw [parse_expression_loop_eq]
  exact expression_loop_total tokens s n hcap hodd hnum hop hstop MAX_TOKENS tree k1 h2 h4
    (by omega) h5 h6

/-- A declaration whose expression occupies the entries 3, ..., `n + 2` is
parsed to the entry after the expression, whatever the kinds of the entries 0,
1, 2 and whatever follows the expression, as long as that is not an operator;
`parse_var_decl` returns when the lexeme of entry 1 is a terminated string. -/
theorem parse_var_decl_accepts (tokens : List Token) (n : Nat)
    (hcap : 3 + n < MAX_TOKENS) (hodd : n % 2 = 1)
    (hnum : ∀ k, k < n → k % 2 = 0 → (tokens.getD (3 + k) zero_token).type = TOK_NUMBER ∧
      ∃ str, (tokens.getD (3 + k) zero_token).lexeme = .text str)
    (hop : ∀ k, k < n → k % 2 = 1 → is_op_kind (tokens.getD (3 + k) zero_token).type = true)
    (hstop : is_op_kind (tokens.getD (3 + n) zero_token).type = false) :
    ∃ value, parse_expression tokens 3 = .ok (value, n + 3) ∧
      ∀ name, (tokens.getD 1 zero_token).lexeme = .text name →
        parse_var_decl tokens = .ok (AST_VAR_DECL name value, n + 4) := by
  obtain ⟨tree, ht⟩ := parse_expression_total tokens 3 n hcap hodd hnum hop hstop
  refine ⟨tree, by rw [ht, Nat.add_comm], ?_⟩
  intro name hname
  unfold parse_var_decl advance
  simp only [token_at_of_lt tokens 0 (by decide), token_at_of_lt tokens 1 (by decide),
    token_at_of_lt tokens 2 (by decide), Outcome.bind, Nat.zero_add, Nat.reduceAdd, ht,
    token_at_of_lt tokens (3 + n) hcap, hname, Lexeme.read]
  rw [show 3 + n + 1 = n + 4 by omega]

/-! ## From the kinds of the tokens to the entries of the array -/

theorem expr_kinds_index : ∀ ks : List TokenType, expr_kinds ks = true →
    ks.length % 2 = 1 ∧ (∀ k, k < ks.length → k % 2 = 0 → ks.getD k TOK_LET = TOK_NUMBER) ∧
      (∀ k, k < ks.length → k % 2 = 1 → is_op_kind (ks.getD k TOK_LET) = true)
  | [], h => by cases h
  | [a], h => by
    simp only [expr_kinds, decide_eq_true_eq] at h
    subst h
    refine ⟨rfl, ?_, ?_⟩
    · intro k hk _
      simp only [List.length_singleton, Nat.lt_one_iff] at hk
      subst hk
      rfl
    · intro k hk h1
      simp only [List.length_singleton, Nat.lt_one_iff] at hk
      subst hk
      cases h1
  | a :: o :: rest, h => by
    simp only [expr_kinds, Bool.and_eq_true, decide_eq_true_eq] at h
    obtain ⟨⟨ha, ho⟩, hr⟩ := h
    obtain ⟨i1, i2, i3⟩ := expr_kinds_index rest hr
    subst ha
    refine ⟨?_, ?_, ?_⟩
    · simp only [List.length_cons]; omega
    · intro k hk h0
      match k, hk, h0 with
      | 0, _, _ => rfl
      | 1, _, h0 => cases h0
      | k + 2, hk, h0 =>
        simp only [List.length_cons] at hk
        simp only [List.getD_cons_succ]
        exact i2 k (by omega) (by omega)
    · intro k hk h1
      match k, hk, h1 with
      | 0, _, h1 => cases h1
      | 1, _, _ => exact ho
      | k + 2, hk, h1 =>
        simp only [List.length_cons] at hk
        simp only [List.getD_cons_succ]
        exact i3 k (by omega) (by omega)

theorem type_getD (tokens : List Token) (i : Nat) :
    (tokens.getD i zero_token).type = (tokens.map Token.type).getD i TOK_LET := by
  induction tokens generalizing i with
  | nil => rfl
  | cons t ts ih =>
    cases i with
    | zero => rfl
    | succ i => simp only [List.map_cons, List.getD_cons_succ, ih]

theorem getD_append_stop (ks : List TokenType) (kstop : TokenType) (krest : List TokenType)
    (k : Nat) :
    (k < ks.length → (ks ++ kstop :: krest).getD k TOK_LET = ks.getD k TOK_LET) ∧
      (k = ks.length → (ks ++ kstop :: krest).getD k TOK_LET = kstop) := by
  induction ks generalizing k with
  | nil =>
    refine ⟨fun h => absurd h (by simp), fun h => ?_⟩
    subst h
    rfl
  | cons a ks ih =>
    cases k with
    | zero => exact ⟨fun _ => rfl, fun h => by simp at h⟩
    | succ k =>
      simp only [List.cons_append, List.getD_cons_succ, List.length_cons]
      exact ⟨fun h => (ih k).1 (by omega), fun h => (ih k).2 (by omega)⟩

theorem read_terminated {l : Lexeme} (h : l.terminated = true) : ∃ s, l = .text s := by
  cases l with
  | text s => exact ⟨s, rfl⟩
  | unterminated b => cases h

/-- The operator tokens and the `;` that `lex` stores have their character as a
terminated lexeme. -/
theorem lex_punctuator_text {src : List Char} {toks : List Token} (hlex : lex src = .ok toks)
    (i : Nat)
    (h : is_op_kind (toks.getD i zero_token).type = true ∨
      (toks.getD i zero_token).type = TOK_SEMICOLON) :
    ∃ s, (toks.getD i zero_token).lexeme = .text s := by
  obtain ⟨_, ht⟩ := lex_ok_eq hlex
  rcases getD_mem_or toks i with hm | hm
  · rw [ht] at hm
    rcases List.mem_append.1 hm with hm | hm
    · obtain ⟨u, hu, he⟩ := List.mem_map.1 hm
      rw [ht, ← he, stored_type] at h
      rw [ht, ← he]
      rcases spec_scan_scanned src u hu with ⟨c, w, hl, ha, hw, hty⟩ | ⟨hne, hd, hty⟩ |
        ⟨c, hl, _, _, _, hty⟩
      · exfalso
        have hk := word_type_cases u.text
        rw [← hty] at hk
        rcases hk with hk | hk | hk | hk <;> rw [hk] at h <;> simp [is_op_kind] at h
      · exfalso
        rw [hty] at h
        simp [is_op_kind] at h
      · rw [stored_short u (by rw [hl]; simp)]
        exact ⟨_, rfl⟩
    · have he : (toks.getD i zero_token) = ⟨TOK_EOF, .text []⟩ := by
        rw [ht]; simpa using hm
      rw [he]
      exact ⟨_, rfl⟩
  · rw [hm]
    exact ⟨_, rfl⟩

/-- The parse of a declaration in terms of the kinds of the tokens that `lex`
stored: three tokens of any kind, an expression of the grammar whose lexemes
were stored with their terminator, and a token that is not an operator. -/
theorem parse_var_decl_kinds {src : List Char} {toks : List Token} (hlex : lex src = .ok toks)
    (k0 k1 k2 kstop : TokenType) (ks krest : List TokenType) (he : expr_kinds ks = true)
    (hstop : is_op_kind kstop = false)
    (hk : toks.map Token.type = k0 :: k1 :: k2 :: (ks ++ kstop :: krest))
    (hterm : ∀ k, k < ks.length → (toks.getD (3 + k) zero_token).lexeme.terminated = true) :
    ks.length + 3 < MAX_TOKENS ∧
    ∃ value, parse_expression toks 3 = .ok (value, ks.length + 3) ∧
      ∀ name, (toks.getD 1 zero_token).lexeme = .text name →
        parse_var_decl toks = .ok (AST_VAR_DECL name value, ks.length + 4) := by
  obtain ⟨i1, i2, i3⟩ := expr_kinds_index ks he
  have hlen : toks.length = ks.length + krest.length + 4 := by
    have := congrArg List.length hk
    simp only [List.length_map, List.length_cons, List.length_append] at this
    omega
  have hcap : 3 + ks.length < MAX_TOKENS := by
    obtain ⟨hf, ht⟩ := lex_ok_eq hlex
    have h1 := congrArg List.length ht
    simp only [List.length_append, List.length_map, List.length_singleton] at h1
    have h2 := hf.1
    omega
  have hty : ∀ k, (toks.getD (3 + k) zero_token).type =
      (ks ++ kstop :: krest).getD k TOK_LET := by
    intro k
    rw [type_getD, hk, show 3 + k = k + 1 + 1 + 1 by omega]
    simp only [List.getD_cons_succ]
  refine ⟨by omega, ?_⟩
  exact parse_var_decl_accepts toks ks.length hcap i1
    (fun k hk1 hk2 => by
      have h := hty k
      rw [(getD_append_stop ks kstop krest k).1 hk1, i2 k hk1 hk2] at h
      exact ⟨h, read_terminated (hterm k hk1)⟩)
    (fun k hk1 hk2 => by
      rw [hty k, (getD_append_stop ks kstop krest k).1 hk1]
      exact i3 k hk1 hk2)
    (by rw [hty, (getD_append_stop ks kstop krest _).2 rfl]; exact hstop)

/-- Without the `=`, entry 3 is an operator or the `;`, and `parse_primary` stops
there. -/
theorem parse_var_decl_shifted {src : List Char} {toks : List Token}
    (hlex : lex src = .ok toks) (k0 k1 : TokenType) (ks krest : List TokenType)
    (he : expr_kinds ks = true)
    (hk : toks.map Token.type = k0 :: k1 :: (ks ++ TOK_SEMICOLON :: krest)) :
    ∃ s, (toks.getD 3 zero_token).lexeme = .text s ∧ parse_var_decl toks = .exit 1 s := by
  obtain ⟨i1, i2, i3⟩ := expr_kinds_index ks he
  have hty : (toks.getD 3 zero_token).type = (ks ++ TOK_SEMICOLON :: krest).getD 1 TOK_LET := by
    rw [type_getD, hk]
    simp only [List.getD_cons_succ]
  have hkind : is_op_kind (toks.getD 3 zero_token).type = true ∨
      (toks.getD 3 zero_token).type = TOK_SEMICOLON := by
    rw [hty]
    by_cases h1 : ks.length = 1
    · exact Or.inr ((getD_append_stop ks TOK_SEMICOLON krest 1).2 h1.symm)
    · rw [(getD_append_stop ks TOK_SEMICOLON krest 1).1 (by omega)]
      exact Or.inl (i3 1 (by omega) rfl)
  obtain ⟨s, hs⟩ := lex_punctuator_text hlex 3 hkind
  refine ⟨s, hs, parse_var_decl_exit toks s ?_ hs⟩
  intro hn
  rcases hkind with h | h
  · rw [hn] at h
    cases h
  · rw [hn] at h
    cases h

/-! ## Claims about the parser -/

/-- C12 (as amended): for every source that `lex` holds within its arrays and
whose tokens are an expression `NUMBER (op NUMBER)*` after some leading tokens:
when three tokens of any kinds come before the expression, a token that is not
an operator comes after it (the `;`, or the end of input when the `;` is
deleted), and the token in the place of the name and the numbers of the
expression were stored with their terminator (fewer than 63 characters),
`parse_var_decl` accepts the tokens without an error and yields a `VarDecl` node
named by the lexeme of token 1, whatever its kind; but when the `=` is deleted,
so that only two tokens come before the expression and the `;` after it,
`parse_var_decl` ends in `exit(1)` with the lexeme of token 3: a missing `=` is
not tolerated. -/
theorem parse_var_decl_tolerance (src : List Char) (toks : List Token) (ks : List TokenType)
    (hlex : lex src = .ok toks) (he : expr_kinds ks = true) :
    (∀ k0 k1 k2 kstop krest name, is_op_kind kstop = false →
      toks.map Token.type = k0 :: k1 :: k2 :: (ks ++ kstop :: krest) →
      (∀ k, k < ks.length → (toks.getD (3 + k) zero_token).lexeme.terminated = true) →
      (toks.getD 1 zero_token).lexeme = .text name →
      ∃ value, parse_var_decl toks = .ok (AST_VAR_DECL name value, ks.length + 4)) ∧
    (∀ k0 k1 krest,
      toks.map Token.type = k0 :: k1 :: (ks ++ TOK_SEMICOLON :: krest) →
      ∃ s, (toks.getD 3 zero_token).lexeme = .text s ∧ parse_var_decl toks = .exit 1 s) :=
  ⟨fun k0 k1 k2 kstop krest name hstop hk hterm hname =>
      (parse_var_decl_kinds hlex k0 k1 k2 kstop ks krest he hstop hk hterm).2.imp
        (fun _ h => h.2 name hname),
    fun k0 k1 krest hk => parse_var_decl_shifted hlex k0 k1 ks krest he hk⟩

/-- C12, witness: `let 2147483648 = 5 * 3` (a number in the place of the name,
one that no `int` holds, and no `;`) is accepted with the name `2147483648`, and
`let x  5 * 3;` (no `=`) ends in `exit(1)` with the lexeme `*`. -/
theorem parse_var_decl_tolerance_witness :
    (∃ value,
      parse_var_decl [⟨TOK_LET, .text "let".toList⟩, ⟨TOK_NUMBER, .text "2147483648".toList⟩,
        ⟨TOK_EQUAL, .text "=".toList⟩, ⟨TOK_NUMBER, .text "5".toList⟩,
        ⟨TOK_STAR, .text "*".toList⟩, ⟨TOK_NUMBER, .text "3".toList⟩,
        ⟨TOK_EOF, .text []⟩] = .ok (AST_VAR_DECL "2147483648".toList value, 3 + 4)) ∧
    (∃ s,
      ([⟨TOK_LET, .text "let".toList⟩, ⟨TOK_IDENTIFIER, .text "x".toList⟩,
        ⟨TOK_NUMBER, .text "5".toList⟩, ⟨TOK_STAR, .text "*".toList⟩,
        ⟨TOK_NUMBER, .text "3".toList⟩, ⟨TOK_SEMICOLON, .text ";".toList⟩,
        (⟨TOK_EOF, .text []⟩ : Token)].getD 3 zero_token).lexeme = .text s ∧
      parse_var_decl [⟨TOK_LET, .text "let".toList⟩, ⟨TOK_IDENTIFIER, .text "x".toList⟩,
        ⟨TOK_NUMBER, .text "5".toList⟩, ⟨TOK_STAR, .text "*".toList⟩,
        ⟨TOK_NUMBER, .text "3".toList⟩, ⟨TOK_SEMICOLON, .text ";".toList⟩,
        ⟨TOK_EOF, .text []⟩] = .exit 1 s) :=
  ⟨(parse_var_decl_tolerance "let 2147483648 = 5 * 3".toList _
      [TOK_NUMBER, TOK_STAR, TOK_NUMBER] (by decide) (by decide)).1
      TOK_LET TOK_NUMBER TOK_EQUAL TOK_EOF [] "2147483648".toList (by decide) (by decide)
      (by decide) (by decide),
    (parse_var_decl_tolerance "let x  5 * 3;".toList _ [TOK_NUMBER, TOK_STAR, TOK_NUMBER]
      (by decide) (by decide)).2 TOK_LET TOK_IDENTIFIER [TOK_EOF] (by decide)⟩

set_option maxRecDepth 100000 in
/-- C12, counterexample: `let x  5 * 3;` is the source of the driver,
`let x = 5 * 3;`, with its `=` deleted; `parse_var_decl` does not accept it, it
ends in `exit(1)` after `Unexpected token: *`. And three well-formed sources
with their `;` deleted that `parse_var_decl` does not accept either:
`let NAME = 1` with a name of 63 letters, which is stored without a terminator,
so that `strcpy` reads past it when it copies the name into the node;
`let x = N` with a number of 63 digits, which is stored without a terminator, so
that `atoi` reads past it; and `let NAME = 1` with a name of 64 letters, which
`lex` writes past `char lex[64]`, so that there is no token sequence. -/
theorem parse_var_decl_not_tolerant :
    (lex "let x  5 * 3;".toList).bind parse_var_decl = .exit 1 "*".toList ∧
    (¬ ∃ r, (lex "let x  5 * 3;".toList).bind parse_var_decl = .ok r) ∧
    (lex ("let ".toList ++ List.replicate 63 'n' ++ " = 1".toList)).bind parse_var_decl =
      .undefined ∧
    (¬ ∃ r, (lex ("let ".toList ++ List.replicate 63 'n' ++ " = 1".toList)).bind
      parse_var_decl = .ok r) ∧
    (lex ("let x = ".toList ++ List.replicate 63 '1')).bind parse_var_decl = .undefined ∧
    (¬ ∃ r, (lex ("let x = ".toList ++ List.replicate 63 '1')).bind parse_var_decl =
      .ok r) ∧
    lex ("let ".toList ++ List.replicate 64 'n' ++ " = 1".toList) = .undefined := by
  have h : (lex "let x  5 * 3;".toList).bind parse_var_decl = .exit 1 "*".toList := by
    decide
  have h2 : (lex ("let ".toList ++ List.replicate 63 'n' ++ " = 1".toList)).bind
      parse_var_decl = .undefined := by decide
  have h3 : (lex ("let x = ".toList ++ List.replicate 63 '1')).bind parse_var_decl =
      .undefined := by decide
  exact ⟨h, (fun ⟨r, hr⟩ => by rw [h] at hr; cases hr), h2,
    (fun ⟨r, hr⟩ => by rw [h2] at hr; cases hr), h3,
    (fun ⟨r, hr⟩ => by rw [h3] at hr; cases hr), by decide⟩

/-- C13 (as amended): whenever `parse_primary`, `parse_term` or
`parse_expression` returns from index `i`, it returns with an index `j > i`
inside the array, the in-order traversal of the node lists exactly the tokens
`i`, ..., `j - 1`, `j = i + 1` for `parse_primary`, token `j` is neither `*` nor
`/` after `parse_term` and none of `+ - * /` after `parse_expression`; and for
every well-formed source `let NAME = EXPR ;` that `lex` holds within its arrays
and whose numbers were stored with their terminator (fewer than 63 digits),
`parse_expression` returns at the `;`, and the `advance` over the `;` leaves
`current` at the index of the end-of-input token, the last token; with that
index `parse_var_decl` returns when the name was stored with its terminator
(fewer than 63 characters). -/
theorem parse_index_contract (src : List Char) (toks : List Token) (ks : List TokenType)
    (hlex : lex src = .ok toks) (he : expr_kinds ks = true)
    (hk : toks.map Token.type =
      TOK_LET :: TOK_IDENTIFIER :: TOK_EQUAL :: (ks ++ [TOK_SEMICOLON, TOK_EOF]))
    (hterm : ∀ k, k < ks.length →
      (toks.getD (3 + k) zero_token).lexeme.terminated = true) :
    (∀ (tokens : List Token) (i : Nat) (r : ASTNode × Nat), parse_primary tokens i = .ok r →
      r.2 = i + 1 ∧ r.2 ≤ MAX_TOKENS ∧
      inorder r.1 = (token_range tokens i r.2).map token_item) ∧
    (∀ (tokens : List Token) (i : Nat) (r : ASTNode × Nat), parse_term tokens i = .ok r →
      i < r.2 ∧ r.2 < MAX_TOKENS ∧
      inorder r.1 = (token_range tokens i r.2).map token_item ∧
      (tokens.getD r.2 zero_token).type ≠ TOK_STAR ∧
      (tokens.getD r.2 zero_token).type ≠ TOK_SLASH) ∧
    (∀ (tokens : List Token) (i : Nat) (r : ASTNode × Nat),
      parse_expression tokens i = .ok r →
      i < r.2 ∧ r.2 < MAX_TOKENS ∧
      inorder r.1 = (token_range tokens i r.2).map token_item ∧
      is_op_kind (tokens.getD r.2 zero_token).type = false) ∧
    (∃ value j, parse_expression toks 3 = .ok (value, j) ∧
      (toks.getD j zero_token).type = TOK_SEMICOLON ∧
      advance toks j = .ok (toks.getD j zero_token, j + 1) ∧
      j + 2 = toks.length ∧ (toks.getD (j + 1) zero_token).type = TOK_EOF ∧
      ∀ name, (toks.getD 1 zero_token).lexeme = .text name →
        parse_var_decl toks = .ok (AST_VAR_DECL name value, j + 1)) := by
  refine ⟨?_, ?_, ?_, ?_⟩
  · intro tokens i r h
    obtain ⟨h1, h2, h3, _⟩ := parse_primary_inorder h
    have h4 := (parse_primary_ok h).1
    exact ⟨h2, by omega, h3⟩
  · intro tokens i r h
    obtain ⟨h1, h2, h3, h4, h5⟩ := parse_term_ok h
    exact ⟨h1, h2, h5, h3, h4⟩
  · intro tokens i r h
    obtain ⟨h1, h2, h3, h4, h5, h6, h7⟩ := parse_expression_ok h
    refine ⟨h1, h2, h7, ?_⟩
    simp only [is_op_kind, Bool.or_eq_false_iff, decide_eq_false_iff_not]
    exact ⟨⟨⟨h3, h4⟩, h5⟩, h6⟩
  · obtain ⟨hcap, value, hv, hret⟩ := parse_var_decl_kinds hlex TOK_LET
      TOK_IDENTIFIER TOK_EQUAL TOK_SEMICOLON ks [TOK_EOF] he (by decide) hk hterm
    have hlen : toks.length = ks.length + 5 := by
      have := congrArg List.length hk
      simp only [List.length_map, List.length_cons, List.length_append, List.length_nil] at this
      omega
    have hty : ∀ k, (toks.getD (k + 3) zero_token).type =
        (ks ++ TOK_SEMICOLON :: [TOK_EOF]).getD k TOK_LET := by
      intro k
      rw [type_getD, hk]
      simp only [List.getD_cons_succ]
    refine ⟨value, ks.length + 3, hv, ?_, ?_, by omega, ?_, hret⟩
    · rw [hty]
      exact (getD_append_stop ks TOK_SEMICOLON [TOK_EOF] _).2 rfl
    · unfold advance
      rw [token_at_of_lt _ _ hcap]
      rfl
    · rw [show ks.length + 3 + 1 = (ks.length + 1) + 3 by omega, hty]
      have h := (getD_append_stop (ks ++ [TOK_SEMICOLON]) TOK_EOF [] (ks.length + 1)).2
        (by simp)
      simpa using h

/-- C13, witness: `let x = 2147483648 * 3;`, whose first number no `int` holds;
its tokens are `let x = 2147483648 * 3 ;` and the end of input at index 7. -/
theorem parse_index_contract_witness :
    ∃ value j,
      parse_expression [⟨TOK_LET, .text "let".toList⟩, ⟨TOK_IDENTIFIER, .text "x".toList⟩,
        ⟨TOK_EQUAL, .text "=".toList⟩, ⟨TOK_NUMBER, .text "2147483648".toList⟩,
        ⟨TOK_STAR, .text "*".toList⟩, ⟨TOK_NUMBER, .text "3".toList⟩,
        ⟨TOK_SEMICOLON, .text ";".toList⟩, ⟨TOK_EOF, .text []⟩] 3 = .ok (value, j) ∧
      j + 2 = 8 ∧
      parse_var_decl [⟨TOK_LET, .text "let".toList⟩, ⟨TOK_IDENTIFIER, .text "x".toList⟩,
        ⟨TOK_EQUAL, .text "=".toList⟩, ⟨TOK_NUMBER, .text "2147483648".toList⟩,
        ⟨TOK_STAR, .text "*".toList⟩, ⟨TOK_NUMBER, .text "3".toList⟩,
        ⟨TOK_SEMICOLON, .text ";".toList⟩, ⟨TOK_EOF, .text []⟩] =
          .ok (AST_VAR_DECL "x".toList value, j + 1) :=
  (parse_index_contract "let x = 2147483648 * 3;".toList
    [⟨TOK_LET, .text "let".toList⟩, ⟨TOK_IDENTIFIER, .text "x".toList⟩,
      ⟨TOK_EQUAL, .text "=".toList⟩, ⟨TOK_NUMBER, .text "2147483648".toList⟩,
      ⟨TOK_STAR, .text "*".toList⟩, ⟨TOK_NUMBER, .text "3".toList⟩,
      ⟨TOK_SEMICOLON, .text ";".toList⟩, ⟨TOK_EOF, .text []⟩]
    [TOK_NUMBER, TOK_STAR, TOK_NUMBER]
    (by decide) (by decide) (by decide) (by decide)).2.2.2.imp
    (fun _ h => h.imp (fun _ h => ⟨h.1, h.2.2.2.1, h.2.2.2.2.2 "x".toList rfl⟩))

set_option maxRecDepth 100000 in
/-- C13, counterexample: three well-formed sources for which `parse_var_decl`
does not come to the index of the end-of-input token. `let NAME = 1;` with a
name of 64 letters: `lex` writes past `char lex[64]`. `let x = 1+1+...+1;` with
126 additions has 257 tokens before the end of input: `lex` writes past
`tokens[255]`. In both cases there is no token sequence to parse. And
`let x = N;` with a number of 63 digits: it is stored without a terminator, and
`atoi`, called by `parse_number` before `current` has reached the `;`, reads
past its 63 bytes. -/
theorem parse_var_decl_out_of_capacity :
    lex ("let ".toList ++ List.replicate 64 'n' ++ " = 1;".toList) = .undefined ∧
    lex ("let x = 1".toList ++ (List.replicate 126 "+1".toList).flatten ++ ";".toList) =
      .undefined ∧
    (∃ toks, lex ("let x = ".toList ++ List.replicate 63 '1' ++ ";".toList) = .ok toks ∧
      parse_expression toks 3 = .undefined ∧ parse_var_decl toks = .undefined) := by
  refine ⟨by decide, by decide, ?_⟩
  exact ⟨[⟨TOK_LET, .text "let".toList⟩, ⟨TOK_IDENTIFIER, .text "x".toList⟩,
    ⟨TOK_EQUAL, .text "=".toList⟩, ⟨TOK_NUMBER, .unterminated (List.replicate 63 '1')⟩,
    ⟨TOK_SEMICOLON, .text ";".toList⟩, ⟨TOK_EOF, .text []⟩], by decide, by decide, by decide⟩

/-! ## The tokens that an expression consumes -/

/-- Every token that the loop consumes satisfies `P`, when the tokens that `sub`
consumes and the operator tokens do. -/
theorem binary_loop_all (sub : List Token → Nat → Outcome (ASTNode × Nat)) (a b : TokenType)
    (P : Token → Prop) (tokens : List Token)
    (hsub : ∀ i r, sub tokens i = .ok r → i ≤ r.2 ∧ ∀ t ∈ token_range tokens i r.2, P t)
    (hop : ∀ c, (tokens.getD c zero_token).type = a ∨ (tokens.getD c zero_token).type = b →
      P (tokens.getD c zero_token))
    (f : Nat) (left : ASTNode) (current : Nat) (r : ASTNode × Nat)
    (h : binary_loop sub a b f tokens left current = .ok r) :
    current ≤ r.2 ∧ ∀ t ∈ token_range tokens current r.2, P t := by
  induction f generalizing left current with
  | zero => cases h
  | succ f ih =>
    rw [binary_loop_succ] at h
    by_cases hc : current < MAX_TOKENS
    · rw [if_pos hc] at h
      by_cases hab : (tokens.getD current zero_token).type = a ∨
          (tokens.getD current zero_token).type = b
      · rw [if_pos hab] at h
        cases hs : sub tokens (current + 1) with
        | ok r1 =>
          rw [hs] at h
          simp only [Outcome.bind] at h
          obtain ⟨h1, h2⟩ := hsub _ _ hs
          obtain ⟨i1, i2⟩ := ih _ _ h
          refine ⟨by omega, ?_⟩
          intro t ht
          rw [← token_range_append tokens current r1.2 r.2 (by omega) i1,
            token_range_cons tokens current r1.2 (by omega)] at ht
          rcases List.mem_append.1 ht with ht | ht
          · rcases List.mem_cons.1 ht with ht | ht
            · rw [ht]; exact hop _ hab
            · exact h2 t ht
          · exact i2 t ht
        | exit x l => rw [hs] at h; cases h
        | undefined => rw [hs] at h; cases h
      · rw [if_neg hab] at h
        cases h
        refine ⟨Nat.le_refl _, ?_⟩
        intro t ht
        rw [token_range_self] at ht
        cases ht
    · rw [if_neg hc] at h
      cases h

theorem consumable_iff (t : Token) :
    consumable t = true ↔
      (t.type = TOK_NUMBER ∧ ∃ s, t.lexeme = .text s) ∨ is_op_kind t.type = true := by
  unfold consumable
  simp only [Bool.or_eq_true, Bool.and_eq_true, decide_eq_true_eq]
  constructor
  · rintro (⟨ht, h⟩ | h)
    · exact Or.inl ⟨ht, read_terminated h⟩
    · exact Or.inr h
  · rintro (⟨ht, s, hs⟩ | h)
    · left
      refine ⟨ht, ?_⟩
      rw [hs]
      rfl
    · exact Or.inr h

theorem parse_primary_all {tokens : List Token} {i : Nat} {r : ASTNode × Nat}
    (h : parse_primary tokens i = .ok r) :
    i ≤ r.2 ∧ ∀ t ∈ token_range tokens i r.2, consumable t = true := by
  obtain ⟨_, ht, s, hs, ha, hr⟩ := parse_primary_ok h
  subst hr
  refine ⟨by simp, ?_⟩
  intro t hm
  rw [token_range_cons _ _ _ (by simp), token_range_self] at hm
  simp only [List.mem_singleton] at hm
  subst hm
  exact (consumable_iff _).2 (Or.inl ⟨ht, s, hs⟩)

theorem parse_term_all {tokens : List Token} {i : Nat} {r : ASTNode × Nat}
    (h : parse_term tokens i = .ok r) :
    i ≤ r.2 ∧ ∀ t ∈ token_range tokens i r.2, consumable t = true := by
  unfold parse_term at h
  cases hp : parse_primary tokens i with
  | ok p =>
    rw [hp] at h
    simp only [Outcome.bind] at h
    rw [parse_term_loop_eq] at h
    obtain ⟨p1, p2⟩ := parse_primary_all hp
    obtain ⟨i1, i2⟩ := binary_loop_all parse_primary TOK_STAR TOK_SLASH
      (fun t => consumable t = true) tokens
      (fun i r hr => parse_primary_all hr)
      (fun c hc => (consumable_iff _).2
        (Or.inr (by rcases hc with hc | hc <;> rw [hc] <;> rfl))) _ _ _ _ h
    refine ⟨by omega, ?_⟩
    intro t ht
    rw [← token_range_append tokens i p.2 r.2 p1 i1] at ht
    rcases List.mem_append.1 ht with ht | ht
    · exact p2 t ht
    · exact i2 t ht
  | exit x l => rw [hp] at h; cases h
  | undefined => rw [hp] at h; cases h

theorem parse_expression_all {tokens : List Token} {i : Nat} {r : ASTNode × Nat}
    (h : parse_expression tokens i = .ok r) :
    i ≤ r.2 ∧ ∀ t ∈ token_range tokens i r.2, consumable t = true := by
  unfold parse_expression at h
  cases hp : parse_term tokens i with
  | ok p =>
    rw [hp] at h
    simp only [Outcome.bind] at h
    rw [parse_expression_loop_eq] at h
    obtain ⟨p1, p2⟩ := parse_term_all hp
    obtain ⟨i1, i2⟩ := binary_loop_all parse_term TOK_PLUS TOK_MINUS
      (fun t => consumable t = true) tokens
      (fun i r hr => parse_term_all hr)
      (fun c hc => (consumable_iff _).2
        (Or.inr (by rcases hc with hc | hc <;> rw [hc] <;> rfl))) _ _ _ _ h
    refine ⟨by omega, ?_⟩
    intro t ht
    rw [← token_range_append tokens i p.2 r.2 p1 i1] at ht
    rcases List.mem_append.1 ht with ht | ht
    · exact p2 t ht
    · exact i2 t ht
  | exit x l => rw [hp] at h; cases h
  | undefined => rw [hp] at h; cases h

theorem mem_token_range {tokens : List Token} {i j : Nat} {t : Token}
    (h : t ∈ token_range tokens i j) : ∃ k, t = tokens.getD k zero_token := by
  unfold token_range at h
  obtain ⟨k, _, hk⟩ := List.mem_map.1 h
  exact ⟨k, hk.symm⟩

theorem op_kind_lexeme {t : Token} (hok : op_lexeme_ok t) (h : is_op_kind t.type = true) :
    t.lexeme = .text [t.lexeme.first] ∧
      (is_mul_op t.lexeme.first = true ∨ is_add_op t.lexeme.first = true) := by
  simp only [is_op_kind, Bool.or_eq_true, decide_eq_true_eq] at h
  rcases h with ((h | h) | h) | h
  · rw [hok.1 h]; exact ⟨rfl, Or.inr rfl⟩
  · rw [hok.2.1 h]; exact ⟨rfl, Or.inr rfl⟩
  · rw [hok.2.2.1 h]; exact ⟨rfl, Or.inl rfl⟩
  · rw [hok.2.2.2 h]; exact ⟨rfl, Or.inl rfl⟩

/-- C17: for the tokens that `lex` stores, whenever `parse_expression` returns
from index `i` with index `j` and every `TOK_NUMBER` token among the tokens `i`,
..., `j - 1` has a value that fits a 32-bit signed `int` (at most `INT_MAX`),
the in-order traversal of the returned tree (the value of each number leaf, the
`op` of each binary node, left subtree first) is the sequence of the tokens `i`,
..., `j - 1` with each `TOK_NUMBER` token replaced by the decimal value of its
lexeme and each operator token by its character; each of these tokens is a
`TOK_NUMBER` token whose lexeme is a terminated run of digits, leading zeros
allowed, or one of the four operator tokens with its character as lexeme. -/
theorem parse_expression_inorder (src : List Char) (toks : List Token) (i : Nat)
    (r : ASTNode × Nat) (hlex : lex src = .ok toks)
    (h : parse_expression toks i = .ok r)
    (hfit : ∀ t ∈ token_range toks i r.2, t.type = TOK_NUMBER →
      (digits_value t.lexeme.bytes : Int) ≤ INT_MAX) :
    i < r.2 ∧ inorder r.1 = (token_range toks i r.2).map decimal_item ∧
      ∀ t ∈ token_range toks i r.2,
        (t.type = TOK_NUMBER ∧ is_numeral t.lexeme.bytes = true ∧
          t.lexeme.terminated = true) ∨
        (is_op_kind t.type = true ∧ t.lexeme = .text [t.lexeme.first] ∧
          (is_mul_op t.lexeme.first = true ∨ is_add_op t.lexeme.first = true)) := by
  obtain ⟨h1, _, _, _, _, _, h7⟩ := parse_expression_ok h
  refine ⟨h1, ?_, ?_⟩
  · rw [h7]
    apply List.map_congr_left
    intro t ht
    obtain ⟨k, hk⟩ := mem_token_range ht
    have hl := lex_lexeme_ok hlex k
    rw [← hk] at hl
    exact token_item_eq_decimal t hl.2 (hfit t ht)
  · intro t ht
    obtain ⟨k, hk⟩ := mem_token_range ht
    have hl := lex_lexeme_ok hlex k
    rw [← hk] at hl
    rcases (consumable_iff t).1 ((parse_expression_all h).2 t ht) with ⟨hn, s, hs⟩ | hop
    · left
      refine ⟨hn, hl.2 hn, ?_⟩
      rw [hs]
      rfl
    · right
      exact ⟨hop, op_kind_lexeme hl.1 hop⟩

/-- C17, witness: `12 - 007 * 3` inside `let x = 12 - 007 * 3;`, the tokens 3 to
7; the leading zeros of `007` do not change its value. -/
theorem parse_expression_inorder_witness :
    ∃ r, parse_expression [⟨TOK_LET, .text "let".toList⟩,
        ⟨TOK_IDENTIFIER, .text "x".toList⟩, ⟨TOK_EQUAL, .text "=".toList⟩,
        ⟨TOK_NUMBER, .text "12".toList⟩, ⟨TOK_MINUS, .text "-".toList⟩,
        ⟨TOK_NUMBER, .text "007".toList⟩, ⟨TOK_STAR, .text "*".toList⟩,
        ⟨TOK_NUMBER, .text "3".toList⟩, ⟨TOK_SEMICOLON, .text ";".toList⟩,
        ⟨TOK_EOF, .text []⟩] 3 = .ok r ∧ r.2 = 8 ∧
      inorder r.1 = [.num 12, .op '-', .num 7, .op '*', .num 3] :=
  ⟨(AST_BINARY (AST_NUMBER 12) (AST_BINARY (AST_NUMBER 7) (AST_NUMBER 3) '*') '-', 8),
    by decide, rfl,
    (parse_expression_inorder "let x = 12 - 007 * 3;".toList
      [⟨TOK_LET, .text "let".toList⟩,
        ⟨TOK_IDENTIFIER, .text "x".toList⟩, ⟨TOK_EQUAL, .text "=".toList⟩,
        ⟨TOK_NUMBER, .text "12".toList⟩, ⟨TOK_MINUS, .text "-".toList⟩,
        ⟨TOK_NUMBER, .text "007".toList⟩, ⟨TOK_STAR, .text "*".toList⟩,
        ⟨TOK_NUMBER, .text "3".toList⟩, ⟨TOK_SEMICOLON, .text ";".toList⟩,
        ⟨TOK_EOF, .text []⟩] 3
      (AST_BINARY (AST_NUMBER 12) (AST_BINARY (AST_NUMBER 7) (AST_NUMBER 3) '*') '-', 8)
      (by decide) (by decide) (by decide)).2.1.trans (by decide)⟩

/-- C18: for the tokens that `lex` stores, whenever `parse_var_decl` returns,
the result is a `VarDecl` node whose value subtree contains only number leaves
and binary nodes with an `op` among `+ - * /`, in which the right child of every
`*` or `/` node is a number leaf, no `*` or `/` node has a `+` or `-` node
beneath it, and the right child of every `+` or `-` node contains no `+` or `-`
node. -/
theorem parse_var_decl_shape (src : List Char) (toks : List Token) (r : ASTNode × Nat)
    (hlex : lex src = .ok toks) (h : parse_var_decl toks = .ok r) :
    ∃ name value, r.1 = AST_VAR_DECL name value ∧ is_arith value = true ∧
      mul_right_leaf value = true ∧ no_add_under_mul value = true ∧
      add_right_plain value = true := by
  obtain ⟨name, value, hv, _, _, hr⟩ := parse_var_decl_ok h
  subst hr
  exact ⟨name, value.1, rfl,
    expr_tree_shape _ (parse_expression_shape (fun k => (lex_lexeme_ok hlex k).1) hv)⟩

/-- C18, witness: `let x = 1 + 2 * 3 - 4 / 5;`. -/
theorem parse_var_decl_shape_witness :
    ∃ name value,
      AST_VAR_DECL "x".toList (AST_BINARY
        (AST_BINARY (AST_NUMBER 1) (AST_BINARY (AST_NUMBER 2) (AST_NUMBER 3) '*') '+')
        (AST_BINARY (AST_NUMBER 4) (AST_NUMBER 5) '/') '-') = AST_VAR_DECL name value ∧
      is_arith value = true ∧ mul_right_leaf value = true ∧ no_add_under_mul value = true ∧
      add_right_plain value = true :=
  parse_var_decl_shape "let x = 1 + 2 * 3 - 4 / 5;".toList
    [⟨TOK_LET, .text "let".toList⟩, ⟨TOK_IDENTIFIER, .text "x".toList⟩,
      ⟨TOK_EQUAL, .text "=".toList⟩, ⟨TOK_NUMBER, .text "1".toList⟩,
      ⟨TOK_PLUS, .text "+".toList⟩, ⟨TOK_NUMBER, .text "2".toList⟩,
      ⟨TOK_STAR, .text "*".toList⟩, ⟨TOK_NUMBER, .text "3".toList⟩,
      ⟨TOK_MINUS, .text "-".toList⟩, ⟨TOK_NUMBER, .text "4".toList⟩,
      ⟨TOK_SLASH, .text "/".toList⟩, ⟨TOK_NUMBER, .text "5".toList⟩,
      ⟨TOK_SEMICOLON, .text ";".toList⟩, ⟨TOK_EOF, .text []⟩]
    (AST_VAR_DECL "x".toList (AST_BINARY
      (AST_BINARY (AST_NUMBER 1) (AST_BINARY (AST_NUMBER 2) (AST_NUMBER 3) '*') '+')
      (AST_BINARY (AST_NUMBER 4) (AST_NUMBER 5) '/') '-'), 13)
    (by decide) (by decide)

/-! ## Facts about the recorded reads -/

theorem Traced.bind_ok {α β : Type} {x : Traced α} {a : α} (f : α → Traced β)
    (h : x.outcome = .ok a) :
    x.bind f = ⟨x.reads ++ (f a).reads, (f a).outcome⟩ := by
  unfold Traced.bind
  rw [h]

theorem Traced.bind_exit {α β : Type} {x : Traced α} {s : Int} {l : List Char}
    (f : α → Traced β) (h : x.outcome = .exit s l) : x.bind f = ⟨x.reads, .exit s l⟩ := by
  unfold Traced.bind
  rw [h]

theorem Traced.bind_undefined {α β : Type} {x : Traced α} (f : α → Traced β)
    (h : x.outcome = .undefined) : x.bind f = ⟨x.reads, .undefined⟩ := by
  unfold Traced.bind
  rw [h]

/-- Forgetting the reads of a sequence gives the sequence of the outcomes. -/
theorem Traced.outcome_bind {α β : Type} (x : Traced α) (f : α → Traced β) :
    (x.bind f).outcome = x.outcome.bind fun a => (f a).outcome := by
  cases h : x.outcome with
  | ok a => rw [Traced.bind_ok f h]; rfl
  | exit s l => rw [Traced.bind_exit f h]; rfl
  | undefined => rw [Traced.bind_undefined f h]; rfl

theorem Traced.mem_reads_bind {α β : Type} {x : Traced α} {f : α → Traced β} {k : Nat}
    (h : k ∈ (x.bind f).reads) :
    k ∈ x.reads ∨ ∃ a, x.outcome = .ok a ∧ k ∈ (f a).reads := by
  cases hx : x.outcome with
  | ok a =>
    rw [Traced.bind_ok f hx] at h
    rcases List.mem_append.1 h with h | h
    · exact Or.inl h
    · exact Or.inr ⟨a, rfl, h⟩
  | exit s l => rw [Traced.bind_exit f hx] at h; exact Or.inl h
  | undefined => rw [Traced.bind_undefined f hx] at h; exact Or.inl h

theorem Traced.mem_reads_left {α β : Type} {x : Traced α} (f : α → Traced β) {k : Nat}
    (h : k ∈ x.reads) : k ∈ (x.bind f).reads := by
  cases hx : x.outcome with
  | ok a => rw [Traced.bind_ok f hx]; exact List.mem_append_left _ h
  | exit s l => rw [Traced.bind_exit f hx]; exact h
  | undefined => rw [Traced.bind_undefined f hx]; exact h

theorem Traced.mem_reads_right {α β : Type} {x : Traced α} (f : α → Traced β) {a : α}
    {k : Nat} (hx : x.outcome = .ok a) (h : k ∈ (f a).reads) : k ∈ (x.bind f).reads := by
  rw [Traced.bind_ok f hx]
  exact List.mem_append_right _ h

/-- Two sequences are equal when their first pieces are and their second pieces
are for every value that the first piece returns; `P` holds for the reads of the
first sequence. -/
theorem Traced.bind_local {α β : Type} {x y : Traced α} {f g : α → Traced β}
    (P : Nat → Prop) (h : ∀ k ∈ (x.bind f).reads, P k)
    (hx : (∀ k ∈ x.reads, P k) → x = y)
    (hf : ∀ a, x.outcome = .ok a → (∀ k ∈ (f a).reads, P k) → f a = g a) :
    x.bind f = y.bind g := by
  have hxy := hx (fun k hk => h k (Traced.mem_reads_left f hk))
  subst hxy
  cases ho : x.outcome with
  | ok a =>
    rw [Traced.bind_ok f ho, Traced.bind_ok g ho,
      hf a ho (fun k hk => h k (Traced.mem_reads_right f ho hk))]
  | exit s l => rw [Traced.bind_exit f ho, Traced.bind_exit g ho]
  | undefined => rw [Traced.bind_undefined f ho, Traced.bind_undefined g ho]

/-! ### The recorded parser is the parser -/

theorem advance_traced_outcome (tokens : List Token) (current : Nat) :
    (advance_traced tokens current).outcome = advance tokens current := by
  unfold advance_traced advance
  rw [Traced.outcome_bind]
  rfl

theorem match_traced_outcome (tokens : List Token) (current : Nat) (type : TokenType) :
    (match_traced tokens current type).outcome = match_ tokens current type := by
  unfold match_traced match_
  rw [Traced.outcome_bind]
  unfold peek_traced peek token_at_traced
  congr 1
  funext t
  split_ifs
  · rw [Traced.outcome_bind, advance_traced_outcome]; rfl
  · rfl

theorem parse_number_traced_outcome (tokens : List Token) (current : Nat) :
    (parse_number_traced tokens current).outcome = parse_number tokens current := by
  unfold parse_number_traced parse_number
  split_ifs
  · rfl
  · rw [Traced.outcome_bind]; rfl

theorem parse_primary_traced_outcome (tokens : List Token) (current : Nat) :
    (parse_primary_traced tokens current).outcome = parse_primary tokens current := by
  unfold parse_primary_traced parse_primary
  rw [Traced.outcome_bind, match_traced_outcome]
  congr 1
  funext m
  split_ifs
  · rw [Traced.outcome_bind, parse_number_traced_outcome]; rfl
  · rw [Traced.outcome_bind]; rfl

theorem match_either_traced_outcome (tokens : List Token) (current : Nat) (a b : TokenType) :
    (match_either_traced tokens current a b).outcome = match_either tokens current a b := by
  unfold match_either_traced match_either
  rw [Traced.outcome_bind, match_traced_outcome]
  congr 1
  funext m
  split_ifs
  · rfl
  · rw [match_traced_outcome]

theorem op_char_traced_outcome (tokens : List Token) (current : Nat) :
    (op_char_traced tokens current).outcome = op_char tokens current := by
  unfold op_char_traced op_char
  split_ifs
  · rfl
  · rw [Traced.outcome_bind]; rfl

theorem parse_term_loop_traced_eq (f : Nat) (tokens : List Token) (left : ASTNode)
    (current : Nat) :
    parse_term_loop_traced f tokens left current =
      binary_loop_traced parse_primary_traced TOK_STAR TOK_SLASH f tokens left current := by
  induction f generalizing left current with
  | zero => rfl
  | succ f ih => simp only [parse_term_loop_traced, binary_loop_traced, ih]

theorem parse_expression_loop_traced_eq (f : Nat) (tokens : List Token) (left : ASTNode)
    (current : Nat) :
    parse_expression_loop_traced f tokens left current =
      binary_loop_traced parse_term_traced TOK_PLUS TOK_MINUS f tokens left current := by
  induction f generalizing left current with
  | zero => rfl
  | succ f ih => simp only [parse_expression_loop_traced, binary_loop_traced, ih]

theorem binary_loop_traced_outcome (sub : List Token → Nat → Traced (ASTNode × Nat))
    (sub0 : List Token → Nat → Outcome (ASTNode × Nat)) (a b : TokenType)
    (hsub : ∀ tokens i, (sub tokens i).outcome = sub0 tokens i)
    (f : Nat) (tokens : List Token) (left : ASTNode) (current : Nat) :
    (binary_loop_traced sub a b f tokens left current).outcome =
      binary_loop sub0 a b f tokens left current := by
  induction f generalizing left current with
  | zero => rfl
  | succ f ih =>
    unfold binary_loop_traced binary_loop
    rw [Traced.outcome_bind, match_either_traced_outcome]
    congr 1
    funext m
    split_ifs
    · rw [Traced.outcome_bind, op_char_traced_outcome]
      congr 1
      funext op
      rw [Traced.outcome_bind, hsub]
      congr 1
      funext r
      exact ih _ _
    · rfl

theorem parse_term_traced_outcome (tokens : List Token) (current : Nat) :
    (parse_term_traced tokens current).outcome = parse_term tokens current := by
  unfold parse_term_traced parse_term
  rw [Traced.outcome_bind, parse_primary_traced_outcome]
  congr 1
  funext l
  rw [parse_term_loop_traced_eq, parse_term_loop_eq]
  exact binary_loop_traced_outcome _ _ _ _ parse_primary_traced_outcome _ _ _ _

theorem parse_expression_traced_outcome (tokens : List Token) (current : Nat) :
    (parse_expression_traced tokens current).outcome = parse_expression tokens current := by
  unfold parse_expression_traced parse_expression
  rw [Traced.outcome_bind, parse_term_traced_outcome]
  congr 1
  funext l
  rw [parse_expression_loop_traced_eq, parse_expression_loop_eq]
  exact binary_loop_traced_outcome _ _ _ _ parse_term_traced_outcome _ _ _ _

/-- Forgetting the reads of `parse_var_decl_traced` gives `parse_var_decl`. -/
theorem parse_var_decl_traced_outcome (tokens : List Token) :
    (parse_var_decl_traced tokens).outcome = parse_var_decl tokens := by
  unfold parse_var_decl_traced parse_var_decl
  rw [Traced.outcome_bind, advance_traced_outcome]
  congr 1
  funext a1
  rw [Traced.outcome_bind, advance_traced_outcome]
  congr 1
  funext id
  rw [Traced.outcome_bind, advance_traced_outcome]
  congr 1
  funext a3
  rw [Traced.outcome_bind, parse_expression_traced_outcome]
  congr 1
  funext value
  rw [Traced.outcome_bind, advance_traced_outcome]
  rfl

/-! ### The reads of the pieces that look at one token -/

theorem advance_traced_eq (tokens : List Token) (current : Nat) :
    advance_traced tokens current = ⟨[current], advance tokens current⟩ := by
  unfold advance_traced advance token_at_traced
  cases h : token_at tokens current <;> simp [Traced.bind, Traced.silent, Outcome.bind, h]

theorem match_traced_reads (tokens : List Token) (current : Nat) (type : TokenType) :
    current ∈ (match_traced tokens current type).reads ∧
      ∀ k ∈ (match_traced tokens current type).reads, k = current := by
  unfold match_traced peek_traced token_at_traced
  cases h : token_at tokens current with
  | ok t =>
    by_cases ht : t.type = type
    · simp [Traced.bind, Traced.silent, h, ht, advance_traced_eq, advance, Outcome.bind]
    · simp [Traced.bind, Traced.silent, h, ht]
  | exit s l => simp [Traced.bind, h]
  | undefined => simp [Traced.bind, h]

theorem match_either_traced_reads (tokens : List Token) (current : Nat) (a b : TokenType) :
    current ∈ (match_either_traced tokens current a b).reads ∧
      ∀ k ∈ (match_either_traced tokens current a b).reads, k = current := by
  unfold match_either_traced
  refine ⟨Traced.mem_reads_left _ (match_traced_reads tokens current a).1, ?_⟩
  intro k hk
  rcases Traced.mem_reads_bind hk with hk | ⟨m, hm, hk⟩
  · exact (match_traced_reads tokens current a).2 k hk
  · rw [match_traced_outcome, match_eq] at hm
    by_cases hm1 : m.1 = true
    · rw [if_pos hm1] at hk
      cases hk
    · rw [if_neg hm1] at hk
      have : m.2 = current := by
        split_ifs at hm <;> cases hm <;> first | rfl | exact absurd rfl hm1
      rw [this] at hk
      exact (match_traced_reads tokens current b).2 k hk

theorem op_char_traced_reads (tokens : List Token) (current : Nat) :
    ∀ k ∈ (op_char_traced tokens (current + 1)).reads, k = current := by
  unfold op_char_traced token_at_traced
  rw [if_neg (Nat.succ_ne_zero _), Nat.add_sub_cancel]
  intro k hk
  rcases Traced.mem_reads_bind hk with hk | ⟨m, _, hk⟩
  · simpa using hk
  · cases hk

theorem parse_primary_traced_reads (tokens : List Token) (current : Nat) :
    current ∈ (parse_primary_traced tokens current).reads ∧
      ∀ k ∈ (parse_primary_traced tokens current).reads, k = current := by
  unfold parse_primary_traced
  refine ⟨Traced.mem_reads_left _ (match_traced_reads tokens current _).1, ?_⟩
  intro k hk
  rcases Traced.mem_reads_bind hk with hk | ⟨m, hm, hk⟩
  · exact (match_traced_reads tokens current _).2 k hk
  · rw [match_traced_outcome, match_eq] at hm
    by_cases hm1 : m.1 = true
    · rw [if_pos hm1] at hk
      have : m.2 = current + 1 := by
        split_ifs at hm <;> cases hm <;> first | rfl | (simp at hm1)
      rw [this] at hk
      rcases Traced.mem_reads_bind hk with hk | ⟨n, _, hk⟩
      · unfold parse_number_traced token_at_traced at hk
        rw [if_neg (Nat.succ_ne_zero _), Nat.add_sub_cancel] at hk
        rcases Traced.mem_reads_bind hk with hk | ⟨_, _, hk⟩
        · simpa using hk
        · cases hk
      · cases hk
    · rw [if_neg hm1] at hk
      have : m.2 = current := by
        split_ifs at hm <;> cases hm <;> first | rfl | exact absurd rfl hm1
      rw [this] at hk
      rcases Traced.mem_reads_bind hk with hk | ⟨_, _, hk⟩
      · unfold peek_traced token_at_traced at hk
        simpa using hk
      · cases hk

/-! ### The reads of the two loops -/

theorem op_char_traced_succ (tokens : List Token) (current : Nat) (h : current < MAX_TOKENS) :
    op_char_traced tokens (current + 1) =
      ⟨[current], .ok (tokens.getD current zero_token).lexeme.first⟩ := by
  unfold op_char_traced token_at_traced
  rw [if_neg (Nat.succ_ne_zero _), Nat.add_sub_cancel,
    Traced.bind_ok _ (token_at_of_lt tokens current h)]
  rfl

/-- One iteration of the loop with its reads, in terms of the token at
`current`. -/
theorem binary_loop_traced_succ (sub : List Token → Nat → Traced (ASTNode × Nat))
    (a b : TokenType) (f : Nat) (tokens : List Token) (left : ASTNode) (current : Nat) :
    binary_loop_traced sub a b (f + 1) tokens left current =
      if current < MAX_TOKENS then
        if (tokens.getD current zero_token).type = a ∨
            (tokens.getD current zero_token).type = b then
          ⟨(match_either_traced tokens current a b).reads ++ ([current] ++
              ((sub tokens (current + 1)).bind fun r =>
                binary_loop_traced sub a b f tokens
                  (AST_BINARY left r.1 (tokens.getD current zero_token).lexeme.first)
                  r.2).reads),
            ((sub tokens (current + 1)).bind fun r =>
              binary_loop_traced sub a b f tokens
                (AST_BINARY left r.1 (tokens.getD current zero_token).lexeme.first)
                r.2).outcome⟩
        else ⟨(match_either_traced tokens current a b).reads, .ok (left, current)⟩
      else ⟨(match_either_traced tokens current a b).reads, .undefined⟩ := by
  have ho := match_either_traced_outcome tokens current a b
  rw [match_either_eq] at ho
  simp only [binary_loop_traced]
  by_cases h : current < MAX_TOKENS
  · rw [if_pos h] at ho
    rw [if_pos h]
    by_cases hab : (tokens.getD current zero_token).type = a ∨
        (tokens.getD current zero_token).type = b
    · rw [if_pos hab] at ho
      rw [if_pos hab, Traced.bind_ok _ ho]
      simp only [if_true, op_char_traced_succ tokens current h]
      rw [Traced.bind_ok _ rfl]
    · rw [if_neg hab] at ho
      rw [if_neg hab, Traced.bind_ok _ ho]
      simp only [Bool.false_eq_true, if_false, Traced.silent, List.append_nil]
  · rw [if_neg h] at ho
    rw [if_neg h, Traced.bind_undefined _ ho]

theorem Traced.outcome_bind_ok {α β : Type} {x : Traced α} {f : α → Traced β} {r : β}
    (h : (x.bind f).outcome = .ok r) : ∃ a, x.outcome = .ok a ∧ (f a).outcome = .ok r := by
  cases hx : x.outcome with
  | ok a =>
    rw [Traced.bind_ok f hx] at h
    exact ⟨a, rfl, h⟩
  | exit s l => rw [Traced.bind_exit f hx] at h; cases h
  | undefined => rw [Traced.bind_undefined f hx] at h; cases h

/-- A property of indices that holds at `current`, is kept by a step over an
operator and by `sub`, holds for every read of the loop and for the index that
the loop returns. -/
theorem binary_loop_traced_inv (sub : List Token → Nat → Traced (ASTNode × Nat))
    (a b : TokenType) (Good : Nat → Prop) (tokens : List Token)
    (hstep : ∀ c, Good c → ((tokens.getD c zero_token).type = a ∨
      (tokens.getD c zero_token).type = b) → Good (c + 1))
    (hsub : ∀ i, Good i → (∀ k ∈ (sub tokens i).reads, Good k) ∧
      ∀ r, (sub tokens i).outcome = .ok r → Good r.2)
    (f : Nat) (left : ASTNode) (current : Nat) (hc : Good current) :
    (∀ k ∈ (binary_loop_traced sub a b f tokens left current).reads, Good k) ∧
      ∀ r, (binary_loop_traced sub a b f tokens left current).outcome = .ok r →
        Good r.2 := by
  induction f generalizing left current with
  | zero => exact ⟨fun k hk => (by cases hk), fun r hr => (by cases hr)⟩
  | succ f ih =>
    have hm : ∀ k ∈ (match_either_traced tokens current a b).reads, Good k := by
      intro k hk
      rw [(match_either_traced_reads tokens current a b).2 k hk]
      exact hc
    rw [binary_loop_traced_succ]
    by_cases h : current < MAX_TOKENS
    · rw [if_pos h]
      by_cases hab : (tokens.getD current zero_token).type = a ∨
          (tokens.getD current zero_token).type = b
      · rw [if_pos hab]
        obtain ⟨s1, s2⟩ := hsub _ (hstep _ hc hab)
        constructor
        · intro k hk
          simp only [List.mem_append, List.mem_singleton] at hk
          rcases hk with hk | hk | hk
          · exact hm k hk
          · rw [hk]; exact hc
          · rcases Traced.mem_reads_bind hk with hk | ⟨r1, hr1, hk⟩
            · exact s1 k hk
            · exact (ih _ _ (s2 r1 hr1)).1 k hk
        · intro r hr
          obtain ⟨r1, hr1, hr2⟩ := Traced.outcome_bind_ok hr
          exact (ih _ _ (s2 r1 hr1)).2 r hr2
      · rw [if_neg hab]
        refine ⟨hm, ?_⟩
        intro r hr
        cases hr
        exact hc
    · rw [if_neg h]
      exact ⟨hm, fun r hr => (by cases hr)⟩

/-- When the loop returns, it has read the index that it returns and none
beyond it. -/
theorem binary_loop_traced_last (sub : List Token → Nat → Traced (ASTNode × Nat))
    (a b : TokenType) (tokens : List Token)
    (hsub : ∀ i r, (sub tokens i).outcome = .ok r →
      i ≤ r.2 ∧ ∀ k ∈ (sub tokens i).reads, k ≤ r.2)
    (f : Nat) (left : ASTNode) (current : Nat) (r : ASTNode × Nat)
    (h : (binary_loop_traced sub a b f tokens left current).outcome = .ok r) :
    current ≤ r.2 ∧ r.2 ∈ (binary_loop_traced sub a b f tokens left current).reads ∧
      ∀ k ∈ (binary_loop_traced sub a b f tokens left current).reads, k ≤ r.2 := by
  induction f generalizing left current with
  | zero => cases h
  | succ f ih =>
    have hm := match_either_traced_reads tokens current a b
    rw [binary_loop_traced_succ] at h ⊢
    by_cases hc : current < MAX_TOKENS
    · rw [if_pos hc] at h ⊢
      by_cases hab : (tokens.getD current zero_token).type = a ∨
          (tokens.getD current zero_token).type = b
      · rw [if_pos hab] at h ⊢
        obtain ⟨r1, hr1, hr2⟩ := Traced.outcome_bind_ok h
        obtain ⟨s1, s2⟩ := hsub _ _ hr1
        obtain ⟨i1, i2, i3⟩ := ih _ _ hr2
        refine ⟨by omega, ?_, ?_⟩
        · simp only [List.mem_append, List.mem_singleton]
          exact Or.inr (Or.inr (Traced.mem_reads_right _ hr1 i2))
        · intro k hk
          simp only [List.mem_append, List.mem_singleton] at hk
          rcases hk with hk | hk | hk
          · rw [hm.2 k hk]; omega
          · omega
          · rcases Traced.mem_reads_bind hk with hk | ⟨r2, hr3, hk⟩
            · have := s2 k hk
              omega
            · rw [hr1] at hr3
              cases hr3
              exact i3 k hk
      · rw [if_neg hab] at h ⊢
        cases h
        exact ⟨Nat.le_refl _, hm.1, fun k hk => (by rw [hm.2 k hk])⟩
    · rw [if_neg hc] at h
      cases h

/-! ### Two token arrays that agree where the parser reads -/

theorem token_at_traced_local (a b : List Token) (i : Nat)
    (h : ∀ k ∈ (token_at_traced a i).reads, same_at a b k) :
    token_at_traced a i = token_at_traced b i := by
  have hi : same_at a b i := h i (by simp [token_at_traced])
  unfold same_at at hi
  unfold token_at_traced token_at
  rw [hi]

theorem advance_traced_local (a b : List Token) (i : Nat)
    (h : ∀ k ∈ (advance_traced a i).reads, same_at a b k) :
    advance_traced a i = advance_traced b i := by
  unfold advance_traced at h ⊢
  exact Traced.bind_local _ h (token_at_traced_local a b i) (fun _ _ _ => rfl)

theorem match_traced_local (a b : List Token) (i : Nat) (type : TokenType)
    (h : ∀ k ∈ (match_traced a i type).reads, same_at a b k) :
    match_traced a i type = match_traced b i type := by
  unfold match_traced peek_traced at h ⊢
  refine Traced.bind_local _ h (token_at_traced_local a b i) ?_
  intro t _ ht
  by_cases hty : t.type = type
  · simp only [if_pos hty] at ht ⊢
    exact Traced.bind_local _ ht (advance_traced_local a b i) (fun _ _ _ => rfl)
  · simp only [if_neg hty]

theorem match_either_traced_local (a b : List Token) (i : Nat) (x y : TokenType)
    (h : ∀ k ∈ (match_either_traced a i x y).reads, same_at a b k) :
    match_either_traced a i x y = match_either_traced b i x y := by
  unfold match_either_traced at h ⊢
  refine Traced.bind_local _ h (match_traced_local a b i x) ?_
  intro m _ hm
  by_cases hm1 : m.1 = true
  · simp only [if_pos hm1]
  · simp only [if_neg hm1] at hm ⊢
    exact match_traced_local a b _ y hm

theorem op_char_traced_local (a b : List Token) (i : Nat)
    (h : ∀ k ∈ (op_char_traced a i).reads, same_at a b k) :
    op_char_traced a i = op_char_traced b i := by
  unfold op_char_traced at h ⊢
  by_cases hi : i = 0
  · simp only [if_pos hi]
  · simp only [if_neg hi] at h ⊢
    exact Traced.bind_local _ h (token_at_traced_local a b _) (fun _ _ _ => rfl)

theorem parse_number_traced_local (a b : List Token) (i : Nat)
    (h : ∀ k ∈ (parse_number_traced a i).reads, same_at a b k) :
    parse_number_traced a i = parse_number_traced b i := by
  unfold parse_number_traced at h ⊢
  by_cases hi : i = 0
  · simp only [if_pos hi]
  · simp only [if_neg hi] at h ⊢
    exact Traced.bind_local _ h (token_at_traced_local a b _) (fun _ _ _ => rfl)

theorem parse_primary_traced_local (a b : List Token) (i : Nat)
    (h : ∀ k ∈ (parse_primary_traced a i).reads, same_at a b k) :
    parse_primary_traced a i = parse_primary_traced b i := by
  unfold parse_primary_traced at h ⊢
  refine Traced.bind_local _ h (match_traced_local a b i _) ?_
  intro m _ hm
  by_cases hm1 : m.1 = true
  · simp only [if_pos hm1] at hm ⊢
    exact Traced.bind_local _ hm (parse_number_traced_local a b _) (fun _ _ _ => rfl)
  · simp only [if_neg hm1] at hm ⊢
    unfold peek_traced at hm ⊢
    exact Traced.bind_local _ hm (token_at_traced_local a b _) (fun _ _ _ => rfl)

theorem binary_loop_traced_local (sub : List Token → Nat → Traced (ASTNode × Nat))
    (x y : TokenType) (a b : List Token)
    (hsub : ∀ i, (∀ k ∈ (sub a i).reads, same_at a b k) → sub a i = sub b i)
    (f : Nat) (left : ASTNode) (i : Nat)
    (h : ∀ k ∈ (binary_loop_traced sub x y f a left i).reads, same_at a b k) :
    binary_loop_traced sub x y f a left i = binary_loop_traced sub x y f b left i := by
  induction f generalizing left i with
  | zero => rfl
  | succ f ih =>
    unfold binary_loop_traced at h ⊢
    refine Traced.bind_local _ h (match_either_traced_local a b i x y) ?_
    intro m _ hm
    by_cases hm1 : m.1 = true
    · simp only [if_pos hm1] at hm ⊢
      refine Traced.bind_local _ hm (op_char_traced_local a b _) ?_
      intro op _ hop
      refine Traced.bind_local _ hop (hsub _) ?_
      intro r _ hr
      exact ih _ _ hr
    · simp only [if_neg hm1]

theorem parse_term_traced_local (a b : List Token) (i : Nat)
    (h : ∀ k ∈ (parse_term_traced a i).reads, same_at a b k) :
    parse_term_traced a i = parse_term_traced b i := by
  unfold parse_term_traced at h ⊢
  refine Traced.bind_local _ h (parse_primary_traced_local a b i) ?_
  intro l _ hl
  rw [parse_term_loop_traced_eq] at hl
  rw [parse_term_loop_traced_eq, parse_term_loop_traced_eq]
  exact binary_loop_traced_local _ _ _ a b (parse_primary_traced_local a b) _ _ _ hl

theorem parse_expression_traced_local (a b : List Token) (i : Nat)
    (h : ∀ k ∈ (parse_expression_traced a i).reads, same_at a b k) :
    parse_expression_traced a i = parse_expression_traced b i := by
  unfold parse_expression_traced at h ⊢
  refine Traced.bind_local _ h (parse_term_traced_local a b i) ?_
  intro l _ hl
  rw [parse_expression_loop_traced_eq] at hl
  rw [parse_expression_loop_traced_eq, parse_expression_loop_traced_eq]
  exact binary_loop_traced_local _ _ _ a b (parse_term_traced_local a b) _ _ _ hl

/-! ### The reads of `parse_term`, `parse_expression` and `parse_var_decl` -/

theorem parse_primary_traced_inv (Good : Nat → Prop) (tokens : List Token)
    (hadv : ∀ c, Good c → ((tokens.getD c zero_token).type = TOK_NUMBER ∨
      is_op_kind (tokens.getD c zero_token).type = true) → Good (c + 1))
    (i : Nat) (hi : Good i) :
    (∀ k ∈ (parse_primary_traced tokens i).reads, Good k) ∧
      ∀ r, (parse_primary_traced tokens i).outcome = .ok r → Good r.2 := by
  constructor
  · intro k hk
    rw [(parse_primary_traced_reads tokens i).2 k hk]
    exact hi
  · intro r hr
    rw [parse_primary_traced_outcome] at hr
    obtain ⟨_, ht, _, _, _, h⟩ := parse_primary_ok hr
    rw [h]
    exact hadv i hi (Or.inl ht)

theorem parse_term_traced_inv (Good : Nat → Prop) (tokens : List Token)
    (hadv : ∀ c, Good c → ((tokens.getD c zero_token).type = TOK_NUMBER ∨
      is_op_kind (tokens.getD c zero_token).type = true) → Good (c + 1))
    (i : Nat) (hi : Good i) :
    (∀ k ∈ (parse_term_traced tokens i).reads, Good k) ∧
      ∀ r, (parse_term_traced tokens i).outcome = .ok r → Good r.2 := by
  obtain ⟨p1, p2⟩ := parse_primary_traced_inv Good tokens hadv i hi
  have hloop := fun l (hl : (parse_primary_traced tokens i).outcome = .ok l) =>
    binary_loop_traced_inv parse_primary_traced TOK_STAR TOK_SLASH Good tokens
      (fun c hc hab => hadv c hc (Or.inr (by rcases hab with h | h <;> rw [h] <;> rfl)))
      (parse_primary_traced_inv Good tokens hadv) MAX_TOKENS l.1 l.2 (p2 l hl)
  unfold parse_term_traced
  constructor
  · intro k hk
    rcases Traced.mem_reads_bind hk with hk | ⟨l, hl, hk⟩
    · exact p1 k hk
    · rw [parse_term_loop_traced_eq] at hk
      exact (hloop l hl).1 k hk
  · intro r hr
    obtain ⟨l, hl, hr⟩ := Traced.outcome_bind_ok hr
    rw [parse_term_loop_traced_eq] at hr
    exact (hloop l hl).2 r hr

theorem parse_expression_traced_inv (Good : Nat → Prop) (tokens : List Token)
    (hadv : ∀ c, Good c → ((tokens.getD c zero_token).type = TOK_NUMBER ∨
      is_op_kind (tokens.getD c zero_token).type = true) → Good (c + 1))
    (i : Nat) (hi : Good i) :
    (∀ k ∈ (parse_expression_traced tokens i).reads, Good k) ∧
      ∀ r, (parse_expression_traced tokens i).outcome = .ok r → Good r.2 := by
  obtain ⟨p1, p2⟩ := parse_term_traced_inv Good tokens hadv i hi
  have hloop := fun l (hl : (parse_term_traced tokens i).outcome = .ok l) =>
    binary_loop_traced_inv parse_term_traced TOK_PLUS TOK_MINUS Good tokens
      (fun c hc hab => hadv c hc (Or.inr (by rcases hab with h | h <;> rw [h] <;> rfl)))
      (parse_term_traced_inv Good tokens hadv) MAX_TOKENS l.1 l.2 (p2 l hl)
  unfold parse_expression_traced
  constructor
  · intro k hk
    rcases Traced.mem_reads_bind hk with hk | ⟨l, hl, hk⟩
    · exact p1 k hk
    · rw [parse_expression_loop_traced_eq] at hk
      exact (hloop l hl).1 k hk
  · intro r hr
    obtain ⟨l, hl, hr⟩ := Traced.outcome_bind_ok hr
    rw [parse_expression_loop_traced_eq] at hr
    exact (hloop l hl).2 r hr

theorem parse_primary_traced_last (tokens : List Token) (i : Nat) (r : ASTNode × Nat)
    (h : (parse_primary_traced tokens i).outcome = .ok r) :
    i ≤ r.2 ∧ ∀ k ∈ (parse_primary_traced tokens i).reads, k ≤ r.2 := by
  rw [parse_primary_traced_outcome] at h
  obtain ⟨_, _, _, _, _, hr⟩ := parse_primary_ok h
  rw [hr]
  refine ⟨Nat.le_succ _, fun k hk => ?_⟩
  rw [(parse_primary_traced_reads tokens i).2 k hk]
  exact Nat.le_succ _

theorem parse_term_traced_last (tokens : List Token) (i : Nat) (r : ASTNode × Nat)
    (h : (parse_term_traced tokens i).outcome = .ok r) :
    i ≤ r.2 ∧ r.2 ∈ (parse_term_traced tokens i).reads ∧
      ∀ k ∈ (parse_term_traced tokens i).reads, k ≤ r.2 := by
  unfold parse_term_traced at h ⊢
  obtain ⟨l, hl, hr⟩ := Traced.outcome_bind_ok h
  rw [parse_term_loop_traced_eq] at hr
  obtain ⟨p1, p2⟩ := parse_primary_traced_last tokens i l hl
  obtain ⟨i1, i2, i3⟩ := binary_loop_traced_last parse_primary_traced TOK_STAR TOK_SLASH
    tokens (parse_primary_traced_last tokens) _ _ _ _ hr
  refine ⟨by omega, ?_, ?_⟩
  · apply Traced.mem_reads_right _ hl
    rw [parse_term_loop_traced_eq]
    exact i2
  · intro k hk
    rcases Traced.mem_reads_bind hk with hk | ⟨l1, hl1, hk⟩
    · have := p2 k hk
      omega
    · rw [hl] at hl1
      cases hl1
      rw [parse_term_loop_traced_eq] at hk
      exact i3 k hk

theorem parse_expression_traced_last (tokens : List Token) (i : Nat) (r : ASTNode × Nat)
    (h : (parse_expression_traced tokens i).outcome = .ok r) :
    i ≤ r.2 ∧ r.2 ∈ (parse_expression_traced tokens i).reads ∧
      ∀ k ∈ (parse_expression_traced tokens i).reads, k ≤ r.2 := by
  unfold parse_expression_traced at h ⊢
  obtain ⟨l, hl, hr⟩ := Traced.outcome_bind_ok h
  rw [parse_expression_loop_traced_eq] at hr
  obtain ⟨p1, _, p2⟩ := parse_term_traced_last tokens i l hl
  obtain ⟨i1, i2, i3⟩ := binary_loop_traced_last parse_term_traced TOK_PLUS TOK_MINUS
    tokens (fun i r hr => ⟨(parse_term_traced_last tokens i r hr).1,
      (parse_term_traced_last tokens i r hr).2.2⟩) _ _ _ _ hr
  refine ⟨by omega, ?_, ?_⟩
  · apply Traced.mem_reads_right _ hl
    rw [parse_expression_loop_traced_eq]
    exact i2
  · intro k hk
    rcases Traced.mem_reads_bind hk with hk | ⟨l1, hl1, hk⟩
    · have := p2 k hk
      omega
    · rw [hl] at hl1
      cases hl1
      rw [parse_expression_loop_traced_eq] at hk
      exact i3 k hk

/-- The reads of `parse_var_decl`: the entries 0, 1, 2, the reads of
`parse_expression` from index 3, and the entry at which `parse_expression`
returned. -/
theorem parse_var_decl_traced_reads (tokens : List Token) (k : Nat)
    (hk : k ∈ (parse_var_decl_traced tokens).reads) :
    k ≤ 2 ∨ k ∈ (parse_expression_traced tokens 3).reads ∨
      ∃ value, (parse_expression_traced tokens 3).outcome = .ok value ∧ k = value.2 := by
  unfold parse_var_decl_traced at hk
  simp only [advance_traced_eq] at hk
  rcases Traced.mem_reads_bind hk with hk | ⟨a1, h1, hk⟩
  · simp only [List.mem_singleton] at hk
    omega
  rw [advance, token_at_of_lt tokens 0 (by decide)] at h1
  cases h1
  rcases Traced.mem_reads_bind hk with hk | ⟨a2, h2, hk⟩
  · simp only [List.mem_singleton] at hk
    omega
  simp only [advance, token_at_of_lt tokens 1 (by decide), Outcome.bind, Nat.zero_add] at h2
  cases h2
  rcases Traced.mem_reads_bind hk with hk | ⟨a3, h3, hk⟩
  · simp only [List.mem_singleton] at hk
    omega
  simp only [advance, token_at_of_lt tokens 2 (by decide), Outcome.bind, Nat.reduceAdd] at h3
  cases h3
  rcases Traced.mem_reads_bind hk with hk | ⟨value, hv, hk⟩
  · exact Or.inr (Or.inl hk)
  rcases Traced.mem_reads_bind hk with hk | ⟨a5, _, hk⟩
  · simp only [List.mem_singleton] at hk
    exact Or.inr (Or.inr ⟨value, hv, hk⟩)
  · cases hk

/-- `parse_var_decl` in terms of `parse_expression` from index 3 and of the
lexeme of the entry 1. -/
theorem parse_var_decl_eq (tokens : List Token) :
    parse_var_decl tokens =
      (parse_expression tokens 3).bind fun value =>
        (tokens.getD 1 zero_token).lexeme.read.bind fun name =>
          .ok (AST_VAR_DECL name value.1, value.2 + 1) := by
  unfold parse_var_decl advance
  simp only [token_at_of_lt tokens 0 (by decide), token_at_of_lt tokens 1 (by decide),
    token_at_of_lt tokens 2 (by decide), Outcome.bind, Nat.zero_add, Nat.reduceAdd]
  cases he : parse_expression tokens 3 with
  | ok value =>
    simp only
    rw [token_at_of_lt _ _ (parse_expression_ok he).2.1]
  | exit x l => rfl
  | undefined => rfl

theorem le_last_read (l : List Nat) (k : Nat) (h : k ∈ l) : k ≤ last_read l := by
  induction l with
  | nil => cases h
  | cons x l ih =>
    simp only [last_read, List.foldr_cons]
    rcases List.mem_cons.1 h with h | h
    · rw [h]; exact Nat.le_max_left _ _
    · exact Nat.le_trans (ih h) (Nat.le_max_right _ _)

theorem last_read_le (l : List Nat) (j : Nat) (h : ∀ k ∈ l, k ≤ j) : last_read l ≤ j := by
  induction l with
  | nil => exact Nat.zero_le _
  | cons x l ih =>
    simp only [last_read, List.foldr_cons]
    exact Nat.max_le.2 ⟨h x (List.mem_cons_self _ _),
      ih (fun k hk => h k (List.mem_cons_of_mem _ hk))⟩

/-- The expression of two arrays that agree from index 3 to `expression_end` is
parsed in the same way. -/
theorem parse_expression_same (a b : List Token)
    (hsame : ∀ k, 3 ≤ k → k ≤ expression_end a → a.getD k zero_token = b.getD k zero_token) :
    parse_expression_traced a 3 = parse_expression_traced b 3 := by
  apply parse_expression_traced_local
  intro k hk
  exact hsame k
    ((parse_expression_traced_inv (fun k => 3 ≤ k) a (fun c hc _ => Nat.le_succ_of_le hc) 3
      (Nat.le_refl _)).1 k hk)
    (le_last_read _ k hk)

/-- Two arrays with the same lexeme at index 1 and the same entries from index 3
to `expression_end` give the same outcome of `parse_var_decl`. -/
theorem parse_var_decl_same (a b : List Token)
    (hname : (a.getD 1 zero_token).lexeme = (b.getD 1 zero_token).lexeme)
    (hsame : ∀ k, 3 ≤ k → k ≤ expression_end a →
      a.getD k zero_token = b.getD k zero_token) :
    parse_var_decl a = parse_var_decl b := by
  rw [parse_var_decl_eq, parse_var_decl_eq, ← parse_expression_traced_outcome a,
    ← parse_expression_traced_outcome b, parse_expression_same a b hsame, hname]

/-- C14: for any two token arrays `a` and `b` that have the same lexeme at index
1 and the same entries from index 3 up to and including `expression_end a`, the
last index that `parse_expression` reads, `parse_var_decl` gives the same
outcome (the same error, or the same node and index); when it returns, the node
is a `VarDecl` node named by the lexeme of entry 1, whatever the kind of that
entry, and `expression_end a` is the index of the first token that the
expression did not consume. The kinds of the entries 0, 1, 2 and the entries
after `expression_end a` play no role. -/
theorem parse_var_decl_positional (a b : List Token)
    (hname : (a.getD 1 zero_token).lexeme = (b.getD 1 zero_token).lexeme)
    (hsame : ∀ k, 3 ≤ k → k ≤ expression_end a →
      a.getD k zero_token = b.getD k zero_token) :
    parse_var_decl a = parse_var_decl b ∧
      ∀ r, parse_var_decl a = .ok r →
        ∃ name value, r = (AST_VAR_DECL name value, expression_end a + 1) ∧
          (a.getD 1 zero_token).lexeme = .text name ∧
          parse_expression a 3 = .ok (value, expression_end a) := by
  constructor
  · exact parse_var_decl_same a b hname hsame
  · intro r hr
    obtain ⟨name, value, hv, hn, _, h⟩ := parse_var_decl_ok hr
    have hv1 := hv
    rw [← parse_expression_traced_outcome] at hv1
    obtain ⟨_, l2, l3⟩ := parse_expression_traced_last a 3 value hv1
    have hend : expression_end a = value.2 :=
      Nat.le_antisymm (last_read_le _ _ l3) (le_last_read _ _ l2)
    rw [hend]
    exact ⟨name, value.1, h, hn, hv⟩

/-- C14, witness: `let x = 5 * 3;` and `; 7 ) 5 * 3 let`, whose entry 1 has the
lexeme `x` in the first and kind `TOK_NUMBER` with lexeme `x` in the second
array; the expression ends at index 6. -/
theorem parse_var_decl_positional_witness :
    parse_var_decl [⟨TOK_LET, .text "let".toList⟩, ⟨TOK_IDENTIFIER, .text "x".toList⟩,
        ⟨TOK_EQUAL, .text "=".toList⟩, ⟨TOK_NUMBER, .text "5".toList⟩,
        ⟨TOK_STAR, .text "*".toList⟩, ⟨TOK_NUMBER, .text "3".toList⟩,
        ⟨TOK_SEMICOLON, .text ";".toList⟩, ⟨TOK_EOF, .text []⟩] =
      parse_var_decl [⟨TOK_SEMICOLON, .text ";".toList⟩, ⟨TOK_NUMBER, .text "x".toList⟩,
        ⟨TOK_RPAREN, .text ")".toList⟩, ⟨TOK_NUMBER, .text "5".toList⟩,
        ⟨TOK_STAR, .text "*".toList⟩, ⟨TOK_NUMBER, .text "3".toList⟩,
        ⟨TOK_SEMICOLON, .text ";".toList⟩, ⟨TOK_LET, .text "let".toList⟩] :=
  (parse_var_decl_positional _ _ (by decide) (by decide)).1

/-- The reads of `parse_var_decl` stay at or below an index `e ≥ 3` whose entry
is neither a number nor an operator. -/
theorem parse_var_decl_reads_le (tokens : List Token) (e : Nat) (he : 3 ≤ e)
    (hnum : (tokens.getD e zero_token).type ≠ TOK_NUMBER)
    (hop : is_op_kind (tokens.getD e zero_token).type = false) :
    ∀ k ∈ (parse_var_decl_traced tokens).reads, k ≤ e := by
  have hinv := parse_expression_traced_inv (fun k => k ≤ e) tokens
    (fun c hc hk => by
      have hne : c ≠ e := by
        intro h
        subst h
        rcases hk with hk | hk
        · exact hnum hk
        · rw [hop] at hk; cases hk
      show c + 1 ≤ e
      omega) 3 he
  intro k hk
  rcases parse_var_decl_traced_reads tokens k hk with hk | hk | ⟨value, hv, hk⟩
  · omega
  · exact hinv.1 k hk
  · rw [hk]
    exact hinv.2 value hv

/-- C20: for every source whose token sequence, as stored by `lex`, has at least
three tokens before the end-of-input token, every index of `tokens` that
`parse_var_decl` and the functions it calls read (`peek`, `advance`, `match`,
`tokens[current - 1]`) is at most the index `e` of the end-of-input token,
whatever the outcome of parsing; the reads are those of `parse_var_decl`, whose
outcome the recording does not change. -/
theorem parse_var_decl_reads_bounded (src : List Char) (toks : List Token)
    (hlex : lex src = .ok toks) (hthree : 3 + 1 ≤ toks.length) :
    ∃ e, e + 1 = toks.length ∧ (toks.getD e zero_token).type = TOK_EOF ∧
      (∀ k, k < e → (toks.getD k zero_token).type ≠ TOK_EOF) ∧
      (parse_var_decl_traced toks).outcome = parse_var_decl toks ∧
      ∀ k ∈ (parse_var_decl_traced toks).reads, k ≤ e := by
  obtain ⟨_, ht⟩ := lex_ok_eq hlex
  have hlen : toks.length = (spec_scan src).length + 1 := by
    rw [ht]
    simp only [List.length_append, List.length_map, List.length_singleton]
  have hE : (toks.getD (spec_scan src).length zero_token).type = TOK_EOF := by
    rw [ht, List.getD_eq_getElem?_getD, List.getElem?_append_right (by simp)]
    simp
  refine ⟨(spec_scan src).length, hlen.symm, hE, ?_, parse_var_decl_traced_outcome toks, ?_⟩
  · intro k hk
    rw [ht, List.getD_eq_getElem?_getD,
      List.getElem?_append_left (by simpa using hk),
      List.getElem?_map, List.getElem?_eq_getElem hk]
    simp only [Option.map_some', Option.getD_some, stored_type]
    exact scanned_ne_eof (spec_scan_scanned src _ (List.getElem_mem hk))
  · exact parse_var_decl_reads_le toks _ (by omega) (by rw [hE]; decide)
      (by rw [hE]; rfl)

/-- C20, witness: `let x = 5 * 3;` has the end-of-input token at index 7, and
`let x = ;`, which ends in a parse error, at index 4. -/
theorem parse_var_decl_reads_bounded_witness :
    (∃ e, e + 1 = 8 ∧
      ∀ k ∈ (parse_var_decl_traced [⟨TOK_LET, .text "let".toList⟩,
        ⟨TOK_IDENTIFIER, .text "x".toList⟩, ⟨TOK_EQUAL, .text "=".toList⟩,
        ⟨TOK_NUMBER, .text "5".toList⟩, ⟨TOK_STAR, .text "*".toList⟩,
        ⟨TOK_NUMBER, .text "3".toList⟩, ⟨TOK_SEMICOLON, .text ";".toList⟩,
        ⟨TOK_EOF, .text []⟩]).reads, k ≤ e) ∧
    (∃ e, e + 1 = 5 ∧
      ∀ k ∈ (parse_var_decl_traced [⟨TOK_LET, .text "let".toList⟩,
        ⟨TOK_IDENTIFIER, .text "x".toList⟩, ⟨TOK_EQUAL, .text "=".toList⟩,
        ⟨TOK_SEMICOLON, .text ";".toList⟩, ⟨TOK_EOF, .text []⟩]).reads, k ≤ e) :=
  ⟨(parse_var_decl_reads_bounded "let x = 5 * 3;".toList
      [⟨TOK_LET, .text "let".toList⟩,
        ⟨TOK_IDENTIFIER, .text "x".toList⟩, ⟨TOK_EQUAL, .text "=".toList⟩,
        ⟨TOK_NUMBER, .text "5".toList⟩, ⟨TOK_STAR, .text "*".toList⟩,
        ⟨TOK_NUMBER, .text "3".toList⟩, ⟨TOK_SEMICOLON, .text ";".toList⟩,
        ⟨TOK_EOF, .text []⟩] (by decide) (by decide)).imp
      (fun _ h => ⟨h.1, h.2.2.2.2⟩),
    (parse_var_decl_reads_bounded "let x = ;".toList
      [⟨TOK_LET, .text "let".toList⟩,
        ⟨TOK_IDENTIFIER, .text "x".toList⟩, ⟨TOK_EQUAL, .text "=".toList⟩,
        ⟨TOK_SEMICOLON, .text ";".toList⟩, ⟨TOK_EOF, .text []⟩] (by decide)
      (by decide)).imp (fun _ h => ⟨h.1, h.2.2.2.2⟩)⟩

/-! ## Text after the `;` -/

theorem spec_scan_nul (cs : List Char) : spec_scan (Char.ofNat 0 :: cs) = [] := by
  unfold spec_scan
  simp only [List.length_cons, spec_scan_loop, if_true]

theorem head_dropWhile (p : Char → Bool) (cs tail : List Char) (c : Char) (hc : p c = false) :
    ∀ x, (cs.dropWhile p ++ c :: tail).head? = some x → p x = false := by
  intro x hx
  cases h : cs.dropWhile p with
  | nil =>
    rw [h] at hx
    simp only [List.nil_append, List.head?_cons, Option.some.injEq] at hx
    rw [← hx]
    exact hc
  | cons y ys =>
    rw [h] at hx
    simp only [List.cons_append, List.head?_cons, Option.some.injEq] at hx
    rw [← hx]
    have := List.head?_dropWhile_not p cs
    rw [h] at this
    simpa using this

theorem split_run (p : Char → Bool) (cs tail : List Char) :
    cs ++ tail = cs.takeWhile p ++ (cs.dropWhile p ++ tail) := by
  rw [← List.append_assoc, List.takeWhile_append_dropWhile]

/-- The tokens of a source that continues after a `;`: those of the source up to
the `;`, followed by those of the rest, unless a NUL character ends the source
before. -/
theorem spec_scan_semicolon (n : Nat) : ∀ (S R : List Char), S.length ≤ n →
    spec_scan (S ++ ';' :: R) = spec_scan (S ++ [';']) ∨
    ∃ pre, spec_scan (S ++ [';']) = pre ++ [⟨TOK_SEMICOLON, [';']⟩] ∧
      spec_scan (S ++ ';' :: R) = pre ++ ⟨TOK_SEMICOLON, [';']⟩ :: spec_scan R := by
  induction n with
  | zero =>
    intro S R hS
    have : S = [] := List.length_eq_zero.1 (Nat.le_zero.1 hS)
    subst this
    right
    refine ⟨[], by decide, ?_⟩
    rw [List.nil_append, spec_scan_single ';' R (by decide) (by decide) (by decide)]
    rfl
  | succ n ih =>
    intro S R hS
    cases S with
    | nil =>
      right
      refine ⟨[], by decide, ?_⟩
      rw [List.nil_append, spec_scan_single ';' R (by decide) (by decide) (by decide)]
      rfl
    | cons c cs =>
      simp only [List.length_cons] at hS
      have hcs : cs.length ≤ n := by omega
      by_cases h0 : c = Char.ofNat 0
      · left
        subst h0
        rw [List.cons_append, List.cons_append, spec_scan_nul, spec_scan_nul]
      by_cases hs : isspace c = true
      · rw [List.cons_append, List.cons_append, spec_scan_space c _ hs, spec_scan_space c _ hs]
        exact ih cs R hcs
      by_cases ha : isalpha c = true
      · have hd : (cs.dropWhile isalnum).length ≤ n :=
          Nat.le_trans (List.dropWhile_sublist _).length_le hcs
        have e1 : c :: cs ++ ';' :: R =
            c :: cs.takeWhile isalnum ++ (cs.dropWhile isalnum ++ ';' :: R) := by
          rw [List.cons_append, List.cons_append, split_run isalnum cs]
        have e2 : c :: cs ++ [';'] =
            c :: cs.takeWhile isalnum ++ (cs.dropWhile isalnum ++ [';']) := by
          rw [List.cons_append, List.cons_append, split_run isalnum cs]
        rw [e1, e2,
          spec_scan_word c _ _ ha (fun x hx => (List.mem_takeWhile_imp hx))
            (head_dropWhile isalnum cs R ';' (by decide)),
          spec_scan_word c _ _ ha (fun x hx => (List.mem_takeWhile_imp hx))
            (head_dropWhile isalnum cs [] ';' (by decide))]
        rcases ih (cs.dropWhile isalnum) R hd with h | ⟨pre, h1, h2⟩
        · left
          rw [h]
        · right
          exact ⟨_ :: pre, by rw [h1]; rfl, by rw [h2]; rfl⟩
      by_cases hdg : isdigit c = true
      · have hd : (cs.dropWhile isdigit).length ≤ n :=
          Nat.le_trans (List.dropWhile_sublist _).length_le hcs
        have e1 : c :: cs ++ ';' :: R =
            c :: cs.takeWhile isdigit ++ (cs.dropWhile isdigit ++ ';' :: R) := by
          rw [List.cons_append, List.cons_append, split_run isdigit cs]
        have e2 : c :: cs ++ [';'] =
            c :: cs.takeWhile isdigit ++ (cs.dropWhile isdigit ++ [';']) := by
          rw [List.cons_append, List.cons_append, split_run isdigit cs]
        rw [e1, e2,
          spec_scan_number c _ _ hdg (fun x hx => (List.mem_takeWhile_imp hx))
            (head_dropWhile isdigit cs R ';' (by decide)),
          spec_scan_number c _ _ hdg (fun x hx => (List.mem_takeWhile_imp hx))
            (head_dropWhile isdigit cs [] ';' (by decide))]
        rcases ih (cs.dropWhile isdigit) R hd with h | ⟨pre, h1, h2⟩
        · left
          rw [h]
        · right
          exact ⟨_ :: pre, by rw [h1]; rfl, by rw [h2]; rfl⟩
      · have hn : isalnum c = false := by
          simp only [Bool.not_eq_true] at ha hdg
          simp [isalnum, ha, hdg]
        simp only [Bool.not_eq_true] at hs
        rw [List.cons_append, List.cons_append, spec_scan_single c _ h0 hs hn,
          spec_scan_single c _ h0 hs hn]
        rcases ih cs R hcs with h | ⟨pre, h1, h2⟩
        · left
          rw [h]
        · right
          exact ⟨_ :: pre, by rw [h1]; rfl, by rw [h2]; rfl⟩

theorem expression_end_le (tokens : List Token) (e : Nat) (he : 3 ≤ e)
    (hnum : (tokens.getD e zero_token).type ≠ TOK_NUMBER)
    (hop : is_op_kind (tokens.getD e zero_token).type = false) :
    expression_end tokens ≤ e := by
  apply last_read_le
  exact (parse_expression_traced_inv (fun k => k ≤ e) tokens
    (fun c hc hk => by
      have hne : c ≠ e := by
        intro h
        subst h
        rcases hk with hk | hk
        · exact hnum hk
        · rw [hop] at hk; cases hk
      show c + 1 ≤ e
      omega) 3 he).1

theorem getD_append_cons (P : List Token) (s : Token) (X Y : List Token) (k : Nat)
    (hk : k ≤ P.length) :
    (P ++ s :: X).getD k zero_token = (P ++ s :: Y).getD k zero_token := by
  induction P generalizing k with
  | nil =>
    simp only [List.length_nil, Nat.le_zero] at hk
    subst hk
    rfl
  | cons p P ih =>
    cases k with
    | zero => rfl
    | succ k =>
      simp only [List.length_cons] at hk
      simp only [List.cons_append, List.getD_cons_succ]
      exact ih k (by omega)

theorem getD_after_semicolon (P : List Token) (k : Nat) (hk : P.length ≤ k) :
    ((P ++ [(⟨TOK_SEMICOLON, .text [';']⟩ : Token),
      ⟨TOK_EOF, .text []⟩]).getD k zero_token).type ≠ TOK_NUMBER ∧
    is_op_kind ((P ++ [(⟨TOK_SEMICOLON, .text [';']⟩ : Token),
      ⟨TOK_EOF, .text []⟩]).getD k zero_token).type = false := by
  induction P generalizing k with
  | nil =>
    match k with
    | 0 => exact ⟨by decide, rfl⟩
    | 1 => exact ⟨by decide, rfl⟩
    | k + 2 =>
      simp only [List.nil_append, List.getD_cons_succ, List.getD_nil]
      exact ⟨by decide, rfl⟩
  | cons p P ih =>
    cases k with
    | zero => simp at hk
    | succ k =>
      simp only [List.length_cons] at hk
      simp only [List.cons_append, List.getD_cons_succ]
      exact ih k (by omega)

theorem parse_var_decl_number {tokens : List Token} {r : ASTNode × Nat}
    (h : parse_var_decl tokens = .ok r) : (tokens.getD 3 zero_token).type = TOK_NUMBER := by
  by_contra hn
  cases hr : (tokens.getD 3 zero_token).lexeme.read with
  | ok s =>
    rw [parse_var_decl_exit tokens s hn (read_ok hr)] at h
    cases h
  | exit x l => cases hl : (tokens.getD 3 zero_token).lexeme <;> rw [hl] at hr <;> cases hr
  | undefined =>
    obtain ⟨_, value, hv, _⟩ := parse_var_decl_ok h
    unfold parse_expression parse_term at hv
    rw [parse_primary_eq, if_pos (by decide), if_neg hn, hr] at hv
    cases hv

end TsCompiler
